import Mathlib

/-!
# Haloy deployment control plane

A shallow embedding of the daemon's label codec (`internal/config/labels.go`),
deployment registry (`internal/haloyd/deployments.go`), updater
(`internal/haloyd/updater.go`), proxy configuration generator
(`internal/haloyd/haproxy.go`) and certificate refresh
(`internal/haloyd/certificates.go`), followed by theorems about them.

Conventions.
* Go strings are Lean `String`s; byte-wise comparison of Go strings is
  code-point-wise comparison of the character lists.
* A Go map is the list of its entries in the order in which a `range` loop
  visits them (`GoMap`).  Go leaves that order unspecified, so a statement
  about a function that ranges over a map either does not depend on the order
  or quantifies over the permutations of the entries.
* Calls that leave the process (container runtime, file system, ACME, DNS)
  are fields of an oracle record and return `Except`.
-/

namespace Haloy

deriving instance DecidableEq for Except

/-! ## Go maps -/

/-- A Go `map[κ]α`: its entries, in the order a `range` loop visits them. -/
abbrev GoMap (κ α : Type) := List (κ × α)

/-- The lookup `v, ok := m[k]`. -/
def mapGet {κ α : Type} [DecidableEq κ] : GoMap κ α → κ → Option α
  | [], _ => none
  | (k', v) :: rest, k => if k' = k then some v else mapGet rest k

/-- The assignment `m[k] = v`: an existing entry is overwritten in place, a
new one is added. -/
def mapSet {κ α : Type} [DecidableEq κ] : GoMap κ α → κ → α → GoMap κ α
  | [], k, v => [(k, v)]
  | (k', v') :: rest, k, v =>
    if k' = k then (k, v) :: rest else (k', v') :: mapSet rest k v

/-- The keys of a map, in iteration order. -/
def mapKeys {κ α : Type} (m : GoMap κ α) : List κ := m.map Prod.fst

/-- The values of a map, in iteration order. -/
def mapValues {κ α : Type} (m : GoMap κ α) : List α := m.map Prod.snd

/-- The well-formedness every Go map has: no key occurs twice. -/
def mapWF {κ α : Type} (m : GoMap κ α) : Prop := (mapKeys m).Nodup

instance {κ α : Type} [DecidableEq κ] (m : GoMap κ α) : Decidable (mapWF m) :=
  inferInstanceAs (Decidable (mapKeys m).Nodup)

/-- The lookup `m[k]` of a `map[string]string`, which is `""` for a missing key. -/
def mapGetD (m : GoMap String String) (k : String) : String :=
  (mapGet m k).getD ""

/-! ## Strings -/

/-- The comparison `a < b` of Go strings, on character lists. -/
def lessChars : List Char → List Char → Bool
  | [], [] => false
  | [], _ :: _ => true
  | _ :: _, [] => false
  | a :: as, b :: bs =>
    if a.toNat < b.toNat then true
    else if b.toNat < a.toNat then false
    else lessChars as bs

/-- The comparison `a < b` of Go strings. -/
def strLess (a b : String) : Bool := lessChars a.data b.data

/-- The function `strings.HasPrefix`. -/
def hasPrefix (s pre : String) : Bool := pre.data.isPrefixOf s.data

/-- The function `strings.HasSuffix`. -/
def hasSuffix (s suf : String) : Bool := suf.data.isSuffixOf s.data

/-- Whether `pat` occurs in `cs` as a contiguous block. -/
def containsChars (pat : List Char) : List Char → Bool
  | [] => pat.isEmpty
  | c :: cs => pat.isPrefixOf (c :: cs) || containsChars pat cs

/-- The function `strings.Contains`. -/
def strContains (s sub : String) : Bool := containsChars sub.data s.data

/-- Splitting at every occurrence of the separator character; the accumulator
holds the characters of the current piece in reverse. -/
def splitCharsAux (sep : Char) : List Char → List Char → List (List Char)
  | [], acc => [acc.reverse]
  | c :: cs, acc =>
    if c = sep then acc.reverse :: splitCharsAux sep cs []
    else splitCharsAux sep cs (c :: acc)

/-- The function `strings.Split(s, ".")`, on character lists. -/
def splitDots (s : String) : List (List Char) := splitCharsAux '.' s.data []

/-- The function `strings.Join`. -/
def strJoin : List String → String → String
  | [], _ => ""
  | [a], _ => a
  | a :: b :: rest, sep => a ++ sep ++ strJoin (b :: rest) sep

/-- The function `strings.ReplaceAll(s, ".", "_")`. -/
def replaceDots (s : String) : String :=
  ⟨s.data.map (fun c => if c = '.' then '_' else c)⟩

/-- A character in `a-z` or `A-Z`. -/
def isLetter (c : Char) : Bool :=
  ('a'.toNat ≤ c.toNat && c.toNat ≤ 'z'.toNat) || ('A'.toNat ≤ c.toNat && c.toNat ≤ 'Z'.toNat)

/-- A character in `0-9`. -/
def isDigit (c : Char) : Bool := '0'.toNat ≤ c.toNat && c.toNat ≤ '9'.toNat

/-- A character in `a-z`, `A-Z` or `0-9`. -/
def isAlnum (c : Char) : Bool := isLetter c || isDigit c

/-! ## `helpers/validators.go` -/

/-- The function `validateDomainLabel`, on the characters of a label. -/
def validateDomainLabel (label : List Char) : Except String Unit :=
  if label.length = 0 ∨ (String.mk label).utf8ByteSize > 63 then
    .error "label length must be between 1 and 63 characters"
  else if label.head? = some '-' ∨ label.getLast? = some '-' then
    .error "label cannot start or end with hyphen"
  else
    match label.find? (fun r => !(isAlnum r || r == '-')) with
    | some r => .error ("label contains invalid character: " ++ String.singleton r)
    | none => .ok ()

/-- The function `validateTLD`, on the characters of the last label. -/
def validateTLD (tld : List Char) : Except String Unit :=
  if (String.mk tld).utf8ByteSize < 2 ∨ (String.mk tld).utf8ByteSize > 63 then
    .error "TLD length must be between 2 and 63 characters"
  else if tld.head? = some '-' ∨ tld.getLast? = some '-' then
    .error "TLD cannot start or end with hyphen"
  else
    match tld.find? (fun r => !isAlnum r) with
    | some r => .error ("TLD contains invalid character: " ++ String.singleton r)
    | none => .ok ()

/-- The loop of `IsValidDomain` over the labels: the last label is validated
as a top-level domain, the others as plain labels. -/
def validateLabels : List (List Char) → Except String Unit
  | [] => .ok ()
  | [tld] =>
    match validateTLD tld with
    | .ok _ => .ok ()
    | .error e => .error ("invalid TLD '" ++ String.mk tld ++ "': " ++ e)
  | label :: rest =>
    match validateDomainLabel label with
    | .ok _ => validateLabels rest
    | .error e => .error ("invalid label '" ++ String.mk label ++ "': " ++ e)

/-- The function `helpers.IsValidDomain`; `.ok ()` is the `nil` error. -/
def IsValidDomain (domain : String) : Except String Unit :=
  if domain.utf8ByteSize = 0 ∨ domain.utf8ByteSize > 253 then
    .error "domain length must be between 1 and 253 characters"
  else if hasPrefix domain "." ∨ hasSuffix domain "." then
    .error "domain cannot start or end with a dot"
  else if hasPrefix domain "-" ∨ hasSuffix domain "-" then
    .error "domain cannot start or end with a hyphen"
  else if (splitDots domain).length < 2 then
    .error "domain must have at least two labels (e.g., example.com)"
  else validateLabels (splitDots domain)

/-- A character of the class `[a-zA-Z0-9._%+-]`. -/
def isEmailLocalChar (c : Char) : Bool :=
  isAlnum c || c == '.' || c == '_' || c == '%' || c == '+' || c == '-'

/-- A character of the class `[a-zA-Z0-9.-]`. -/
def isEmailDomainChar (c : Char) : Bool := isAlnum c || c == '.' || c == '-'

/-- The function `helpers.IsValidEmail`: a match of the whole string against
`^[a-zA-Z0-9._%+-]+@[a-zA-Z0-9.-]+\.[a-zA-Z]{2,}$`.  Neither class holds `@`,
so the local part is what precedes the first `@`; the last class holds no
dot, so the final group is what follows the last dot. -/
def IsValidEmail (email : String) : Bool :=
  let localPart := email.data.takeWhile (fun c => c != '@')
  let afterLocal := email.data.dropWhile (fun c => c != '@')
  match afterLocal with
  | [] => false
  | _ :: host =>
    let tld := (host.reverse.takeWhile (fun c => c != '.')).reverse
    let beforeTld := (host.reverse.dropWhile (fun c => c != '.')).reverse
    match beforeTld.reverse with
    | [] => false
    | _ :: revName =>
      !localPart.isEmpty && localPart.all isEmailLocalChar &&
      !revName.isEmpty && revName.all isEmailDomainChar &&
      decide (2 ≤ tld.length) && tld.all isLetter

/-! ## `internal/config`: domains and container labels -/

/-- The type `config.Domain`. -/
structure Domain where
  Canonical : String := ""
  Aliases : List String := []
  deriving DecidableEq, Repr

/-- The method `Domain.Validate`. -/
def Domain.Validate (d : Domain) : Except String Unit :=
  match IsValidDomain d.Canonical with
  | .error e => .error e
  | .ok _ =>
    d.Aliases.foldl
      (fun acc a =>
        match acc with
        | .error e => .error e
        | .ok _ =>
          match IsValidDomain a with
          | .error e => .error ("alias '" ++ a ++ "': " ++ e)
          | .ok _ => .ok ())
      (.ok ())

def LabelAppName : String := "dev.haloy.appName"
def LabelDeploymentID : String := "dev.haloy.deployment-id"
def LabelHealthCheckPath : String := "dev.haloy.health-check-path"
def LabelACMEEmail : String := "dev.haloy.acme.email"
def LabelPort : String := "dev.haloy.port"
def LabelRole : String := "dev.haloy.role"
def HAProxyLabelRole : String := "haproxy"
def HaloydLabelRole : String := "haloyd"
def AppLabelRole : String := "app"
def DefaultHealthCheckPath : String := "/"
def DefaultContainerPort : String := "8080"
def DockerNetwork : String := "haloy"
def APIServerPort : String := "9999"

/-- The key `fmt.Sprintf(LabelDomainCanonical, i)`. -/
def labelDomainCanonical (i : Nat) : String :=
  "dev.haloy.domain." ++ toString i

/-- The key `fmt.Sprintf(LabelDomainAlias, i, j)`. -/
def labelDomainAlias (i j : Nat) : String :=
  "dev.haloy.domain." ++ toString i ++ ".alias." ++ toString j

/-- The type `config.ContainerLabels`; `Port` is the string type `config.Port`. -/
structure ContainerLabels where
  AppName : String := ""
  DeploymentID : String := ""
  HealthCheckPath : String := ""
  ACMEEmail : String := ""
  Port : String := ""
  Domains : List Domain := []
  Role : String := ""
  deriving DecidableEq, Repr

/-- The loop of `ContainerLabels.Validate` over the domains. -/
def validateDomains : List Domain → Except String Unit
  | [] => .ok ()
  | d :: rest =>
    match d.Validate with
    | .error e => .error ("domain validation failed: " ++ e)
    | .ok _ => validateDomains rest

/-- The method `ContainerLabels.Validate`. -/
def ContainerLabels.Validate (cl : ContainerLabels) : Except String Unit :=
  if cl.AppName = "" then .error "appName is required"
  else if cl.DeploymentID = "" then .error "deploymentID is required"
  else
    match validateDomains cl.Domains with
    | .error e => .error e
    | .ok _ =>
      if cl.ACMEEmail ≠ "" ∧ IsValidEmail cl.ACMEEmail = false then
        .error "ACME email is not valid"
      else if cl.Port = "" then .error "port is required"
      else if cl.Role ≠ AppLabelRole then .error "role must be 'app'"
      else .ok ()

/-! ### `fmt.Sscanf` on the two key formats -/

/-- The space characters of package `fmt` (its `isSpace`). -/
def isSpace (c : Char) : Bool :=
  let n := c.toNat
  (0x09 ≤ n && n ≤ 0x0d) || n == 0x20 || n == 0x85 || n == 0xa0 || n == 0x1680 ||
  (0x2000 ≤ n && n ≤ 0x200a) || n == 0x2028 || n == 0x2029 || n == 0x202f ||
  n == 0x205f || n == 0x3000

/-- The method `SkipSpace` as `Sscanf` runs it before a verb: spaces are
dropped, a newline is an error. -/
def skipSpace : List Char → Option (List Char)
  | [] => some []
  | c :: cs =>
    if c = '\n' then none
    else if isSpace c then skipSpace cs
    else some (c :: cs)

/-- The value of a run of decimal digits. -/
def digitsValue (ds : List Char) : Nat :=
  ds.foldl (fun acc d => 10 * acc + (d.toNat - '0'.toNat)) 0

/-- The verb `%d` into an `int`: leading spaces, an optional sign, one or more
decimal digits as far as they go, a value that fits 64 bits.  Returns the value
and the input left over. -/
def scanInt (input : List Char) : Option (Int × List Char) :=
  match skipSpace input with
  | none => none
  | some rest =>
    let (neg, afterSign) :=
      match rest with
      | '-' :: r => (true, r)
      | '+' :: r => (false, r)
      | r => (false, r)
    let ds := afterSign.takeWhile isDigit
    let left := afterSign.dropWhile isDigit
    if ds.isEmpty then none
    else
      let v : Int := if neg then - (digitsValue ds : Int) else (digitsValue ds : Int)
      if - (2 ^ 63 : Int) ≤ v ∧ v < (2 ^ 63 : Int) then some (v, left) else none

/-- Literal text of a format: it has to be next in the input. -/
def scanLiteral (lit : List Char) (input : List Char) : Option (List Char) :=
  if lit.isPrefixOf input then some (input.drop lit.length) else none

/-- The call `fmt.Sscanf(key, "dev.haloy.domain.%d", &domainIdx)`: `none` is a
non-nil error.  Input after the number is not looked at. -/
def sscanfDomainCanonical (key : String) : Option Int :=
  match scanLiteral "dev.haloy.domain.".data key.data with
  | none => none
  | some r =>
    match scanInt r with
    | none => none
    | some (i, _) => some i

/-- The call `fmt.Sscanf(key, "dev.haloy.domain.%d.alias.%d", &domainIdx, &aliasIdx)`. -/
def sscanfDomainAlias (key : String) : Option (Int × Int) :=
  match scanLiteral "dev.haloy.domain.".data key.data with
  | none => none
  | some r =>
    match scanInt r with
    | none => none
    | some (i, r') =>
      match scanLiteral ".alias.".data r' with
      | none => none
      | some r'' =>
        match scanInt r'' with
        | none => none
        | some (j, _) => some (i, j)

/-! ### Parsing and printing labels -/

/-- The effect of `d := getOrCreateDomain(domainMap, idx)` followed by an
assignment `f` to a field of `d`. -/
def updateDomain (domainMap : GoMap Int Domain) (idx : Int) (f : Domain → Domain) :
    GoMap Int Domain :=
  match mapGet domainMap idx with
  | some d => mapSet domainMap idx (f d)
  | none => mapSet domainMap idx (f {})

/-- The body of the loop of `ParseContainerLabels` over the labels. -/
def parseDomainLabel (domainMap : GoMap Int Domain) (kv : String × String) :
    GoMap Int Domain :=
  if hasPrefix kv.1 "dev.haloy.domain." = false then domainMap
  else if strContains kv.1 ".alias." then
    match sscanfDomainAlias kv.1 with
    | none => domainMap
    | some (domainIdx, _) =>
      updateDomain domainMap domainIdx (fun d => { d with Aliases := d.Aliases ++ [kv.2] })
  else
    match sscanfDomainCanonical kv.1 with
    | none => domainMap
    | some domainIdx =>
      updateDomain domainMap domainIdx (fun d => { d with Canonical := kv.2 })

/-- The descriptor `ParseContainerLabels` builds before it validates it. -/
def parseLabelsRaw (labels : GoMap String String) : ContainerLabels :=
  let domainMap := labels.foldl parseDomainLabel []
  let indices := (mapKeys domainMap).insertionSort (fun a b => a ≤ b)
  { AppName := mapGetD labels LabelAppName
    DeploymentID := mapGetD labels LabelDeploymentID
    ACMEEmail := mapGetD labels LabelACMEEmail
    Role := mapGetD labels LabelRole
    Port := (mapGet labels LabelPort).getD DefaultContainerPort
    HealthCheckPath := (mapGet labels LabelHealthCheckPath).getD DefaultHealthCheckPath
    Domains := indices.map (fun i => (mapGet domainMap i).getD {}) }

/-- The function `config.ParseContainerLabels`; the order of `labels` is the
order in which its `range` loop visits the labels. -/
def ParseContainerLabels (labels : GoMap String String) : Except String ContainerLabels :=
  match (parseLabelsRaw labels).Validate with
  | .error e => .error e
  | .ok _ => .ok (parseLabelsRaw labels)

/-- The inner loop of `ToLabels` over the aliases of domain `i`, from alias index `j`. -/
def aliasesToLabels (i : Nat) : Nat → List String → GoMap String String → GoMap String String
  | _, [], labels => labels
  | j, a :: rest, labels => aliasesToLabels i (j + 1) rest (mapSet labels (labelDomainAlias i j) a)

/-- The outer loop of `ToLabels` over the domains, from domain index `i`. -/
def domainsToLabels : Nat → List Domain → GoMap String String → GoMap String String
  | _, [], labels => labels
  | i, d :: rest, labels =>
    domainsToLabels (i + 1) rest
      (aliasesToLabels i 0 d.Aliases (mapSet labels (labelDomainCanonical i) d.Canonical))

/-- The method `ContainerLabels.ToLabels`. -/
def ContainerLabels.ToLabels (cl : ContainerLabels) : GoMap String String :=
  domainsToLabels 0 cl.Domains
    [ (LabelAppName, cl.AppName),
      (LabelDeploymentID, cl.DeploymentID),
      (LabelHealthCheckPath, cl.HealthCheckPath),
      (LabelPort, cl.Port),
      (LabelACMEEmail, cl.ACMEEmail),
      (LabelRole, cl.Role) ]

/-! ## The container runtime, as far as the daemon reads it -/

/-- The fields of `container.State` that `ContainerNetworkIP` reads. -/
structure ContainerState where
  Running : Bool
  Status : String
  ExitCode : Int
  deriving DecidableEq, Repr

/-- The fields of `container.InspectResponse` that `BuildDeployments` reads.
`ExposedPorts` lists `exposedPort.Port()` for the keys of
`Config.ExposedPorts`; `Networks` maps a network name of
`NetworkSettings.Networks` to its `IPAddress`. -/
structure InspectResponse where
  ID : String
  Labels : GoMap String String
  ExposedPorts : List String
  Networks : GoMap String String
  State : Option ContainerState
  deriving DecidableEq, Repr

/-- The calls to the container runtime, as oracles. `ContainerList` is
`GetAppContainers(ctx, cli, false, "")`: the ids of the running containers
with the role label `app`, or the error of the listing. -/
structure DockerClient where
  ContainerList : Except String (List String)
  ContainerInspect : String → Except String InspectResponse
  HealthCheckContainer : String → Except String Unit
  StopContainers : String → String → Except String (List String)
  RemoveContainers : String → String → Except String (List String)

/-- The function `docker.ContainerNetworkIP`. -/
def ContainerNetworkIP (containerInfo : InspectResponse) (networkName : String) :
    Except String String :=
  match containerInfo.State with
  | none => .error "container state is nil"
  | some st =>
    if st.Running = false then
      .error ("container is not running (status: " ++ st.Status ++ ", exit code: " ++
        toString st.ExitCode ++ ")")
    else
      match mapGet containerInfo.Networks networkName with
      | none =>
        .error ("container not connected to network '" ++ networkName ++
          "'. Container is using: [" ++ strJoin (mapKeys containerInfo.Networks) " " ++ "]")
      | some ipAddress =>
        if ipAddress = "" then
          .error ("container has no IP address on network '" ++ networkName ++ "'")
        else .ok ipAddress

/-! ## `internal/haloyd/deployments.go` -/

/-- The type `DeploymentInstance`. -/
structure DeploymentInstance where
  ContainerID : String
  IP : String
  Port : String
  deriving DecidableEq, Repr

/-- The type `Deployment`. `Labels` is a pointer in the source; it is not nil
in any deployment the registry builds. -/
structure Deployment where
  Labels : ContainerLabels
  Instances : List DeploymentInstance
  deriving DecidableEq, Repr

/-- The type `ContainerExclusionReason`. -/
inductive ContainerExclusionReason where
  | InspectionFailed
  | LabelParsingFailed
  | NoDomains
  | NotDefaultNetwork
  | IPExtractionFailed
  | PortMismatch
  deriving DecidableEq, Repr

/-- The type `ExcludedContainerInfo`. -/
structure ExcludedContainerInfo where
  ContainerID : String
  Reason : ContainerExclusionReason
  Message : String
  Labels : Option ContainerLabels
  deriving DecidableEq, Repr

/-- The function `validateContainerPort`. -/
def validateContainerPort (exposedPorts : List String) (labelPort : String) : Bool :=
  let labelPort := if labelPort = "" then DefaultContainerPort else labelPort
  if exposedPorts.length = 0 then true
  else exposedPorts.any (fun p => p == labelPort)

/-- The function `exposedPortsAsString`. -/
def exposedPortsAsString (exposedPorts : List String) : String :=
  if exposedPorts.length = 0 then "none"
  else "[" ++ strJoin exposedPorts ", " ++ "]"

/-- The checks `BuildDeployments` runs on one listed container, up to the
construction of its instance: either the reason it is excluded, or its parsed
labels and its instance. -/
def inspectContainer (cli : DockerClient) (id : String) :
    Except ExcludedContainerInfo (ContainerLabels × DeploymentInstance) :=
  match cli.ContainerInspect id with
  | .error e => .error ⟨id, .InspectionFailed, e, none⟩
  | .ok container =>
    match ParseContainerLabels container.Labels with
    | .error e => .error ⟨container.ID, .LabelParsingFailed, e, none⟩
    | .ok labels =>
      if (mapGet container.Networks DockerNetwork).isNone then
        .error ⟨container.ID, .NotDefaultNetwork, "", some labels⟩
      else if validateContainerPort container.ExposedPorts labels.Port = false then
        .error ⟨container.ID, .PortMismatch,
          "configured port " ++ labels.Port ++ " does not match exposed ports " ++
            exposedPortsAsString container.ExposedPorts, some labels⟩
      else if labels.Domains.length = 0 then
        .error ⟨container.ID, .NoDomains, "", some labels⟩
      else
        match ContainerNetworkIP container DockerNetwork with
        | .error e => .error ⟨container.ID, .IPExtractionFailed, e, some labels⟩
        | .ok ip =>
          let port := if labels.Port ≠ "" then labels.Port else DefaultContainerPort
          .ok (labels, ⟨container.ID, ip, port⟩)

/-- The end of the loop body of `BuildDeployments`: the instance of an
eligible container enters the map of new deployments. -/
def addInstance (newDeployments : GoMap String Deployment) (labels : ContainerLabels)
    (inst : DeploymentInstance) : GoMap String Deployment :=
  match mapGet newDeployments labels.AppName with
  | some deployment =>
    if deployment.Labels.DeploymentID = labels.DeploymentID then
      mapSet newDeployments labels.AppName
        { deployment with Instances := deployment.Instances ++ [inst] }
    else if strLess deployment.Labels.DeploymentID labels.DeploymentID then
      mapSet newDeployments labels.AppName ⟨labels, [inst]⟩
    else newDeployments
  | none => mapSet newDeployments labels.AppName ⟨labels, [inst]⟩

/-- One turn of the loop of `BuildDeployments`. -/
def buildStep (cli : DockerClient)
    (acc : GoMap String Deployment × List ExcludedContainerInfo) (id : String) :
    GoMap String Deployment × List ExcludedContainerInfo :=
  match inspectContainer cli id with
  | .error info => (acc.1, acc.2 ++ [info])
  | .ok (labels, inst) => (addInstance acc.1 labels inst, acc.2)

/-- The function `instancesEqual`; `mapA` is the set of the container ids of `a`. -/
def instancesEqual (a b : List DeploymentInstance) : Bool :=
  if a.length ≠ b.length then false
  else
    let mapA := a.map (fun i => i.ContainerID)
    b.all (fun i => decide (i.ContainerID ∈ mapA))

/-- The type `compareResult`. -/
structure CompareResult where
  UpdatedDeployments : GoMap String Deployment := []
  RemovedDeployments : GoMap String Deployment := []
  AddedDeployments : GoMap String Deployment := []
  deriving DecidableEq, Repr

/-- The first loop of `compareDeployments`, over the old deployments. -/
def compareOld (newDeployments : GoMap String Deployment)
    (acc : GoMap String Deployment × GoMap String Deployment)
    (entry : String × Deployment) : GoMap String Deployment × GoMap String Deployment :=
  match mapGet newDeployments entry.1 with
  | some currentDeployment =>
    if entry.2.Labels.DeploymentID ≠ currentDeployment.Labels.DeploymentID then
      (mapSet acc.1 entry.1 currentDeployment, acc.2)
    else if instancesEqual entry.2.Instances currentDeployment.Instances = false then
      (mapSet acc.1 entry.1 currentDeployment, acc.2)
    else acc
  | none => (acc.1, mapSet acc.2 entry.1 entry.2)

/-- The second loop of `compareDeployments`, over the new deployments. -/
def compareNew (oldDeployments : GoMap String Deployment)
    (acc : GoMap String Deployment) (entry : String × Deployment) : GoMap String Deployment :=
  match mapGet oldDeployments entry.1 with
  | some _ => acc
  | none => mapSet acc entry.1 entry.2

/-- The function `compareDeployments`. -/
def compareDeployments (oldDeployments newDeployments : GoMap String Deployment) :
    CompareResult :=
  let upRem := oldDeployments.foldl (compareOld newDeployments) ([], [])
  { UpdatedDeployments := upRem.1
    RemovedDeployments := upRem.2
    AddedDeployments := newDeployments.foldl (compareNew oldDeployments) [] }

/-- The fields of `config.HaloydConfig` the daemon reads: `API.Domain` and
`Certificates.AcmeEmail`. -/
structure HaloydConfig where
  APIDomain : String := ""
  AcmeEmail : String := ""
  deriving DecidableEq, Repr

/-- The state of a `DeploymentManager`. -/
structure DeploymentManager where
  deployments : GoMap String Deployment := []
  compareResult : CompareResult := {}
  haloydConfig : Option HaloydConfig := none
  deriving DecidableEq, Repr

/-- The map of new deployments and the excluded containers that the loop of
`BuildDeployments` leaves after the listed containers. -/
def buildNewDeployments (cli : DockerClient) (containers : List String) :
    GoMap String Deployment × List ExcludedContainerInfo :=
  containers.foldl (buildStep cli) ([], [])

/-- The flag `hasChanged` that `BuildDeployments` computes from a comparison. -/
def hasChangedOf (r : CompareResult) : Bool :=
  decide (r.AddedDeployments.length > 0) || decide (r.RemovedDeployments.length > 0) ||
    decide (r.UpdatedDeployments.length > 0)

/-- The method `DeploymentManager.BuildDeployments`: the flag `hasChanged`, the
excluded containers and the manager afterwards, or the error of the listing
(the manager is then as before). -/
def BuildDeployments (cli : DockerClient) (dm : DeploymentManager) :
    Except String (Bool × List ExcludedContainerInfo × DeploymentManager) :=
  match cli.ContainerList with
  | .error e => .error ("failed to get containers: " ++ e)
  | .ok containers =>
    let built := buildNewDeployments cli containers
    let result := compareDeployments dm.deployments built.1
    .ok (hasChangedOf result, built.2,
      { dm with deployments := built.1, compareResult := result })

/-- The method `DeploymentManager.Deployments`: a copy of the map. -/
def DeploymentManager.Deployments (dm : DeploymentManager) : GoMap String Deployment :=
  dm.deployments

/-- The ids of the instances of one deployment that fail
`docker.HealthCheckContainer`, in instance order. -/
def failedInstances (cli : DockerClient) (d : Deployment) : List String :=
  (d.Instances.filter (fun i => decide (cli.HealthCheckContainer i.ContainerID ≠ .ok ()))).map
    (fun i => i.ContainerID)

/-- The body of `HealthCheckNewContainers` on the two maps it reads from
`dm.compareResult`, each in the order its `range` loop visits it: the
deployments checked, and the ids of their instances that fail the check. -/
def healthCheckDeployments (cli : DockerClient) (added updated : GoMap String Deployment) :
    List Deployment × List String :=
  let checked := mapValues added ++ mapValues updated
  (checked, checked.flatMap (failedInstances cli))

/-- The method `DeploymentManager.HealthCheckNewContainers` when the manager is
the same at its two reads of `dm.compareResult`. -/
def HealthCheckNewContainers (cli : DockerClient) (dm : DeploymentManager) :
    List Deployment × List String :=
  healthCheckDeployments cli dm.compareResult.AddedDeployments
    dm.compareResult.UpdatedDeployments

/-! ## `internal/haloyd/certificates.go` -/

/-- The type `CertificatesDomain`. -/
structure CertificatesDomain where
  Canonical : String
  Aliases : List String
  Email : String
  deriving DecidableEq, Repr

/-- The loop of `CertificatesDomain.Validate` over the aliases. -/
def validateCertAliases : List String → Except String Unit
  | [] => .ok ()
  | a :: rest =>
    if a = "" then .error "alias cannot be empty"
    else
      match IsValidDomain a with
      | .error e => .error ("invalid alias '" ++ a ++ "': " ++ e)
      | .ok _ => validateCertAliases rest

/-- The method `CertificatesDomain.Validate`. -/
def CertificatesDomain.Validate (cm : CertificatesDomain) : Except String Unit :=
  if cm.Canonical = "" then .error "canonical domain cannot be empty"
  else
    match IsValidDomain cm.Canonical with
    | .error e => .error ("invalid canonical domain '" ++ cm.Canonical ++ "': " ++ e)
    | .ok _ =>
      if cm.Email = "" then .error "email cannot be empty"
      else if IsValidEmail cm.Email = false then .error ("invalid email format: " ++ cm.Email)
      else validateCertAliases cm.Aliases

/-- The loop of `GetCertificateDomains` over the domains of one deployment. -/
def certDomainsOfDomains (cfg : Option HaloydConfig) (acmeEmail : String) :
    List Domain → List CertificatesDomain → Except String (List CertificatesDomain)
  | [], acc => .ok acc
  | domain :: rest, acc =>
    if domain.Canonical ≠ "" then
      let email :=
        match cfg with
        | some c => if acmeEmail = "" then c.AcmeEmail else acmeEmail
        | none => acmeEmail
      if email = "" then
        .error ("ACME email for domain " ++ domain.Canonical ++
          " not found in haloyd config or labels")
      else
        let newDomain : CertificatesDomain := ⟨domain.Canonical, domain.Aliases, email⟩
        match newDomain.Validate with
        | .error e => .error ("domain not valid '" ++ domain.Canonical ++ "': " ++ e)
        | .ok _ => certDomainsOfDomains cfg acmeEmail rest (acc ++ [newDomain])
    else certDomainsOfDomains cfg acmeEmail rest acc

/-- The loop of `GetCertificateDomains` over the deployments. -/
def certDomainsOfDeployments (cfg : Option HaloydConfig) :
    List (String × Deployment) → List CertificatesDomain →
      Except String (List CertificatesDomain)
  | [], acc => .ok acc
  | (_, d) :: rest, acc =>
    match certDomainsOfDomains cfg d.Labels.ACMEEmail d.Labels.Domains acc with
    | .error e => .error e
    | .ok acc' => certDomainsOfDeployments cfg rest acc'

/-- The method `DeploymentManager.GetCertificateDomains`. -/
def GetCertificateDomains (dm : DeploymentManager) : Except String (List CertificatesDomain) :=
  match certDomainsOfDeployments dm.haloydConfig dm.deployments [] with
  | .error e => .error e
  | .ok certDomains =>
    match dm.haloydConfig with
    | some c =>
      if c.APIDomain ≠ "" ∧ c.AcmeEmail ≠ "" then
        .ok (certDomains ++ [⟨c.APIDomain, [], c.AcmeEmail⟩])
      else .ok certDomains
    | none => .ok certDomains

/-- The loop of `deduplicateDomains`; `seen` holds the canonical names met so far. -/
def deduplicateLoop : List CertificatesDomain → List String → List CertificatesDomain →
    List CertificatesDomain
  | [], _, unique => unique
  | domain :: rest, seen, unique =>
    if domain.Canonical ∈ seen then deduplicateLoop rest seen unique
    else deduplicateLoop rest (domain.Canonical :: seen) (unique ++ [domain])

/-- The function `deduplicateDomains`. -/
def deduplicateDomains (domains : List CertificatesDomain) : List CertificatesDomain :=
  deduplicateLoop domains [] []

/-- One turn of the loop of `checkRenewals` that builds `currentState`. -/
def currentStateStep (currentState : GoMap String CertificatesDomain)
    (domain : CertificatesDomain) : GoMap String CertificatesDomain :=
  match mapGet currentState domain.Canonical with
  | some existing =>
    if domain.Aliases.length > existing.Aliases.length then
      mapSet currentState domain.Canonical domain
    else currentState
  | none => mapSet currentState domain.Canonical domain

/-- The map `currentState` of `checkRenewals`: the entry it goes on to process
for each canonical name. -/
def currentStateOf (domains : List CertificatesDomain) : GoMap String CertificatesDomain :=
  (deduplicateDomains domains).foldl currentStateStep []

/-- What is found at `<CertDir>/<canonical>.pem`. -/
inductive CertFile where
  | missing
  | unreadable (err : String)
  | unparseable
  | cert (dnsNames : List String) (expiresWithin30Days : Bool)
  deriving DecidableEq, Repr

/-- The world of the certificate manager, as oracles: the certificate files,
the DNS lookup of `validateDomain`, the ACME client and the file writes. A
canonical name is processed once in a refresh and only its own file is
written, so the file read for a name is the one from before the refresh. -/
structure CertEnv where
  certFile : String → CertFile
  validateDomain : String → Except String Unit
  LoadOrRegisterClient : String → Except String Unit
  Obtain : List String → Except String Unit
  saveCertificate : String → Except String Unit

/-- The function `sort.Strings`. -/
def sortStrings (l : List String) : List String :=
  l.insertionSort (fun a b => strLess b a = false)

/-- The method `hasConfigurationChanged`; its error is always nil. -/
def hasConfigurationChanged (env : CertEnv) (domain : CertificatesDomain) :
    Except String Bool :=
  match env.certFile domain.Canonical with
  | .missing => .ok true
  | .unreadable _ => .ok true
  | .unparseable => .ok true
  | .cert dnsNames _ =>
    .ok (decide (sortStrings (domain.Canonical :: domain.Aliases) ≠ sortStrings dnsNames))

/-- The method `needsRenewalDueToExpiry`. -/
def needsRenewalDueToExpiry (env : CertEnv) (domain : CertificatesDomain) :
    Except String Bool :=
  match env.certFile domain.Canonical with
  | .missing => .ok true
  | .unreadable err => .error err
  | .unparseable => .ok true
  | .cert _ soon => .ok soon

/-- The method `obtainCertificate`. -/
def obtainCertificate (env : CertEnv) (managedDomain : CertificatesDomain) :
    Except String CertificatesDomain :=
  match env.validateDomain managedDomain.Canonical with
  | .error e =>
    .error ("domain validation failed for " ++ managedDomain.Canonical ++ ": " ++ e)
  | .ok _ =>
    match env.LoadOrRegisterClient managedDomain.Email with
    | .error e =>
      .error ("failed to load or register ACME client for " ++ managedDomain.Email ++ ": " ++ e)
    | .ok _ =>
      match env.Obtain (managedDomain.Canonical :: managedDomain.Aliases) with
      | .error e =>
        .error ("failed to obtain certificate for " ++ managedDomain.Canonical ++ ": " ++ e)
      | .ok _ =>
        match env.saveCertificate managedDomain.Canonical with
        | .error e =>
          .error ("failed to save certificate for " ++ managedDomain.Canonical ++ ": " ++ e)
        | .ok _ =>
          .ok ⟨managedDomain.Canonical, managedDomain.Aliases, managedDomain.Email⟩

/-- Whether the loop of `checkRenewals` goes on to obtain a certificate for
`domain`: `none` when `hasConfigurationChanged` fails (the entry is skipped),
else `configChanged || needsRenewal`, an error of the expiry check counting
as a need to renew. -/
def renewalDue (env : CertEnv) (domain : CertificatesDomain) : Option Bool :=
  match hasConfigurationChanged env domain with
  | .error _ => none
  | .ok configChanged =>
    let needsRenewal :=
      match needsRenewalDueToExpiry env domain with
      | .error _ => true
      | .ok b => b
    some (configChanged || needsRenewal)

/-- The loop of `checkRenewals` over `currentState`, the entries in the order
the `range` visits them: the renewed domains and the error returned. (The
call of `cleanupDomainCertificates` is left out: its error is logged and
nothing is returned from it.) -/
def renewLoop (env : CertEnv) :
    List (String × CertificatesDomain) → List CertificatesDomain →
      List CertificatesDomain × Option String
  | [], renewedDomains => (renewedDomains, none)
  | (_, domain) :: rest, renewedDomains =>
    match renewalDue env domain with
    | none => renewLoop env rest renewedDomains
    | some false => renewLoop env rest renewedDomains
    | some true =>
      match obtainCertificate env domain with
      | .error err => (renewedDomains, some err)
      | .ok obtainedDomain => renewLoop env rest (renewedDomains ++ [obtainedDomain])

/-- The method `checkRenewals`, its `range` over `currentState` visiting the
entries in the order they entered the map. -/
def checkRenewals (env : CertEnv) (domains : List CertificatesDomain) :
    List CertificatesDomain × Option String :=
  if domains.length = 0 then ([], none)
  else renewLoop env (currentStateOf domains) []

/-- The method `RefreshSync`. -/
def RefreshSync (env : CertEnv) (domains : List CertificatesDomain) : Except String Unit :=
  match (checkRenewals env domains).2 with
  | some err => .error err
  | none => .ok ()

/-! ## `internal/haloyd/haproxy.go` -/

/-- The function `sanitizeForACL`. -/
def sanitizeForACL (domain : String) : String := replaceDots domain

/-- The function `generateACLName`. -/
def generateACLName (appName domain suffix : String) : String :=
  appName ++ "_" ++ sanitizeForACL domain ++ "_" ++ suffix

/-- The name `generateConfig` builds inline for the ACL of an alias. -/
def aliasACLName (appName aliasHost : String) : String :=
  appName ++ "_" ++ replaceDots aliasHost ++ "_alias"

/-- A line that `generateConfig` writes, kept with the values that fill its
format; `ConfigLine.render` is the text. -/
inductive ConfigLine where
  | acl (name host : String)
  | redirect (canonical aclName : String)
  | useBackend (name : String) (acls : List String)
  | backend (name : String)
  | server (index : Nat) (ip port : String)
  | raw (text : String)
  deriving DecidableEq, Repr

/-- The constant `indent` of `generateConfig`. -/
def indent : String := "    "

/-- The text of a line, as the `fmt.Sprintf` calls of `generateConfig` write it. -/
def ConfigLine.render : ConfigLine → String
  | .acl name host => indent ++ "acl " ++ name ++ " hdr(host) -i " ++ host ++ "\n"
  | .redirect canonical aclName =>
    indent ++ "http-request redirect code 301 location https://" ++ canonical ++
      "%[path] if " ++ aclName ++ " !is_acme_challenge\n"
  | .useBackend name acls =>
    indent ++ "use_backend " ++ name ++ " if " ++ strJoin acls " or " ++ "\n"
  | .backend name => "backend " ++ name ++ "\n"
  | .server index ip port =>
    indent ++ "server app" ++ toString index ++ " " ++ ip ++ ":" ++ port ++ " check\n"
  | .raw text => text

/-- The text of a run of lines. -/
def renderLines (ls : List ConfigLine) : String := String.join (ls.map ConfigLine.render)

/-- The type `embed.HAProxyTemplateData`. -/
structure HAProxyTemplateData where
  HTTPFrontend : String
  HTTPSFrontend : String
  HTTPSFrontendUseBackend : String
  Backends : String
  deriving DecidableEq, Repr

/-- What one alias adds to a frontend (the same two lines in both). -/
def aliasLines (appName canonical aliasHost : String) : List ConfigLine :=
  if aliasHost ≠ "" then
    [.acl (aliasACLName appName aliasHost) aliasHost,
     .redirect canonical (aliasACLName appName aliasHost)]
  else []

/-- What one domain adds to `httpsFrontend`. -/
def domainHTTPSLines (appName : String) (domain : Domain) : List ConfigLine :=
  if domain.Canonical ≠ "" then
    .acl (generateACLName appName domain.Canonical "canonical") domain.Canonical ::
      domain.Aliases.flatMap (aliasLines appName domain.Canonical)
  else []

/-- What one domain adds to `httpFrontend`. -/
def domainHTTPLines (appName : String) (domain : Domain) : List ConfigLine :=
  if domain.Canonical ≠ "" then
    .acl (generateACLName appName domain.Canonical "canonical") domain.Canonical ::
    .redirect domain.Canonical (generateACLName appName domain.Canonical "canonical") ::
      domain.Aliases.flatMap (aliasLines appName domain.Canonical)
  else []

/-- The slice `canonicalACLs` of one deployment when its domains are done. -/
def canonicalACLs (appName : String) (domains : List Domain) : List String :=
  (domains.filter (fun d => decide (d.Canonical ≠ ""))).map
    (fun d => generateACLName appName d.Canonical "canonical")

/-- What the API domain of the daemon configuration adds to `httpsFrontend`. -/
def apiHTTPSLines (cfg : Option HaloydConfig) : List ConfigLine :=
  match cfg with
  | some c =>
    if c.APIDomain ≠ "" then [.acl (generateACLName "haloy_api" c.APIDomain "acl") c.APIDomain]
    else []
  | none => []

/-- What the API domain adds to `httpFrontend`. -/
def apiHTTPLines (cfg : Option HaloydConfig) : List ConfigLine :=
  match cfg with
  | some c =>
    if c.APIDomain ≠ "" then
      [.acl (generateACLName "haloy_api" c.APIDomain "acl") c.APIDomain,
       .redirect c.APIDomain (generateACLName "haloy_api" c.APIDomain "acl")]
    else []
  | none => []

/-- What the API domain adds to `httpsFrontendUseBackend`. -/
def apiUseBackendLines (cfg : Option HaloydConfig) : List ConfigLine :=
  match cfg with
  | some c =>
    if c.APIDomain ≠ "" then
      [.useBackend "haloy_api" [generateACLName "haloy_api" c.APIDomain "acl"]]
    else []
  | none => []

/-- What the API domain adds to `backends`. -/
def apiBackendLines (cfg : Option HaloydConfig) : List ConfigLine :=
  match cfg with
  | some c =>
    if c.APIDomain ≠ "" then
      [.backend "haloy_api",
       .raw (indent ++ "mode http\n"),
       .raw (indent ++ "# Forward to the haloyd API server\n"),
       .raw (indent ++ "http-request set-header X-Forwarded-For %[src]\n"),
       .raw (indent ++ "http-request set-header X-Forwarded-Proto https\n"),
       .raw (indent ++ "http-request set-header X-Forwarded-Port %[dst_port]\n"),
       .raw (indent ++ "http-request set-header Host %[req.hdr(host)]\n"),
       .raw (indent ++ "server haloyd haloyd:" ++ APIServerPort ++ " check\n"),
       .raw "\n"]
    else []
  | none => []

/-- What one deployment adds to `httpsFrontend` in the first loop. -/
def deploymentHTTPSLines (entry : String × Deployment) : List ConfigLine :=
  if entry.2.Labels.Domains.length = 0 then []
  else entry.2.Labels.Domains.flatMap (domainHTTPSLines entry.1)

/-- What one deployment adds to `httpFrontend` in the first loop. -/
def deploymentHTTPLines (entry : String × Deployment) : List ConfigLine :=
  if entry.2.Labels.Domains.length = 0 then []
  else entry.2.Labels.Domains.flatMap (domainHTTPLines entry.1)

/-- What one deployment adds to `httpsFrontendUseBackend` in the first loop. -/
def deploymentUseBackendLines (entry : String × Deployment) : List ConfigLine :=
  if entry.2.Labels.Domains.length = 0 then []
  else if (canonicalACLs entry.1 entry.2.Labels.Domains).length > 0 then
    [.useBackend entry.1 (canonicalACLs entry.1 entry.2.Labels.Domains)]
  else []

/-- The `server` lines of a backend, the first with index `i + 1`. -/
def serverLines : Nat → List DeploymentInstance → List ConfigLine
  | _, [] => []
  | i, inst :: rest => .server (i + 1) inst.IP inst.Port :: serverLines (i + 1) rest

/-- What one deployment adds to `backends` in the second loop. -/
def deploymentBackendLines (entry : String × Deployment) : List ConfigLine :=
  .backend entry.2.Labels.AppName :: serverLines 0 entry.2.Instances

/-- The lines of `httpsFrontend`; `deployments` is the map in the order the
first loop visits it. -/
def httpsFrontendLines (cfg : Option HaloydConfig) (deployments : GoMap String Deployment) :
    List ConfigLine :=
  apiHTTPSLines cfg ++ deployments.flatMap deploymentHTTPSLines

/-- The lines of `httpFrontend`. -/
def httpFrontendLines (cfg : Option HaloydConfig) (deployments : GoMap String Deployment) :
    List ConfigLine :=
  apiHTTPLines cfg ++ deployments.flatMap deploymentHTTPLines

/-- The lines of `httpsFrontendUseBackend`. -/
def useBackendLines (cfg : Option HaloydConfig) (deployments : GoMap String Deployment) :
    List ConfigLine :=
  apiUseBackendLines cfg ++ deployments.flatMap deploymentUseBackendLines

/-- The lines of `backends`; `backendOrder` is the map in the order the second
loop visits it. -/
def backendLines (cfg : Option HaloydConfig) (backendOrder : GoMap String Deployment) :
    List ConfigLine :=
  apiBackendLines cfg ++ backendOrder.flatMap deploymentBackendLines

/-- The value `templateData` of `generateConfig`. The two `range` loops over
the map visit it as `deployments` and as `backendOrder`. -/
def generateTemplateData (cfg : Option HaloydConfig)
    (deployments backendOrder : GoMap String Deployment) : HAProxyTemplateData :=
  { HTTPFrontend := renderLines (httpFrontendLines cfg deployments)
    HTTPSFrontend := renderLines (httpsFrontendLines cfg deployments)
    HTTPSFrontendUseBackend := renderLines (useBackendLines cfg deployments)
    Backends := renderLines (backendLines cfg backendOrder) }

/-- The method `generateConfig`. The embedded template `templates/haproxy.cfg`
is not among the sources: `template` stands for reading, parsing and
executing it on the template data. -/
def generateConfig (template : HAProxyTemplateData → Except String String)
    (cfg : Option HaloydConfig) (deployments backendOrder : GoMap String Deployment) :
    Except String String :=
  template (generateTemplateData cfg deployments backendOrder)

/-- Modelled from the spec: the embedded template `templates/haproxy.cfg`, which
is not among the sources. The spec gives it the four slots `HTTPFrontend`,
`HTTPSFrontend`, `HTTPSFrontendUseBackend` and `Backends`; this template writes
the four slots in that order and nothing else. -/
def slotsTemplate (data : HAProxyTemplateData) : Except String String :=
  .ok (data.HTTPFrontend ++ data.HTTPSFrontend ++ data.HTTPSFrontendUseBackend ++ data.Backends)

/-- The function `helpers.SafeIDPrefix`: the first 12 bytes of an id longer
than that. Container ids are ASCII, so a byte is a character. -/
def SafeIDPrefix (id : String) : String :=
  if id.utf8ByteSize > 12 then ⟨id.data.take 12⟩ else id

/-- The world of the proxy manager, as oracles: the template, the debug flag,
the path `filepath.Join(hpm.configDir, constants.HAProxyConfigFileName)` of
the configuration file, the write of a file, the search for the proxy
container and the reload signal. -/
structure ProxyEnv where
  template : HAProxyTemplateData → Except String String
  debug : Bool
  configPath : String
  writeFile : String → String → Except String Unit
  getContainerID : Except String String
  containerKill : String → Except String Unit

/-- The method `ApplyConfig`; both loops of `generateConfig` visit the map in
the order of `deployments`. -/
def ApplyConfig (env : ProxyEnv) (cfg : Option HaloydConfig)
    (deployments : GoMap String Deployment) : Except String Unit :=
  match generateConfig env.template cfg deployments deployments with
  | .error e => .error ("HAProxyManager: failed to generate config: " ++ e)
  | .ok configBuf =>
    if env.debug then .ok ()
    else
      match env.writeFile env.configPath configBuf with
      | .error e =>
        .error ("HAProxyManager: failed to write config file " ++ env.configPath ++ ": " ++ e)
      | .ok _ =>
        match env.getContainerID with
        | .error e => .error ("HAProxyManager: failed to find HAProxy container: " ++ e)
        | .ok haproxyID =>
          if haproxyID = "" then .ok ()
          else
            match env.containerKill haproxyID with
            | .error e =>
              .error ("HAProxyManager: failed to send SIGUSR2 to HAProxy container " ++
                SafeIDPrefix haproxyID ++ ": " ++ e)
            | .ok _ => .ok ()

/-! ## `internal/haloyd/updater.go` -/

/-- The type `TriggeredByApp`. -/
structure TriggeredByApp where
  appName : String
  domains : List Domain
  deploymentID : String
  dockerEventAction : String
  deriving DecidableEq, Repr

/-- The type `TriggerReason`. -/
inductive TriggerReason where
  | TriggerReasonInitial
  | TriggerReasonAppUpdated
  | TriggerPeriodicRefresh
  deriving DecidableEq, Repr

/-- A call that `Update` makes out of the updater, with its arguments. -/
inductive Call where
  | HealthCheckContainer (containerID : String)
  | waitForACMERouting
  | RefreshSync (domains : List CertificatesDomain)
  | Refresh (domains : List CertificatesDomain)
  | CleanupExpiredCertificates (domains : List CertificatesDomain)
  | ApplyConfig (deployments : GoMap String Deployment)
  | StopContainers (appName ignoreDeploymentID : String)
  | RemoveContainers (appName ignoreDeploymentID : String)
  deriving DecidableEq, Repr

/-- The world of the updater. -/
structure UpdaterEnv where
  cli : DockerClient
  certs : CertEnv
  proxy : ProxyEnv

/-- What a run of `Update` leaves: the calls it made, in order, the error it
returns (`.ok ()` for nil) and the deployment manager afterwards. -/
structure UpdateOutcome where
  calls : List Call
  result : Except String Unit
  dm : DeploymentManager

/-- The health-check calls of `HealthCheckNewContainers`, in order. -/
def healthCheckCalls (checked : List Deployment) : List Call :=
  checked.flatMap (fun d => d.Instances.map (fun i => Call.HealthCheckContainer i.ContainerID))

/-- The certificate domains `Update` refreshes synchronously for a triggering
app: those whose canonical name is one of the app's. -/
def appCertDomains (app : TriggeredByApp) (certDomains : List CertificatesDomain) :
    List CertificatesDomain :=
  certDomains.filter (fun cd => decide (cd.Canonical ∈ app.domains.map (fun d => d.Canonical)))

/-- The end of `Update`, from `ApplyConfig` on. -/
def updateCutover (env : UpdaterEnv) (dm : DeploymentManager) (app : Option TriggeredByApp)
    (deployments : GoMap String Deployment) (calls : List Call) : UpdateOutcome :=
  let calls := calls ++ [Call.ApplyConfig deployments]
  match ApplyConfig env.proxy dm.haloydConfig deployments with
  | .error e => ⟨calls, .error ("failed to apply HAProxy config for app: " ++ e), dm⟩
  | .ok _ =>
    match app with
    | none => ⟨calls, .ok (), dm⟩
    | some a =>
      let calls := calls ++ [Call.StopContainers a.appName a.deploymentID]
      match env.cli.StopContainers a.appName a.deploymentID with
      | .error e => ⟨calls, .error ("failed to stop old containers: " ++ e), dm⟩
      | .ok _ =>
        let calls := calls ++ [Call.RemoveContainers a.appName a.deploymentID]
        match env.cli.RemoveContainers a.appName a.deploymentID with
        | .error e => ⟨calls, .error ("failed to remove old containers: " ++ e), dm⟩
        | .ok _ => ⟨calls, .ok (), dm⟩

/-- The part of `Update` that refreshes the certificates and goes on to the
cutover. -/
def updateCertificates (env : UpdaterEnv) (dm : DeploymentManager) (reason : TriggerReason)
    (app : Option TriggeredByApp) (deployments : GoMap String Deployment)
    (calls : List Call) : UpdateOutcome :=
  match GetCertificateDomains dm with
  | .error e => ⟨calls, .error ("failed to get certificate domains: " ++ e), dm⟩
  | .ok certDomains =>
    let cleanup (calls : List Call) : List Call :=
      if reason = .TriggerPeriodicRefresh then
        calls ++ [Call.CleanupExpiredCertificates certDomains]
      else calls
    match app with
    | some a =>
      if a.domains.length > 0 then
        let calls := calls ++ [Call.RefreshSync (appCertDomains a certDomains)]
        match RefreshSync env.certs (appCertDomains a certDomains) with
        | .error e =>
          ⟨calls, .error ("failed to refresh certificates for app " ++ a.appName ++ ": " ++ e), dm⟩
        | .ok _ => updateCutover env dm app deployments (cleanup calls)
      else if reason = .TriggerReasonInitial then
        let calls := calls ++ [Call.RefreshSync certDomains]
        match RefreshSync env.certs certDomains with
        | .error e => ⟨calls, .error e, dm⟩
        | .ok _ => updateCutover env dm app deployments (cleanup calls)
      else updateCutover env dm app deployments (cleanup (calls ++ [Call.Refresh certDomains]))
    | none =>
      if reason = .TriggerReasonInitial then
        let calls := calls ++ [Call.RefreshSync certDomains]
        match RefreshSync env.certs certDomains with
        | .error e => ⟨calls, .error e, dm⟩
        | .ok _ => updateCutover env dm app deployments (cleanup calls)
      else updateCutover env dm app deployments (cleanup (calls ++ [Call.Refresh certDomains]))

/-- A call of `BuildDeployments` that another goroutine makes on the same
manager, seeing the runtime `cli`: the manager it leaves (unchanged when the
listing fails). -/
def buildBy (dm : DeploymentManager) (cli : DockerClient) : DeploymentManager :=
  match BuildDeployments cli dm with
  | .ok (_, _, dm') => dm'
  | .error _ => dm

/-- The calls of `BuildDeployments` that other goroutines running `Update`
on the same manager complete while one run of `Update` is under way, each
given by the runtime it sees, at the four points at which the run comes back
to the manager after its own `BuildDeployments`: the two reads of
`dm.compareResult` in `HealthCheckNewContainers` (made without the mutex),
`Deployments()` and `GetCertificateDomains()`. The event loop of `haloyd.go`
starts every `Update` in a goroutine of its own; a run on its own has four
empty lists. -/
structure Interleaving where
  beforeAdded : List DockerClient := []
  beforeUpdated : List DockerClient := []
  beforeDeployments : List DockerClient := []
  beforeCertificates : List DockerClient := []

/-- The method `Updater.Update`, in a run that other goroutines interleave
with as `others` says. -/
def Update (env : UpdaterEnv) (dm : DeploymentManager) (reason : TriggerReason)
    (app : Option TriggeredByApp) (others : Interleaving) : UpdateOutcome :=
  match BuildDeployments env.cli dm with
  | .error e => ⟨[], .error ("failed to build deployments: " ++ e), dm⟩
  | .ok (deploymentsHasChanged, _, dm') =>
    if deploymentsHasChanged = false ∧ reason ≠ .TriggerReasonInitial then ⟨[], .ok (), dm'⟩
    else
      let dmAdded := others.beforeAdded.foldl buildBy dm'
      let dmUpdated := others.beforeUpdated.foldl buildBy dmAdded
      let checkedFailed := healthCheckDeployments env.cli dmAdded.compareResult.AddedDeployments
        dmUpdated.compareResult.UpdatedDeployments
      let calls := healthCheckCalls checkedFailed.1
      if checkedFailed.2.length > 0 then
        ⟨calls, .error ("deployment aborted: failed to perform health check on containers (" ++
          strJoin checkedFailed.2 ", " ++ ")"), dmUpdated⟩
      else
        let dmDeployments := others.beforeDeployments.foldl buildBy dmUpdated
        let deployments := dmDeployments.Deployments
        let calls := if reason = .TriggerReasonInitial then calls ++ [Call.waitForACMERouting]
          else calls
        let dmCertificates := others.beforeCertificates.foldl buildBy dmDeployments
        updateCertificates env dmCertificates reason app deployments calls

/-! ## Notions used in the statements -/

/-- The listed containers that pass every check of `BuildDeployments` (the
eligible ones), each with its parsed labels and its instance, in the order of
the listing. -/
def eligibleContainers (cli : DockerClient) (containers : List String) :
    List (ContainerLabels × DeploymentInstance) :=
  containers.filterMap (fun id =>
    match inspectContainer cli id with
    | .ok p => some p
    | .error _ => none)

/-- The instances of the eligible containers of `app` that carry the
deployment id `id`, in the order of the listing. -/
def instancesOf (es : List (ContainerLabels × DeploymentInstance)) (app id : String) :
    List DeploymentInstance :=
  (es.filter (fun e => decide (e.1.AppName = app ∧ e.1.DeploymentID = id))).map Prod.snd

/-- The relation between the map of new deployments and the eligible
containers met so far that the loop of `BuildDeployments` keeps. -/
def RegistryInv (m : GoMap String Deployment)
    (es : List (ContainerLabels × DeploymentInstance)) : Prop :=
  ∀ app : String,
    (mapGet m app = none → ∀ e ∈ es, e.1.AppName ≠ app) ∧
    (∀ dep, mapGet m app = some dep →
      (∃ e ∈ es, e.1.AppName = app ∧ e.1.DeploymentID = dep.Labels.DeploymentID) ∧
      (∀ e ∈ es, e.1.AppName = app → e.1.DeploymentID ≤ dep.Labels.DeploymentID) ∧
      dep.Instances = instancesOf es app dep.Labels.DeploymentID)

/-- The entry of `UpdatedDeployments` that one entry of the old map gives in
the first loop of `compareDeployments`, if any. -/
def updatedEntry (newDeployments : GoMap String Deployment) (entry : String × Deployment) :
    Option (String × Deployment) :=
  match mapGet newDeployments entry.1 with
  | some currentDeployment =>
    if entry.2.Labels.DeploymentID ≠ currentDeployment.Labels.DeploymentID ∨
        instancesEqual entry.2.Instances currentDeployment.Instances = false then
      some (entry.1, currentDeployment)
    else none
  | none => none

/-- The container ids of a list of instances. -/
def containerIDs (l : List DeploymentInstance) : List String := l.map (fun i => i.ContainerID)

/-! ## Concrete inputs -/

/-- The labels of a container of the app `blog` with the given deployment id. -/
def blogLabels (id : String) : ContainerLabels :=
  { AppName := "blog", DeploymentID := id, HealthCheckPath := "/",
    ACMEEmail := "ops@example.com", Port := "8080",
    Domains := [⟨"blog.example", ["www.blog.example", "m.blog.example"]⟩], Role := "app" }

/-- The labels of a container of the app `api` with the given deployment id. -/
def apiLabels (id : String) : ContainerLabels :=
  { AppName := "api", DeploymentID := id, HealthCheckPath := "/",
    ACMEEmail := "ops@example.com", Port := "8080",
    Domains := [⟨"api.example", ["www-api.example"]⟩], Role := "app" }

/-- An instance with the given container id and address. -/
def instanceAt (id ip : String) : DeploymentInstance := ⟨id, ip, "8080"⟩

/-- A registry with `blog` at deployment `02` and `api` at deployment `01`. -/
def registryBefore : GoMap String Deployment :=
  [("blog", ⟨blogLabels "02", [instanceAt "c1" "10.0.0.1"]⟩),
   ("api", ⟨apiLabels "01", [instanceAt "c2" "10.0.0.2"]⟩)]

/-- A registry with `blog` at deployment `01` on the same container id, and a
new app `shop`; `api` is gone. -/
def registryAfter : GoMap String Deployment :=
  [("blog", ⟨blogLabels "01", [instanceAt "c1" "10.0.0.1"]⟩),
   ("shop", ⟨{ blogLabels "05" with AppName := "shop" }, [instanceAt "c9" "10.0.0.9"]⟩)]

/-- The label map of a container of `blog` with the given deployment id. -/
def blogLabelMap (id : String) : GoMap String String := (blogLabels id).ToLabels

/-- A runtime with three running containers of `blog`: `c1` and `c3` of
deployment `02`, `c2` of deployment `01`; a fourth listed container cannot be
inspected. Container `c3` fails its health check. -/
def registryClient : DockerClient where
  ContainerList := .ok ["c1", "c2", "c3", "c4"]
  ContainerInspect := fun id =>
    if id = "c1" then
      .ok ⟨"c1", blogLabelMap "02", [], [("haloy", "10.0.0.1")], some ⟨true, "running", 0⟩⟩
    else if id = "c2" then
      .ok ⟨"c2", blogLabelMap "01", ["8080"], [("haloy", "10.0.0.2")], some ⟨true, "running", 0⟩⟩
    else if id = "c3" then
      .ok ⟨"c3", blogLabelMap "02", [], [("haloy", "10.0.0.3")], some ⟨true, "running", 0⟩⟩
    else .error "no such container"
  HealthCheckContainer := fun id => if id = "c3" then .error "unhealthy" else .ok ()
  StopContainers := fun _ _ => .ok []
  RemoveContainers := fun _ _ => .ok []

/-- A certificate world in which no certificate file exists and every step of
obtaining one succeeds. -/
def certsAllGood : CertEnv where
  certFile := fun _ => .missing
  validateDomain := fun _ => .ok ()
  LoadOrRegisterClient := fun _ => .ok ()
  Obtain := fun _ => .ok ()
  saveCertificate := fun _ => .ok ()

/-- A proxy world in which the configuration is written and the proxy reloads. -/
def proxyAllGood : ProxyEnv where
  template := slotsTemplate
  debug := false
  configPath := "/haproxy-config/haproxy.cfg"
  writeFile := fun _ _ => .ok ()
  getContainerID := .ok "haproxy"
  containerKill := fun _ => .ok ()

/-- The updater world over `registryClient`: the new container `c3` of `blog`
fails its health check. -/
def updaterEnv : UpdaterEnv := ⟨registryClient, certsAllGood, proxyAllGood⟩

/-- The event that triggers an update for deployment `02` of `blog`. -/
def blogTrigger : TriggeredByApp :=
  ⟨"blog", [⟨"blog.example", ["www.blog.example", "m.blog.example"]⟩], "02", "start"⟩

/-- One other goroutine completes a `BuildDeployments` on the runtime
`registryClient` before the run reads `dm.compareResult`. -/
def oneBuildBeforeHealthCheck : Interleaving := { beforeAdded := [registryClient] }

/-- Whether a call is a health check. -/
def Call.isHealthCheck : Call → Bool
  | .HealthCheckContainer _ => true
  | _ => false

/-- Whether a call is one of the cutover: `ApplyConfig`, `StopContainers` or
`RemoveContainers`. -/
def Call.isCutover : Call → Bool
  | .ApplyConfig _ => true
  | .StopContainers _ _ => true
  | .RemoveContainers _ _ => true
  | _ => false

/-- Two certificate requests for the same canonical name; the second one
carries an alias, the first one none. -/
def duplicateCanonical : List CertificatesDomain :=
  [⟨"shop.example", [], "ops@example.com"⟩,
   ⟨"shop.example", ["www.shop.example"], "ops@example.com"⟩]

/-- A certificate world like `certsAllGood`, except that the DNS lookup of
`blog.example` fails. -/
def certsBlogUnresolved : CertEnv :=
  { certsAllGood with
    validateDomain := fun d => if d = "blog.example" then .error "no such host" else .ok () }

/-- Certificate requests for two different canonical names. -/
def twoCanonicals : List CertificatesDomain :=
  [⟨"blog.example", ["www.blog.example"], "ops@example.com"⟩,
   ⟨"api.example", [], "ops@example.com"⟩]

/-- The entries of a visiting order for which the loop of `checkRenewals`
goes on to obtain a certificate. -/
def dueDomains (env : CertEnv) (visited : List (String × CertificatesDomain)) :
    List CertificatesDomain :=
  (visited.filter (fun e => decide (renewalDue env e.2 = some true))).map Prod.snd

/-- The hosts of the ACL lines among `lines`, in order. -/
def aclHosts (lines : List ConfigLine) : List String :=
  lines.filterMap (fun l =>
    match l with
    | .acl _ host => some host
    | _ => none)

/-- The hosts one domain configures for the proxy: its canonical name and its
non-empty aliases, when the canonical name is not empty. -/
def Domain.hosts (d : Domain) : List String :=
  if d.Canonical ≠ "" then d.Canonical :: d.Aliases.filter (fun a => decide (a ≠ "")) else []

/-- The hosts configured for the proxy: the API domain of the daemon, when
set, and the hosts of the domains of every deployment, in the order of the
first loop of `generateConfig`. -/
def configuredHosts (cfg : Option HaloydConfig) (deployments : GoMap String Deployment) :
    List String :=
  (match cfg with
    | some c => if c.APIDomain ≠ "" then [c.APIDomain] else []
    | none => []) ++
  deployments.flatMap (fun e => e.2.Labels.Domains.flatMap Domain.hosts)

/-- One deployment of `blog` in which the alias `www.blog.example` is
configured under two canonical names. -/
def sharedAliasDeployments : GoMap String Deployment :=
  [("blog", ⟨{ blogLabels "01" with
               Domains := [⟨"blog.example", ["www.blog.example"]⟩,
                           ⟨"blog.test", ["www.blog.example"]⟩] },
             [instanceAt "c1" "10.0.0.1"]⟩)]

/-- One deployment of `blog` with a canonical domain and a second domain that
has an alias and an empty canonical name. -/
def emptyCanonicalDeployments : GoMap String Deployment :=
  [("blog", ⟨{ blogLabels "01" with
               Domains := [⟨"blog.example", []⟩, ⟨"", ["old.example"]⟩] },
             [instanceAt "c1" "10.0.0.1"]⟩)]

/-- A registry with the two apps `blog` and `api`. -/
def twoApps : GoMap String Deployment :=
  [("blog", ⟨blogLabels "01", [instanceAt "c1" "10.0.0.1"]⟩),
   ("api", ⟨apiLabels "01", [instanceAt "c2" "10.0.0.2"]⟩)]

/-- The last two characters of a string, the last one first. -/
def lastTwo (s : String) : List Char := s.data.reverse.take 2

/-! ## `internal/haloyd/app_debouncer.go` -/

/-- The fields of `ContainerEvent` the debouncer reads: the action of the
runtime event and the parsed labels (a pointer that is not nil in any event
the daemon captures). -/
structure ContainerEvent where
  Action : String
  Labels : ContainerLabels
  deriving DecidableEq, Repr

/-- The constant `events.ActionStart`. -/
def ActionStart : String := "start"

/-- The type `debouncedAppEvent`. -/
structure DebouncedAppEvent where
  AppName : String
  DeploymentID : String
  Domains : List Domain
  EventAction : String
  CapturedStartEvent : Bool
  deriving DecidableEq, Repr

/-- The removal `delete(m, k)`. -/
def mapDelete {κ α : Type} [DecidableEq κ] (m : GoMap κ α) (k : κ) : GoMap κ α :=
  m.filter (fun e => decide (e.1 ≠ k))

/-- The state of an `appDebouncer`: a timer is the number it was made with,
and `output` lists what was sent on the output channel, oldest first. -/
structure AppDebouncer where
  timers : GoMap String Nat := []
  capturedEvents : GoMap String (List ContainerEvent) := []
  output : List DebouncedAppEvent := []
  timerSeed : Nat := 0
  deriving DecidableEq, Repr

/-- The method `captureEvent`: the event joins the buffer of the app and the
timer of the app is replaced by a new one. -/
def captureEvent (d : AppDebouncer) (appName : String) (event : ContainerEvent) :
    AppDebouncer :=
  { d with
    capturedEvents :=
      mapSet d.capturedEvents appName ((mapGet d.capturedEvents appName).getD [] ++ [event])
    timers := mapSet d.timers appName d.timerSeed
    timerSeed := d.timerSeed + 1 }

/-- One turn of the loop of `signalDone`: the latest event and the flag
`capturedStartEvent` after `event`. -/
def signalStep (acc : ContainerEvent × Bool) (event : ContainerEvent) : ContainerEvent × Bool :=
  (if strLess acc.1.Labels.DeploymentID event.Labels.DeploymentID then event else acc.1,
   if event.Action = ActionStart then true else acc.2)

/-- The method `signalDone`. -/
def signalDone (d : AppDebouncer) (appName : String) : AppDebouncer :=
  match (mapGet d.capturedEvents appName).getD [] with
  | [] => d
  | first :: rest =>
    let r := (first :: rest).foldl signalStep (first, false)
    let debouncedEvent : DebouncedAppEvent :=
      { AppName := appName
        DeploymentID := r.1.Labels.DeploymentID
        Domains := r.1.Labels.Domains
        EventAction := r.1.Action
        CapturedStartEvent := r.2 }
    { d with
      output := d.output ++ [debouncedEvent]
      timers := mapDelete d.timers appName
      capturedEvents := mapDelete d.capturedEvents appName }

/-- A burst for `blog`: a start of deployment `03`, a stop of `02`, a die of `03`. -/
def blogBurst : AppDebouncer :=
  captureEvent (captureEvent (captureEvent {} "blog" ⟨"start", blogLabels "03"⟩)
    "blog" ⟨"stop", blogLabels "02"⟩) "blog" ⟨"die", blogLabels "03"⟩
/-! ## `internal/api/handlers_status.go` -/

/-- The map `statePriority` of `determineOverallState`. -/
def statePriority (state : String) : Option Int :=
  if state = "restarting" then some 4
  else if state = "paused" then some 3
  else if state = "running" then some 2
  else if state = "exited" then some 1
  else if state = "created" then some 1
  else if state = "dead" then some 0
  else none

/-- One turn of the loop of `determineOverallState`: the pair of
`highestPriority` and `resultState` after `state`. -/
def overallStep (acc : Int × String) (state : String) : Int × String :=
  match statePriority state with
  | some priority => if priority > acc.1 then (priority, state) else acc
  | none => acc

/-- The function `determineOverallState`. -/
def determineOverallState (states : List String) : String :=
  if states.length = 0 then "unknown"
  else (states.foldl overallStep (-1, "unknown")).2
/-- The labels of `blog` with one more label, whose key has text after the
index of the domain. -/
def backupKeyLabels : GoMap String String :=
  blogLabelMap "01" ++ [("dev.haloy.domain.0.backup", "evil.example")]

/-- The labels of `blog` with one more label, whose key has no index. -/
def noIndexKeyLabels : GoMap String String :=
  blogLabelMap "01" ++ [("dev.haloy.domain.x", "evil.example")]

/-! ## `internal/config`: the application configuration -/

/-- The characters of a range `lo-hi` of a character class. -/
def charRange (lo hi : Char) : List Char :=
  (List.range (hi.toNat - lo.toNat + 1)).map (fun i => Char.ofNat (lo.toNat + i))

/-- A character class, as the alternation of its characters. -/
def charClass (cs : List Char) : RegularExpression Char :=
  cs.foldr (fun c r => RegularExpression.char c + r) 0

/-- The class `[a-zA-Z0-9]`. -/
def alnumClass : List Char := charRange 'a' 'z' ++ charRange 'A' 'Z' ++ charRange '0' '9'

/-- The regular expression `^[a-zA-Z0-9][a-zA-Z0-9_-]*$`; the two anchors make
`regexp.MatchString` a match of the whole text (without the flag `m`, `$` is
the end of the text). -/
def appNameRegex : RegularExpression Char :=
  charClass alnumClass * (charClass (alnumClass ++ ['_', '-'])).star

/-- The function `isValidAppName`; the pattern compiles, so `err` is nil. -/
def isValidAppName (name : String) : Bool := appNameRegex.rmatch name.data

/-- The function `strings.TrimSpace`; the space characters of `unicode.IsSpace`
are those of `isSpace`. -/
def trimSpace (s : String) : String :=
  ⟨((s.data.dropWhile isSpace).reverse.dropWhile isSpace).reverse⟩

/-- The function `strings.ContainsAny`. -/
def containsAny (s chars : String) : Bool := s.data.any (fun c => chars.data.contains c)

/-- The function `strings.ToLower` on the format names: the four names that
`GetFieldNameForFormat` compares with are ASCII, and no character outside
ASCII has one of their letters as its lower case. -/
def toLower (s : String) : String := ⟨s.data.map Char.toLower⟩

/-- The function `GetFieldNameForFormat` for a field that exists, given the
values of its three struct tags. -/
def GetFieldNameForFormat (fieldName jsonTag yamlTag tomlTag format : String) : String :=
  let lower := toLower format
  if lower = "json" ∨ lower = "yaml" ∨ lower = "yml" ∨ lower = "toml" then
    let tag := if lower = "json" then jsonTag else if lower = "toml" then tomlTag else yamlTag
    if tag = "" ∨ tag = "-" then fieldName
    else String.mk ((splitCharsAux ',' tag.data []).headD [])
  else fieldName

/-- The type `SourceReference`. -/
structure SourceReference where
  Env : String := ""
  Secret : String := ""
  deriving DecidableEq, Repr

/-- The method `SourceReference.Validate`. -/
def SourceReference.Validate (sr : SourceReference) : Except String Unit :=
  let hasEnv := sr.Env ≠ ""
  let hasSecret := sr.Secret ≠ ""
  if ¬ hasEnv ∧ ¬ hasSecret then
    .error "a source reference (e.g., 'env' or 'secret') must be specified"
  else if hasEnv ∧ hasSecret then
    .error "only one source reference ('env' or 'secret') can be specified at a time"
  else .ok ()

/-- The type `ValueSource`. -/
structure ValueSource where
  Value : String := ""
  From : Option SourceReference := none
  deriving DecidableEq, Repr

/-- The method `ValueSource.Validate`. -/
def ValueSource.Validate (vs : ValueSource) : Except String Unit :=
  let hasValue := vs.Value ≠ ""
  if hasValue ∧ vs.From.isSome then .error "cannot provide both 'value' and 'from'"
  else if ¬ hasValue ∧ vs.From.isNone then .error "must provide either 'value' or 'from'"
  else
    match vs.From with
    | some ref =>
      match ref.Validate with
      | .error e => .error ("invalid 'from' block: " ++ e)
      | .ok _ => .ok ()
    | none => .ok ()

/-- The type `EnvVar`: a name and the embedded `ValueSource`. -/
structure EnvVar where
  Name : String := ""
  ValueSource : ValueSource := {}
  deriving DecidableEq, Repr

/-- The method `EnvVar.Validate`; the format is not read. -/
def EnvVar.Validate (ev : EnvVar) (_format : String) : Except String Unit :=
  if ev.Name = "" then .error "environment variable 'name' cannot be empty"
  else
    match ev.ValueSource.Validate with
    | .error e => .error ("environment variable '" ++ ev.Name ++ "': " ++ e)
    | .ok _ => .ok ()

def HistoryStrategyLocal : String := "local"
def HistoryStrategyRegistry : String := "registry"
def HistoryStrategyNone : String := "none"

/-- The type `ImageHistory`; `Count` is a pointer to an `int`. -/
structure ImageHistory where
  Strategy : String := ""
  Count : Option Int := none
  Pattern : String := ""
  deriving DecidableEq, Repr

/-- The method `ImageHistory.Validate`. -/
def ImageHistory.Validate (h : ImageHistory) : Except String Unit :=
  if h.Strategy ≠ "" ∧
      ¬ h.Strategy ∈ [HistoryStrategyLocal, HistoryStrategyRegistry, HistoryStrategyNone] then
    .error ("image.history.strategy '" ++ h.Strategy ++
      "' is invalid (must be 'local', 'registry', or 'none')")
  else if (h.Strategy = HistoryStrategyLocal ∨ h.Strategy = HistoryStrategyRegistry) ∧
      h.Count = none then
    .error ("image.history.count is required for " ++ h.Strategy ++ " strategy")
  else if (h.Strategy = HistoryStrategyLocal ∨ h.Strategy = HistoryStrategyRegistry) ∧
      h.Count.getD 0 < 1 then
    .error ("image.history.count must be at least 1 for " ++ h.Strategy ++ " strategy")
  else if h.Strategy = HistoryStrategyRegistry ∧ trimSpace h.Pattern = "" then
    .error "image.history.pattern is required for registry strategy"
  else .ok ()

/-- The type `RegistryAuth`. -/
structure RegistryAuth where
  Server : String := ""
  Username : ValueSource := {}
  Password : ValueSource := {}
  deriving DecidableEq, Repr

/-- The type `BuildArg`: a name and the embedded `ValueSource`. -/
structure BuildArg where
  Name : String := ""
  ValueSource : ValueSource := {}
  deriving DecidableEq, Repr

/-- The method `BuildArg.Validate`; the format is not read. -/
def BuildArg.Validate (ba : BuildArg) (_format : String) : Except String Unit :=
  if ba.Name = "" then .error "build argument 'name' cannot be empty"
  else
    match ba.ValueSource.Validate with
    | .error e => .error ("build argument '" ++ ba.Name ++ "': " ++ e)
    | .ok _ => .ok ()

def BuildPushOptionServer : String := "server"
def BuildPushOptionRegistry : String := "registry"

/-- The type `BuildConfig`. -/
structure BuildConfig where
  Context : String := ""
  Dockerfile : String := ""
  Platform : String := ""
  Args : List BuildArg := []
  Push : String := ""
  deriving DecidableEq, Repr

/-- The loop of `BuildConfig.Validate` over the build arguments, from index `i`. -/
def validateBuildArgs (format : String) : Nat → List BuildArg → Except String Unit
  | _, [] => .ok ()
  | i, arg :: rest =>
    match arg.Validate format with
    | .error e => .error ("args[" ++ toString i ++ "]: " ++ e)
    | .ok _ => validateBuildArgs format (i + 1) rest

/-- The method `BuildConfig.Validate`, on a receiver that is not nil. -/
def BuildConfig.Validate (b : BuildConfig) (format : String) : Except String Unit :=
  if b.Dockerfile ≠ "" ∧ containsAny b.Dockerfile " \t\n\r" then
    .error ("dockerfile path '" ++ b.Dockerfile ++ "' contains whitespace")
  else if b.Context ≠ "" ∧ containsAny b.Context " \t\n\r" then
    .error ("context path '" ++ b.Context ++ "' contains whitespace")
  else if b.Platform ≠ "" ∧ containsAny b.Platform " \t\n\r" then
    .error ("platform '" ++ b.Platform ++ "' contains whitespace")
  else
    match validateBuildArgs format 0 b.Args with
    | .error e => .error e
    | .ok _ =>
      if b.Push ≠ "" ∧ ¬ b.Push ∈ [BuildPushOptionServer, BuildPushOptionRegistry] then
        .error ("builder.push must be 'server' or 'registry', got '" ++ b.Push ++ "'")
      else .ok ()

/-- The type `Image`; the four last fields are pointers. -/
structure Image where
  Repository : String := ""
  Tag : String := ""
  History : Option ImageHistory := none
  RegistryAuth : Option RegistryAuth := none
  Build : Option Bool := none
  BuildConfig : Option BuildConfig := none
  deriving DecidableEq, Repr

/-- The method `Image.ShouldBuild`. -/
def Image.ShouldBuild (i : Image) : Bool :=
  match i.Build with
  | some false => false
  | some true => true
  | none => i.BuildConfig.isSome

/-- The method `Image.GetEffectivePushStrategy`. -/
def Image.GetEffectivePushStrategy (i : Image) : String :=
  match i.BuildConfig with
  | some b =>
    if b.Push ≠ "" then b.Push
    else if i.RegistryAuth.isSome then BuildPushOptionRegistry else BuildPushOptionServer
  | none => if i.RegistryAuth.isSome then BuildPushOptionRegistry else BuildPushOptionServer

/-- The method `Image.ImageRef`. -/
def Image.ImageRef (i : Image) : String :=
  let repo := trimSpace i.Repository
  let tag := trimSpace i.Tag
  if strContains repo ":" = true ∧ tag = "" then repo
  else
    let tag := if tag = "" then "latest" else tag
    repo ++ ":" ++ tag

/-- The tags `Image.Validate` calls mutable. -/
def mutableTags : List String := ["main", "master", "develop", "staging", "production"]

/-- The block of `Image.Validate` on the history of the image. -/
def Image.validateHistory (i : Image) : Except String Unit :=
  match i.History with
  | none => .ok ()
  | some h =>
    match h.Validate with
    | .error e => .error e
    | .ok _ =>
      if h.Strategy = HistoryStrategyRegistry then
        let tag := trimSpace i.Tag
        if tag = "" ∨ tag = "latest" then
          .error ("image.tag cannot be 'latest' or empty with registry strategy - " ++
            "use immutable tags like 'v1.2.3'")
        else if tag ∈ mutableTags then
          .error ("image.tag '" ++ tag ++ "' is mutable and not recommended with registry " ++
            "strategy - use immutable tags like 'v1.2.3'")
        else .ok ()
      else .ok ()

/-- The block of `Image.Validate` on the registry authentication. -/
def Image.validateRegistryAuth (i : Image) : Except String Unit :=
  match i.RegistryAuth with
  | none => .ok ()
  | some reg =>
    if trimSpace reg.Server ≠ "" ∧ containsAny reg.Server " \t\n\r" then
      .error ("image.registry.server '" ++ reg.Server ++ "' contains whitespace")
    else
      match reg.Username.Validate with
      | .error e => .error e
      | .ok _ => reg.Password.Validate

/-- The end of `Image.Validate`: the push strategy of a build, and the build
configuration. -/
def Image.validateBuild (i : Image) (format : String) : Except String Unit :=
  if i.ShouldBuild = true ∧ i.GetEffectivePushStrategy = BuildPushOptionRegistry ∧
      i.RegistryAuth.isNone then
    .error "image.registry authentication required when building with registry push strategy"
  else if i.ShouldBuild = true ∧ i.GetEffectivePushStrategy = BuildPushOptionServer ∧
      i.RegistryAuth.isSome then
    .error ("image.registry cannot be set when image." ++
      GetFieldNameForFormat "BuildConfig" "buildConfig,omitempty" "build_config,omitempty"
        "build_config,omitempty" format ++
      ".push is 'server' - uploaded images don't use registry authentication")
  else
    match i.BuildConfig with
    | some b => b.Validate format
    | none => .ok ()

/-- The method `Image.Validate`. -/
def Image.Validate (i : Image) (format : String) : Except String Unit :=
  if trimSpace i.Repository = "" then .error "image.repository is required"
  else if containsAny i.Repository " \t\n\r" then
    .error ("image.repository '" ++ i.Repository ++ "' contains whitespace")
  else if containsAny i.Tag " \t\n\r" then
    .error ("image.tag '" ++ i.Tag ++ "' contains whitespace")
  else
    match i.validateHistory with
    | .error e => .error e
    | .ok _ =>
      match i.validateRegistryAuth with
      | .error e => .error e
      | .ok _ => i.validateBuild format

def DeploymentStrategyRolling : String := "rolling"
def DeploymentStrategyReplace : String := "replace"

/-- The fields of `TargetConfig` read from the configuration file; `Image` and
`Replicas` are pointers. -/
structure TargetConfig where
  Name : String := ""
  Image : Option Image := none
  ImageKey : String := ""
  Server : String := ""
  APIToken : Option ValueSource := none
  DeploymentStrategy : String := ""
  Domains : List Domain := []
  ACMEEmail : String := ""
  Env : List EnvVar := []
  HealthCheckPath : String := ""
  Port : String := ""
  Replicas : Option Int := none
  Volumes : List String := []
  Network : String := ""
  PreDeploy : List String := []
  PostDeploy : List String := []
  deriving DecidableEq, Repr

/-- The loop of `TargetConfig.Validate` over the domains. -/
def validateTargetDomains : List Domain → Except String Unit
  | [] => .ok ()
  | d :: rest =>
    match d.Validate with
    | .error e => .error e
    | .ok _ => validateTargetDomains rest

/-- The loop of `TargetConfig.Validate` over the environment, from index `j`. -/
def validateEnv (format : String) : Nat → List EnvVar → Except String Unit
  | _, [] => .ok ()
  | j, envVar :: rest =>
    match envVar.Validate format with
    | .error e => .error ("env[" ++ toString j ++ "]: " ++ e)
    | .ok _ => validateEnv format (j + 1) rest

/-- The function `filepath.IsAbs` of a Unix system. -/
def isAbs (path : String) : Bool := hasPrefix path "/"

/-- The body of the loop of `TargetConfig.Validate` over the volumes. -/
def validateVolume (volume : String) : Except String Unit :=
  let parts := splitCharsAux ':' volume.data []
  if parts.length < 2 ∨ parts.length > 3 then
    .error ("invalid volume mapping '" ++ volume ++
      "'; expected 'host-path:/container/path[:options]'")
  else
    let hostPath := trimSpace (String.mk (parts.getD 0 []))
    if hostPath = "" then
      .error ("volume host path cannot be empty in '" ++ volume ++ "'")
    else if (strContains hostPath "/" = true ∨ hasPrefix hostPath "." = true) ∧
        isAbs hostPath = false then
      .error ("volume host path '" ++ hostPath ++ "' in '" ++ volume ++
        "' must be absolute when using filesystem bind mounts. " ++
        "Relative paths don't work when the daemon runs in a container")
    else
      let containerPath := trimSpace (String.mk (parts.getD 1 []))
      if isAbs containerPath = false then
        .error ("volume container path '" ++ containerPath ++ "' in '" ++ volume ++
          "' is not an absolute path")
      else .ok ()

/-- The loop of `TargetConfig.Validate` over the volumes. -/
def validateVolumes : List String → Except String Unit
  | [] => .ok ()
  | volume :: rest =>
    match validateVolume volume with
    | .error e => .error e
    | .ok _ => validateVolumes rest

/-- The end of `TargetConfig.Validate`, from the ACME email on. -/
def TargetConfig.validateRest (tc : TargetConfig) (format : String) : Except String Unit :=
  if tc.ACMEEmail ≠ "" ∧ IsValidEmail tc.ACMEEmail = false then
    .error (GetFieldNameForFormat "ACMEEmail" "acmeEmail,omitempty" "acme_email,omitempty"
        "acme_email,omitempty" format ++
      " is invalid '" ++ tc.ACMEEmail ++ "'; must be a valid email address")
  else
    match validateEnv format 0 tc.Env with
    | .error e => .error e
    | .ok _ =>
      match validateVolumes tc.Volumes with
      | .error e => .error e
      | .ok _ =>
        if tc.HealthCheckPath ≠ "" ∧ tc.HealthCheckPath.data.head? ≠ some '/' then
          .error (GetFieldNameForFormat "HealthCheckPath" "healthCheckPath,omitempty"
              "health_check_path,omitempty" "health_check_path,omitempty" format ++
            " must start with a slash")
        else if tc.Replicas.isSome ∧ tc.Replicas.getD 0 < 1 then
          .error "replicas must be at least 1"
        else .ok ()

/-- The method `TargetConfig.Validate`. -/
def TargetConfig.Validate (tc : TargetConfig) (format : String) : Except String Unit :=
  if tc.Name = "" then .error "app 'name' is required"
  else if tc.Server = "" then .error "server is required"
  else if isValidAppName tc.Name = false then
    .error ("invalid app name '" ++ tc.Name ++
      "'; must contain only alphanumeric characters, hyphens, and underscores")
  else if tc.Image.isSome ∧ tc.ImageKey ≠ "" then
    .error "cannot specify both 'image' and 'imageRef' in target config"
  else
    match (match tc.Image with
      | some image => image.Validate format
      | none => .ok ()) with
    | .error e => .error ("invalid image: " ++ e)
    | .ok _ =>
      if tc.DeploymentStrategy ≠ "" ∧
          ¬ tc.DeploymentStrategy ∈ [DeploymentStrategyRolling, DeploymentStrategyReplace] then
        .error ("deployment_strategy must be 'rolling' or 'replace', got '" ++
          tc.DeploymentStrategy ++ "'")
      else
        match validateTargetDomains tc.Domains with
        | .error e => .error e
        | .ok _ => tc.validateRest format

/-- The minimal target of the test table of `TargetConfig.Validate`. -/
def minimalTarget : TargetConfig :=
  { Name := "haloy-test-app", Server := "haloy.dev",
    Image := some { Repository := "nginx", Tag := "latest" } }

/-- A target with a server and a valid image whose name holds a space. -/
def spaceNameTarget : TargetConfig :=
  { Name := "my app", Server := "haloy.dev",
    Image := some { Repository := "nginx", Tag := "latest" } }

/-- An image whose history relies on the registry, with the given tag. -/
def registryImage (tag : String) : Image :=
  { Repository := "nginx", Tag := tag,
    History := some { Strategy := "registry", Count := some 5, Pattern := "v*" } }

/-! ## `internal/helpers/sanitize.go` -/

/-- The characters `SanitizeString` keeps: `a-z`, `A-Z`, `0-9`, `-` and `_`. -/
def isSanitizeAllowed (r : Char) : Bool := isAlnum r || r == '-' || r == '_'

/-- The loop of `SanitizeString` over the runes of the input; the flag is
`lastCharWasUnderscore`, the result is what the loop writes to the builder. -/
def sanitizeLoop : List Char → Bool → List Char
  | [], _ => []
  | r :: rest, lastCharWasUnderscore =>
    if isSanitizeAllowed r then r :: sanitizeLoop rest false
    else if !lastCharWasUnderscore then '_' :: sanitizeLoop rest true
    else sanitizeLoop rest true

/-- The function `helpers.SanitizeString`. -/
def SanitizeString (input : String) : String :=
  if input = "" then "" else ⟨sanitizeLoop input.data false⟩

/-- The behaviour `SanitizeString` documents, written without the flag: an
allowed character is kept, and a maximal run of disallowed characters gives
one `_`. -/
def documentedSanitize : List Char → List Char
  | [] => []
  | r :: rest =>
    if isSanitizeAllowed r then r :: documentedSanitize rest
    else '_' :: documentedSanitize (rest.dropWhile (fun c => !isSanitizeAllowed c))
termination_by l => l.length
decreasing_by
  all_goals simp_wf
  exact Nat.lt_succ_of_le (List.Sublist.length_le (List.dropWhile_sublist _))

/-- The listed containers that fail a check of `BuildDeployments`, each with
the information recorded about it, in the order of the listing. -/
def excludedOf (cli : DockerClient) (containers : List String) : List ExcludedContainerInfo :=
  containers.filterMap (fun id =>
    match inspectContainer cli id with
    | .ok _ => none
    | .error info => some info)

/-- What `addInstance` keeps about the labels stored in the map. -/
def LabelsInv (m : GoMap String Deployment) : Prop :=
  ∀ app dep, mapGet m app = some dep → dep.Labels.AppName = app ∧ dep.Labels.Domains ≠ []

/-- A daemon configuration with an API domain. -/
def apiDomainConfig : HaloydConfig := ⟨"haloy.example", "ops@example.com"⟩

/-- The labels of a container of an app named `haloy_api`. -/
def haloyApiLabels : ContainerLabels := { apiLabels "01" with AppName := "haloy_api" }

/-- A runtime with one running container, of the app `haloy_api`. -/
def haloyApiClient : DockerClient where
  ContainerList := .ok ["c1"]
  ContainerInspect := fun id =>
    if id = "c1" then
      .ok ⟨"c1", haloyApiLabels.ToLabels, [], [("haloy", "10.0.0.1")], some ⟨true, "running", 0⟩⟩
    else .error "no such container"
  HealthCheckContainer := fun _ => .ok ()
  StopContainers := fun _ _ => .ok []
  RemoveContainers := fun _ _ => .ok []

/-- The registry that `BuildDeployments` builds on `haloyApiClient`. -/
def haloyApiApp : GoMap String Deployment :=
  [("haloy_api", ⟨haloyApiLabels, [instanceAt "c1" "10.0.0.1"]⟩)]

/-- Whether a listed container is excluded by `BuildDeployments` for having no
domain. -/
def lacksDomains (cli : DockerClient) (id : String) : Bool :=
  match inspectContainer cli id with
  | .error info => decide (info.Reason = .NoDomains)
  | .ok _ => false

/-! ## `internal/appconfigloader/loader.go` -/

/-- The domain index that the loop of `ParseContainerLabels` reads from a label
key, and whether the key is the key of an alias; `none` for a key the loop
skips. -/
def domainKeyOf (key : String) : Option (Int × Bool) :=
  if hasPrefix key "dev.haloy.domain." = false then none
  else if strContains key ".alias." then (sscanfDomainAlias key).map (fun p => (p.1, true))
  else (sscanfDomainCanonical key).map (fun i => (i, false))

/-- The labels that set the canonical name of a domain, as pairs of the domain
index and the name, in the order of the labels. -/
def canonicalEntries (labels : GoMap String String) : GoMap Int String :=
  labels.filterMap (fun kv =>
    match domainKeyOf kv.1 with
    | some (i, false) => some (i, kv.2)
    | _ => none)

/-- The labels that add an alias to the domain of index `i`: the aliases, in
the order of the labels. -/
def aliasEntries (labels : GoMap String String) (i : Int) : List String :=
  labels.filterMap (fun kv =>
    match domainKeyOf kv.1 with
    | some (j, true) => if j = i then some kv.2 else none
    | _ => none)

/-- Two answers of `ContainerInspect` on the same container, which differ at
most in the order in which the labels are visited. -/
def SameContainer (r₁ r₂ : Except String InspectResponse) : Prop :=
  match r₁, r₂ with
  | .ok c₁, .ok c₂ =>
    c₁.ID = c₂.ID ∧ c₁.ExposedPorts = c₂.ExposedPorts ∧ c₁.Networks = c₂.Networks ∧
      c₁.State = c₂.State ∧ c₁.Labels.Perm c₂.Labels ∧ mapWF c₁.Labels
  | .error _, .error _ => True
  | _, _ => False

/-- No two labels of the container set the canonical name of the same domain
index. -/
def DistinctDomainIndices (r : Except String InspectResponse) : Prop :=
  match r with
  | .ok c => mapWF (canonicalEntries c.Labels)
  | .error _ => True

/-- Two registries with the same apps in the same order, each with the same
deployment id and the same instances. -/
def SameRegistry (m₁ m₂ : GoMap String Deployment) : Prop :=
  List.Forall₂ (fun e₁ e₂ => e₁.1 = e₂.1 ∧
    e₁.2.Labels.DeploymentID = e₂.2.Labels.DeploymentID ∧ e₁.2.Instances = e₂.2.Instances)
    m₁ m₂

/-- The labels of `blog` and one more label for the domain index 0, which is
not a domain name; the added label is visited last. -/
def collidingLast : GoMap String String :=
  blogLabelMap "01" ++ [("dev.haloy.domain.00", "not a domain")]

/-- The labels of `collidingLast`, the added label being visited first. -/
def collidingFirst : GoMap String String :=
  [("dev.haloy.domain.00", "not a domain")] ++ blogLabelMap "01"

/-- A runtime with one running container `c1` that has the given labels. -/
def oneContainer (labels : GoMap String String) : DockerClient where
  ContainerList := .ok ["c1"]
  ContainerInspect := fun id =>
    if id = "c1" then .ok ⟨"c1", labels, [], [("haloy", "10.0.0.1")], some ⟨true, "running", 0⟩⟩
    else .error "no such container"
  HealthCheckContainer := fun _ => .ok ()
  StopContainers := fun _ _ => .ok []
  RemoveContainers := fun _ _ => .ok []

/-- What one label does to the domain of index `i` in the loop of
`ParseContainerLabels`; `none` is a domain not yet in the map. -/
def stepAt (i : Int) (od : Option Domain) (kv : String × String) : Option Domain :=
  match domainKeyOf kv.1 with
  | none => od
  | some (j, true) =>
    if j = i then some { od.getD {} with Aliases := (od.getD {}).Aliases ++ [kv.2] } else od
  | some (j, false) =>
    if j = i then some { od.getD {} with Canonical := kv.2 } else od

/-- Whether some label is a label of the domain of index `i`. -/
def touchesIndex (labels : GoMap String String) (i : Int) : Bool :=
  labels.any (fun kv =>
    match domainKeyOf kv.1 with
    | some (j, _) => decide (j = i)
    | none => false)

/-- The canonical name of the domain of index `i` after the labels, from the
name `c`: the value of the last label that sets it. -/
def canonFold (labels : GoMap String String) (i : Int) (c : String) : String :=
  labels.foldl (fun c kv =>
    match domainKeyOf kv.1 with
    | some (j, false) => if j = i then kv.2 else c
    | _ => c) c

/-- Two outcomes of the checks of `BuildDeployments` on a container that agree:
both exclude it, or both find it eligible with the same app name, the same
deployment id and the same instance. -/
def SameEligibility
    (r₁ r₂ : Except ExcludedContainerInfo (ContainerLabels × DeploymentInstance)) : Prop :=
  match r₁, r₂ with
  | .ok p₁, .ok p₂ =>
    p₁.1.AppName = p₂.1.AppName ∧ p₁.1.DeploymentID = p₂.1.DeploymentID ∧ p₁.2 = p₂.2
  | .error _, .error _ => True
  | _, _ => False

/-! ## `internal/logging`: the log broker -/

/-- The type `LogEntry`; the time is in nanoseconds, the values of `Fields` are
the texts that `Handle` stores. -/
structure LogEntry where
  Level : String := ""
  Message : String := ""
  Timestamp : Int := 0
  DeploymentID : String := ""
  AppName : String := ""
  Domains : List String := []
  Fields : GoMap String String := []
  IsDeploymentComplete : Bool := false
  IsDeploymentFailed : Bool := false
  IsDeploymentSuccess : Bool := false
  IsHaloydInitComplete : Bool := false
  deriving DecidableEq, Repr

/-- A `chan LogEntry`: the entries sent and not yet received, oldest first, the
capacity it was made with, and whether it has been closed. -/
structure Chan where
  queue : List LogEntry := []
  capacity : Nat
  closed : Bool := false
  deriving DecidableEq, Repr

/-- The statement `close(ch)`. -/
def closeChan (chans : List Chan) (ch : Nat) : Except String (List Chan) :=
  match chans.get? ch with
  | none => .error "panic: close of nil channel"
  | some c =>
    if c.closed then .error "panic: close of closed channel"
    else .ok (chans.set ch { c with closed := true })

/-- The closed flags of the channels. -/
def closedFlags (chans : List Chan) : List Bool := chans.map (fun c => c.closed)

/-- A row of the table `deployments`; the JSON columns are kept as text. -/
structure storage.Deployment where
  ID : String
  AppName : String
  RawAppConfig : String := ""
  DeployedImage : String := ""
  RolledBackFrom : Option String := none
  deriving DecidableEq, Repr

theorem mapGet_mapSet_self {κ α : Type} [DecidableEq κ] (m : GoMap κ α) (k : κ) (v : α) :
    mapGet (mapSet m k v) k = some v := by
  induction m with
  | nil => simp [mapSet, mapGet]
  | cons p rest ih =>
    obtain ⟨k', v'⟩ := p
    by_cases h : k' = k
    · simp [mapSet, mapGet, h]
    · simp [mapSet, mapGet, h, ih]

theorem mapGet_mapSet_ne {κ α : Type} [DecidableEq κ] (m : GoMap κ α) (k k' : κ) (v : α)
    (h : k ≠ k') : mapGet (mapSet m k v) k' = mapGet m k' := by
  induction m with
  | nil => simp [mapSet, mapGet, h]
  | cons p rest ih =>
    obtain ⟨k₀, v₀⟩ := p
    by_cases h₀ : k₀ = k
    · subst h₀
      simp [mapSet, mapGet, h]
    · by_cases h₁ : k₀ = k'
      · subst h₁
        simp [mapSet, mapGet, h₀]
      · simp [mapSet, mapGet, h₀, h₁, ih]

theorem mapGet_eq_none_iff {κ α : Type} [DecidableEq κ] (m : GoMap κ α) (k : κ) :
    mapGet m k = none ↔ k ∉ mapKeys m := by
  induction m with
  | nil => simp [mapGet, mapKeys]
  | cons p rest ih =>
    obtain ⟨k₀, v₀⟩ := p
    by_cases h₀ : k₀ = k
    · simp [mapGet, mapKeys, h₀]
    · have : ¬ k = k₀ := fun h => h₀ h.symm
      simp [mapGet, mapKeys, h₀, this] at ih ⊢
      exact ih

theorem mapGet_mem {κ α : Type} [DecidableEq κ] (m : GoMap κ α) (k : κ) (v : α)
    (h : mapGet m k = some v) : (k, v) ∈ m := by
  induction m with
  | nil => simp [mapGet] at h
  | cons p rest ih =>
    obtain ⟨k₀, v₀⟩ := p
    by_cases h₀ : k₀ = k
    · simp [mapGet, h₀] at h
      simp [h₀, h]
    · simp [mapGet, h₀] at h
      exact List.mem_cons_of_mem _ (ih h)

theorem mapGet_of_mem {κ α : Type} [DecidableEq κ] (m : GoMap κ α) (k : κ) (v : α)
    (hwf : mapWF m) (h : (k, v) ∈ m) : mapGet m k = some v := by
  induction m with
  | nil => simp at h
  | cons p rest ih =>
    obtain ⟨k₀, v₀⟩ := p
    simp only [mapWF, mapKeys, List.map_cons, List.nodup_cons] at hwf
    rcases List.mem_cons.mp h with heq | hmem
    · cases heq
      simp [mapGet]
    · have hk : k ∈ rest.map Prod.fst := List.mem_map.mpr ⟨(k, v), hmem, rfl⟩
      have hne : k₀ ≠ k := fun e => hwf.1 (e ▸ hk)
      simp only [mapGet, hne, if_false]
      exact ih hwf.2 hmem

theorem mapKeys_mapSet_mem {κ α : Type} [DecidableEq κ] (m : GoMap κ α) (k k' : κ) (v : α) :
    k' ∈ mapKeys (mapSet m k v) ↔ k' = k ∨ k' ∈ mapKeys m := by
  induction m with
  | nil => simp [mapSet, mapKeys]
  | cons p rest ih =>
    obtain ⟨k₀, v₀⟩ := p
    by_cases h₀ : k₀ = k
    · subst h₀
      simp [mapSet, mapKeys]
    · simp only [mapKeys] at ih
      simp [mapSet, mapKeys, h₀, ih]
      tauto

theorem mapWF_mapSet {κ α : Type} [DecidableEq κ] (m : GoMap κ α) (k : κ) (v : α)
    (hwf : mapWF m) : mapWF (mapSet m k v) := by
  induction m with
  | nil => simp [mapSet, mapWF, mapKeys]
  | cons p rest ih =>
    obtain ⟨k₀, v₀⟩ := p
    simp only [mapWF, mapKeys, List.map_cons, List.nodup_cons] at hwf
    by_cases h₀ : k₀ = k
    · subst h₀
      simpa [mapSet, mapWF, mapKeys] using hwf
    · have hrec := ih hwf.2
      have hmem := mapKeys_mapSet_mem rest k k₀ v
      simp only [mapWF, mapKeys] at hrec hmem
      simp only [mapSet, h₀, if_false, mapWF, mapKeys, List.map_cons, List.nodup_cons]
      refine ⟨?_, hrec⟩
      rw [hmem]
      rintro (h | h)
      · exact h₀ h
      · exact hwf.1 h

theorem lessChars_iff (a b : List Char) : lessChars a b = true ↔ a < b := by
  induction a generalizing b with
  | nil =>
    cases b with
    | nil => simp [lessChars]
    | cons y ys =>
      simp only [lessChars, true_iff]
      exact List.Lex.nil
  | cons x xs ih =>
    cases b with
    | nil => simp [lessChars]
    | cons y ys =>
      have hxy : x.toNat < y.toNat ↔ x < y := by
        rw [Char.lt_def]; exact Iff.rfl
      have hyx : y.toNat < x.toNat ↔ y < x := by
        rw [Char.lt_def]; exact Iff.rfl
      simp only [lessChars]
      by_cases h1 : x.toNat < y.toNat
      · simp only [h1, if_true, true_iff]
        exact List.Lex.rel (hxy.mp h1)
      · by_cases h2 : y.toNat < x.toNat
        · simp only [h1, h2, if_true, if_false, Bool.false_eq_true, false_iff]
          intro hlt
          cases hlt with
          | rel h => exact h1 (hxy.mpr h)
          | cons h => exact absurd h2 (lt_irrefl _)
        · simp only [h1, h2, if_false]
          have hle1 : y ≤ x := not_lt.mp (fun h => h1 (hxy.mpr h))
          have hle2 : x ≤ y := not_lt.mp (fun h => h2 (hyx.mpr h))
          have hEq : x = y := le_antisymm hle2 hle1
          subst hEq
          rw [ih]
          constructor
          · intro h
            exact List.Lex.cons h
          · intro hlt
            cases hlt with
            | rel h => exact absurd h (lt_irrefl _)
            | cons h => exact h

theorem strLess_iff (a b : String) : strLess a b = true ↔ a < b := by
  rw [String.lt_iff_toList_lt]
  exact lessChars_iff a.data b.data


theorem not_strLess_iff (a b : String) : strLess a b = false ↔ b ≤ a := by
  rw [← not_lt, ← strLess_iff]
  simp

theorem instancesOf_append (es : List (ContainerLabels × DeploymentInstance))
    (e : ContainerLabels × DeploymentInstance) (app id : String) :
    instancesOf (es ++ [e]) app id =
      instancesOf es app id ++
        (if e.1.AppName = app ∧ e.1.DeploymentID = id then [e.2] else []) := by
  unfold instancesOf
  by_cases h : e.1.AppName = app ∧ e.1.DeploymentID = id
  · simp [List.filter_append, List.filter_cons, h]
  · simp [List.filter_append, List.filter_cons, h]

theorem instancesOf_eq_nil (es : List (ContainerLabels × DeploymentInstance)) (app id : String)
    (h : ∀ e ∈ es, e.1.AppName = app → e.1.DeploymentID ≠ id) : instancesOf es app id = [] := by
  unfold instancesOf
  rw [List.map_eq_nil_iff, List.filter_eq_nil_iff]
  intro e he
  simp only [decide_eq_true_eq, not_and]
  exact h e he

theorem registryInv_nil : RegistryInv [] [] := by
  intro app
  simp [mapGet]

theorem registryInv_addInstance (m : GoMap String Deployment)
    (es : List (ContainerLabels × DeploymentInstance)) (labels : ContainerLabels)
    (inst : DeploymentInstance) (hinv : RegistryInv m es) :
    RegistryInv (addInstance m labels inst) (es ++ [(labels, inst)]) := by
  intro app
  by_cases happ : labels.AppName = app
  · subst happ
    obtain ⟨hnone, hsome⟩ := hinv labels.AppName
    unfold addInstance
    cases hget : mapGet m labels.AppName with
    | none =>
      simp only [mapGet_mapSet_self]
      refine ⟨by simp, ?_⟩
      intro dep hdep
      cases hdep
      have hno := hnone hget
      refine ⟨⟨(labels, inst), by simp, rfl, rfl⟩, ?_, ?_⟩
      · intro e he hname
        rcases List.mem_append.mp he with h | h
        · exact absurd hname (hno e h)
        · simp only [List.mem_singleton] at h
          subst h
          exact le_refl _
      · rw [instancesOf_append, instancesOf_eq_nil]
        · simp
        · intro e he hname
          exact absurd hname (hno e he)
    | some cur =>
      obtain ⟨hex, hmax, hinsts⟩ := hsome cur hget
      by_cases hsame : cur.Labels.DeploymentID = labels.DeploymentID
      · simp only [hsame, if_true, mapGet_mapSet_self]
        refine ⟨by simp, ?_⟩
        intro dep hdep
        cases hdep
        refine ⟨⟨(labels, inst), by simp, rfl, hsame.symm⟩, ?_, ?_⟩
        · intro e he hname
          rcases List.mem_append.mp he with h | h
          · exact hmax e h hname
          · simp only [List.mem_singleton] at h
            subst h
            exact le_of_eq hsame.symm
        · rw [instancesOf_append, hinsts]
          simp [hsame]
      · by_cases hless : strLess cur.Labels.DeploymentID labels.DeploymentID = true
        · simp only [hsame, hless, if_true, if_false, mapGet_mapSet_self]
          have hlt : cur.Labels.DeploymentID < labels.DeploymentID := (strLess_iff _ _).mp hless
          refine ⟨by simp, ?_⟩
          intro dep hdep
          cases hdep
          refine ⟨⟨(labels, inst), by simp, rfl, rfl⟩, ?_, ?_⟩
          · intro e he hname
            rcases List.mem_append.mp he with h | h
            · exact le_trans (hmax e h hname) (le_of_lt hlt)
            · simp only [List.mem_singleton] at h
              subst h
              exact le_refl _
          · rw [instancesOf_append, instancesOf_eq_nil]
            · simp
            · intro e he hname heq
              have := hmax e he hname
              rw [heq] at this
              exact absurd hlt (not_lt.mpr this)
        · have hless' : strLess cur.Labels.DeploymentID labels.DeploymentID = false := by
            simpa using hless
          simp only [hsame, hless', if_false, Bool.false_eq_true, hget]
          have hge : labels.DeploymentID ≤ cur.Labels.DeploymentID :=
            (not_strLess_iff _ _).mp hless'
          refine ⟨by simp, ?_⟩
          intro dep hdep
          cases hdep
          obtain ⟨e₀, he₀, hn₀, hi₀⟩ := hex
          refine ⟨⟨e₀, List.mem_append_left _ he₀, hn₀, hi₀⟩, ?_, ?_⟩
          · intro e he hname
            rcases List.mem_append.mp he with h | h
            · exact hmax e h hname
            · simp only [List.mem_singleton] at h
              subst h
              exact hge
          · rw [instancesOf_append, hinsts]
            have : ¬ (labels.DeploymentID = cur.Labels.DeploymentID) := fun h => hsame h.symm
            simp [this]
  · have hget : mapGet (addInstance m labels inst) app = mapGet m app := by
      unfold addInstance
      cases hcur : mapGet m labels.AppName with
      | none => simp only [mapGet_mapSet_ne _ _ _ _ happ]
      | some cur =>
        simp only
        split
        · exact mapGet_mapSet_ne _ _ _ _ happ
        · split
          · exact mapGet_mapSet_ne _ _ _ _ happ
          · rfl
    obtain ⟨hnone, hsome⟩ := hinv app
    rw [hget]
    constructor
    · intro h e he
      rcases List.mem_append.mp he with h' | h'
      · exact hnone h e h'
      · simp only [List.mem_singleton] at h'
        subst h'
        exact happ
    · intro dep hdep
      obtain ⟨⟨e₀, he₀, hn₀, hi₀⟩, hmax, hinsts⟩ := hsome dep hdep
      refine ⟨⟨e₀, List.mem_append_left _ he₀, hn₀, hi₀⟩, ?_, ?_⟩
      · intro e he hname
        rcases List.mem_append.mp he with h | h
        · exact hmax e h hname
        · simp only [List.mem_singleton] at h
          subst h
          exact absurd hname happ
      · rw [instancesOf_append, hinsts]
        simp [happ]


theorem buildNewDeployments_fold (cli : DockerClient) (containers : List String)
    (acc : GoMap String Deployment × List ExcludedContainerInfo) :
    (containers.foldl (buildStep cli) acc).1 =
      (eligibleContainers cli containers).foldl (fun m e => addInstance m e.1 e.2) acc.1 := by
  induction containers generalizing acc with
  | nil => rfl
  | cons id rest ih =>
    rw [List.foldl_cons, ih]
    unfold eligibleContainers
    cases h : inspectContainer cli id with
    | error info => simp [buildStep, h, List.filterMap_cons]
    | ok p => simp [buildStep, h, List.filterMap_cons]

theorem registryInv_foldl (rest pre : List (ContainerLabels × DeploymentInstance))
    (m : GoMap String Deployment) (hinv : RegistryInv m pre) :
    RegistryInv (rest.foldl (fun m e => addInstance m e.1 e.2) m) (pre ++ rest) := by
  induction rest generalizing pre m with
  | nil => simpa using hinv
  | cons e rest ih =>
    have h := ih (pre ++ [e]) (addInstance m e.1 e.2)
      (registryInv_addInstance m pre e.1 e.2 hinv)
    simpa using h

theorem registryInv_build (cli : DockerClient) (containers : List String) :
    RegistryInv (buildNewDeployments cli containers).1 (eligibleContainers cli containers) := by
  unfold buildNewDeployments
  rw [buildNewDeployments_fold]
  simpa using registryInv_foldl (eligibleContainers cli containers) [] [] registryInv_nil

/-- C2. After `BuildDeployments` has processed the listed running app
containers, which it does whenever the listing succeeds, every app name in the
registry map has an eligible container, the stored deployment id is one of
that app's eligible containers and no eligible container of the app has a
greater one, and the instances are exactly the eligible containers of the app
with that id, in the order of the listing (so a container with a smaller id
contributes none); an app name without an entry has no eligible container. -/
theorem C2_active_deployment_is_greatest (cli : DockerClient) (dm : DeploymentManager)
    (containers : List String) (hlist : cli.ContainerList = .ok containers) :
    ∃ changed excluded dm', BuildDeployments cli dm = .ok (changed, excluded, dm') ∧
      ∀ app : String,
        (mapGet dm'.deployments app = none →
          ∀ e ∈ eligibleContainers cli containers, e.1.AppName ≠ app) ∧
        (∀ dep, mapGet dm'.deployments app = some dep →
          (∃ e ∈ eligibleContainers cli containers,
            e.1.AppName = app ∧ e.1.DeploymentID = dep.Labels.DeploymentID) ∧
          (∀ e ∈ eligibleContainers cli containers,
            e.1.AppName = app → e.1.DeploymentID ≤ dep.Labels.DeploymentID) ∧
          dep.Instances =
            ((eligibleContainers cli containers).filter (fun e =>
              decide (e.1.AppName = app ∧ e.1.DeploymentID = dep.Labels.DeploymentID))).map
                Prod.snd) := by
  refine ⟨hasChangedOf (compareDeployments dm.deployments (buildNewDeployments cli containers).1),
    (buildNewDeployments cli containers).2,
    { dm with
      deployments := (buildNewDeployments cli containers).1
      compareResult := compareDeployments dm.deployments (buildNewDeployments cli containers).1 },
    ?_, ?_⟩
  · simp only [BuildDeployments, hlist]
  · exact registryInv_build cli containers

/-- C2 at the runtime `registryClient`: the registry holds `blog` at
deployment `02` with the instances of `c1` and `c3`. -/
theorem C2_active_deployment_is_greatest_witness :
    registryClient.ContainerList = .ok ["c1", "c2", "c3", "c4"] ∧
    (∃ changed excluded dm', BuildDeployments registryClient {} = .ok (changed, excluded, dm') ∧
      RegistryInv dm'.deployments
        (eligibleContainers registryClient ["c1", "c2", "c3", "c4"])) ∧
    (buildNewDeployments registryClient ["c1", "c2", "c3", "c4"]).1 =
      [("blog", ⟨blogLabels "02", [instanceAt "c1" "10.0.0.1", instanceAt "c3" "10.0.0.3"]⟩)] :=
  ⟨rfl, C2_active_deployment_is_greatest registryClient {} ["c1", "c2", "c3", "c4"] rfl,
    by decide⟩

theorem mapSet_of_not_mem {κ α : Type} [DecidableEq κ] (m : GoMap κ α) (k : κ) (v : α)
    (h : k ∉ mapKeys m) : mapSet m k v = m ++ [(k, v)] := by
  induction m with
  | nil => rfl
  | cons p rest ih =>
    obtain ⟨k₀, v₀⟩ := p
    simp only [mapKeys, List.map_cons, List.mem_cons, not_or] at h
    have h₀ : ¬ k₀ = k := fun e => h.1 e.symm
    simp only [mapSet, h₀, if_false, List.cons_append]
    rw [ih h.2]

theorem mapGet_append {κ α : Type} [DecidableEq κ] (m₁ m₂ : GoMap κ α) (k : κ) :
    mapGet (m₁ ++ m₂) k = (mapGet m₁ k).orElse (fun _ => mapGet m₂ k) := by
  induction m₁ with
  | nil => simp [mapGet]
  | cons p rest ih =>
    obtain ⟨k₀, v₀⟩ := p
    by_cases h₀ : k₀ = k
    · simp [mapGet, h₀]
    · simp [mapGet, h₀, ih]

theorem mapGet_filter {α : Type} (m : GoMap String α) (p : String → Bool) (k : String) :
    mapGet (m.filter (fun e => p e.1)) k = if p k then mapGet m k else none := by
  induction m with
  | nil => simp [mapGet]
  | cons e rest ih =>
    obtain ⟨k₀, v₀⟩ := e
    by_cases hp : p k₀ = true
    · by_cases h₀ : k₀ = k
      · subst h₀
        simp [List.filter_cons, hp, mapGet]
      · simp [List.filter_cons, hp, mapGet, h₀, ih]
    · by_cases h₀ : k₀ = k
      · subst h₀
        rw [List.filter_cons]
        simp only [hp, Bool.false_eq_true, if_false]
        rw [ih]
        simp [hp]
      · simp [List.filter_cons, hp, mapGet, h₀, ih]

theorem compareNew_foldl (oldDeployments : GoMap String Deployment)
    (l acc : GoMap String Deployment) (hl : mapWF l)
    (hdisj : ∀ k ∈ mapKeys l, k ∉ mapKeys acc) :
    l.foldl (compareNew oldDeployments) acc =
      acc ++ l.filter (fun e => (mapGet oldDeployments e.1).isNone) := by
  induction l generalizing acc with
  | nil => simp
  | cons e rest ih =>
    obtain ⟨k, d⟩ := e
    simp only [mapWF, mapKeys, List.map_cons, List.nodup_cons] at hl
    have hk : k ∉ mapKeys acc := hdisj k (by simp [mapKeys])
    have hrest : ∀ k' ∈ mapKeys rest, k' ∉ mapKeys acc := fun k' hk' =>
      hdisj k' (by simp only [mapKeys, List.map_cons, List.mem_cons]; exact Or.inr hk')
    rw [List.foldl_cons]
    cases hget : mapGet oldDeployments k with
    | some p =>
      have hstep : compareNew oldDeployments acc (k, d) = acc := by
        simp [compareNew, hget]
      rw [hstep, ih acc hl.2 hrest]
      simp [List.filter_cons, hget]
    | none =>
      have hstep : compareNew oldDeployments acc (k, d) = acc ++ [(k, d)] := by
        simp only [compareNew, hget]
        exact mapSet_of_not_mem acc k d hk
      rw [hstep, ih (acc ++ [(k, d)]) hl.2]
      · simp [List.filter_cons, hget]
      · intro k' hk'
        simp only [mapKeys, List.map_append, List.map_cons, List.map_nil, List.mem_append,
          List.mem_singleton, not_or]
        refine ⟨hrest k' hk', ?_⟩
        intro e
        subst e
        exact hl.1 hk'

theorem updatedEntry_fst (newDeployments : GoMap String Deployment)
    (entry out : String × Deployment) (h : updatedEntry newDeployments entry = some out) :
    out.1 = entry.1 := by
  unfold updatedEntry at h
  split at h
  · split at h
    · cases h; rfl
    · cases h
  · cases h

theorem mapKeys_filterMap_updated (newDeployments l : GoMap String Deployment) (k : String)
    (h : k ∈ mapKeys (l.filterMap (updatedEntry newDeployments))) : k ∈ mapKeys l := by
  simp only [mapKeys, List.mem_map, List.mem_filterMap] at h ⊢
  obtain ⟨out, ⟨e, he, hout⟩, hk⟩ := h
  exact ⟨e, he, by rw [← hk, updatedEntry_fst _ _ _ hout]⟩

theorem mapKeys_filter_sub {α : Type} (l : GoMap String α) (p : String × α → Bool) (k : String)
    (h : k ∈ mapKeys (l.filter p)) : k ∈ mapKeys l := by
  simp only [mapKeys, List.mem_map, List.mem_filter] at h ⊢
  obtain ⟨e, ⟨he, _⟩, hk⟩ := h
  exact ⟨e, he, hk⟩

theorem compareOld_step (newDeployments : GoMap String Deployment)
    (u r : GoMap String Deployment) (e : String × Deployment)
    (hu : e.1 ∉ mapKeys u) (hr : e.1 ∉ mapKeys r) :
    compareOld newDeployments (u, r) e =
      (u ++ (updatedEntry newDeployments e).toList,
        r ++ (if (mapGet newDeployments e.1).isNone then [e] else [])) := by
  unfold compareOld updatedEntry
  cases hget : mapGet newDeployments e.1 with
  | none =>
    simp only [Option.isNone_none, if_true, Option.toList_none, List.append_nil]
    rw [mapSet_of_not_mem r e.1 e.2 hr]
  | some cur =>
    simp only [Option.isNone_some, Bool.false_eq_true, if_false, List.append_nil]
    by_cases h1 : e.2.Labels.DeploymentID ≠ cur.Labels.DeploymentID
    · simp only [h1, true_or, if_true, Option.toList_some, ne_eq, not_false_eq_true]
      rw [mapSet_of_not_mem u e.1 cur hu]
    · by_cases h2 : instancesEqual e.2.Instances cur.Instances = false
      · simp only [h1, h2, or_true, if_true, if_false, Option.toList_some]
        rw [mapSet_of_not_mem u e.1 cur hu]
      · simp [h1, h2]

theorem compareOld_foldl (newDeployments : GoMap String Deployment)
    (l u r : GoMap String Deployment) (hl : mapWF l)
    (hu : ∀ k ∈ mapKeys l, k ∉ mapKeys u) (hr : ∀ k ∈ mapKeys l, k ∉ mapKeys r) :
    l.foldl (compareOld newDeployments) (u, r) =
      (u ++ l.filterMap (updatedEntry newDeployments),
        r ++ l.filter (fun e => (mapGet newDeployments e.1).isNone)) := by
  induction l generalizing u r with
  | nil => simp
  | cons e rest ih =>
    simp only [mapWF, mapKeys, List.map_cons, List.nodup_cons] at hl
    have hku : e.1 ∉ mapKeys u := hu e.1 (by simp [mapKeys])
    have hkr : e.1 ∉ mapKeys r := hr e.1 (by simp [mapKeys])
    have hrest : ∀ k ∈ mapKeys rest, k ∈ mapKeys (e :: rest) := fun k hk => by
      simp only [mapKeys, List.map_cons, List.mem_cons]; exact Or.inr hk
    rw [List.foldl_cons, compareOld_step _ _ _ _ hku hkr, ih _ _ hl.2]
    · cases hupd : updatedEntry newDeployments e with
      | none =>
        by_cases hn : (mapGet newDeployments e.1).isNone = true
        · simp [List.filterMap_cons, List.filter_cons, hupd, hn]
        · simp [List.filterMap_cons, List.filter_cons, hupd, hn]
      | some out =>
        by_cases hn : (mapGet newDeployments e.1).isNone = true
        · simp [List.filterMap_cons, List.filter_cons, hupd, hn]
        · simp [List.filterMap_cons, List.filter_cons, hupd, hn]
    · intro k hk
      simp only [mapKeys, List.map_append, List.mem_append, not_or]
      refine ⟨hu k (hrest k hk), ?_⟩
      intro hmem
      cases hupd : updatedEntry newDeployments e with
      | none => simp [hupd] at hmem
      | some out =>
        simp only [hupd, Option.toList_some, List.map_cons, List.map_nil,
          List.mem_singleton] at hmem
        rw [updatedEntry_fst _ _ _ hupd] at hmem
        exact hl.1 (hmem ▸ hk)
    · intro k hk
      simp only [mapKeys, List.map_append, List.mem_append, not_or]
      refine ⟨hr k (hrest k hk), ?_⟩
      intro hmem
      split at hmem
      · simp only [List.map_cons, List.map_nil, List.mem_singleton] at hmem
        exact hl.1 (hmem ▸ hk)
      · simp at hmem

theorem compareDeployments_eq (oldDeployments newDeployments : GoMap String Deployment)
    (hold : mapWF oldDeployments) (hnew : mapWF newDeployments) :
    compareDeployments oldDeployments newDeployments =
      { UpdatedDeployments := oldDeployments.filterMap (updatedEntry newDeployments)
        RemovedDeployments :=
          oldDeployments.filter (fun e => (mapGet newDeployments e.1).isNone)
        AddedDeployments :=
          newDeployments.filter (fun e => (mapGet oldDeployments e.1).isNone) } := by
  unfold compareDeployments
  rw [compareOld_foldl newDeployments oldDeployments [] [] hold (by simp [mapKeys])
    (by simp [mapKeys]), compareNew_foldl oldDeployments newDeployments [] hnew
    (by simp [mapKeys])]
  simp

theorem mapGet_filterMap_updated (newDeployments l : GoMap String Deployment) (hl : mapWF l)
    (k : String) :
    mapGet (l.filterMap (updatedEntry newDeployments)) k =
      match mapGet l k with
      | some p => (updatedEntry newDeployments (k, p)).map Prod.snd
      | none => none := by
  induction l with
  | nil => simp [mapGet]
  | cons e rest ih =>
    obtain ⟨k₀, v₀⟩ := e
    simp only [mapWF, mapKeys, List.map_cons, List.nodup_cons] at hl
    have ih' := ih hl.2
    by_cases h₀ : k₀ = k
    · subst h₀
      have hnone : mapGet rest k₀ = none := (mapGet_eq_none_iff rest k₀).mpr hl.1
      cases hupd : updatedEntry newDeployments (k₀, v₀) with
      | none =>
        simp only [List.filterMap_cons, hupd, mapGet, if_true, Option.map_none']
        rw [ih', hnone]
      | some out =>
        have hfst := updatedEntry_fst _ _ _ hupd
        obtain ⟨k₁, c⟩ := out
        simp only at hfst
        subst hfst
        simp [List.filterMap_cons, hupd, mapGet]
    · cases hupd : updatedEntry newDeployments (k₀, v₀) with
      | none =>
        simp only [List.filterMap_cons, hupd, mapGet, h₀, if_false]
        exact ih'
      | some out =>
        have hfst := updatedEntry_fst _ _ _ hupd
        obtain ⟨k₁, c⟩ := out
        simp only at hfst
        subst hfst
        simp only [List.filterMap_cons, hupd, mapGet, h₀, if_false]
        exact ih'

theorem exists_mapGet_iff_length_pos {κ α : Type} [DecidableEq κ] (m : GoMap κ α) :
    (∃ k v, mapGet m k = some v) ↔ 0 < m.length := by
  cases m with
  | nil => simp [mapGet]
  | cons e rest =>
    obtain ⟨k, v⟩ := e
    simp only [List.length_cons, Nat.zero_lt_succ, iff_true]
    exact ⟨k, v, by simp [mapGet]⟩

theorem mapGet_isNone_filter {α : Type} (m other : GoMap String α) (k : String) (d : α) :
    mapGet (m.filter (fun e => (mapGet other e.1).isNone)) k = some d ↔
      (mapGet m k = some d ∧ mapGet other k = none) := by
  rw [mapGet_filter m (fun k => (mapGet other k).isNone) k]
  cases h : mapGet other k with
  | none => simp
  | some v => simp

/-- C9. For well-formed maps `old` and `new`, the added deployments of
`compareDeployments` are exactly the apps of `new` that are not in `old`, each
with its new deployment, the removed ones exactly the apps of `old` that are
not in `new`, each with its old deployment; and the flag `hasChanged` that
`BuildDeployments` returns is true iff one of the added, updated and removed
maps of the comparison it stores has an entry. -/
theorem C9_added_removed_hasChanged (oldDeployments newDeployments : GoMap String Deployment)
    (hold : mapWF oldDeployments) (hnew : mapWF newDeployments) :
    (∀ app d, mapGet (compareDeployments oldDeployments newDeployments).AddedDeployments app
        = some d ↔ (mapGet newDeployments app = some d ∧ mapGet oldDeployments app = none)) ∧
    (∀ app d, mapGet (compareDeployments oldDeployments newDeployments).RemovedDeployments app
        = some d ↔ (mapGet oldDeployments app = some d ∧ mapGet newDeployments app = none)) ∧
    (∀ (cli : DockerClient) (dm : DeploymentManager) changed excluded dm',
      BuildDeployments cli dm = .ok (changed, excluded, dm') →
        dm'.compareResult = compareDeployments dm.deployments dm'.deployments ∧
        (changed = true ↔
          ((∃ app d, mapGet dm'.compareResult.AddedDeployments app = some d) ∨
           (∃ app d, mapGet dm'.compareResult.UpdatedDeployments app = some d) ∨
           (∃ app d, mapGet dm'.compareResult.RemovedDeployments app = some d)))) := by
  refine ⟨?_, ?_, ?_⟩
  · intro app d
    rw [compareDeployments_eq _ _ hold hnew]
    exact mapGet_isNone_filter newDeployments oldDeployments app d
  · intro app d
    rw [compareDeployments_eq _ _ hold hnew]
    exact mapGet_isNone_filter oldDeployments newDeployments app d
  · intro cli dm changed excluded dm' hbuild
    unfold BuildDeployments at hbuild
    cases hlist : cli.ContainerList with
    | error e => simp [hlist] at hbuild
    | ok containers =>
      simp only [hlist, Except.ok.injEq, Prod.mk.injEq] at hbuild
      obtain ⟨hchanged, _, hdm⟩ := hbuild
      subst hdm
      refine ⟨rfl, ?_⟩
      rw [← hchanged]
      simp only [exists_mapGet_iff_length_pos, hasChangedOf, Bool.or_eq_true, decide_eq_true_eq]
      tauto

/-- C9 at the registries `registryBefore` and `registryAfter`. -/
theorem C9_added_removed_hasChanged_witness :
    mapWF registryBefore ∧ mapWF registryAfter ∧
    mapGet (compareDeployments registryBefore registryAfter).AddedDeployments "shop" =
      mapGet registryAfter "shop" ∧
    mapGet (compareDeployments registryBefore registryAfter).RemovedDeployments "api" =
      mapGet registryBefore "api" ∧
    mapGet (compareDeployments registryBefore registryAfter).AddedDeployments "blog" = none :=
  have h := C9_added_removed_hasChanged registryBefore registryAfter (by decide) (by decide)
  ⟨by decide, by decide,
    ((h.1 "shop" _).mpr ⟨rfl, rfl⟩).trans rfl,
    ((h.2.1 "api" _).mpr ⟨rfl, rfl⟩).trans rfl,
    by decide⟩

theorem instancesEqual_iff (a b : List DeploymentInstance) :
    instancesEqual a b = true ↔
      (a.length = b.length ∧ ∀ id ∈ containerIDs b, id ∈ containerIDs a) := by
  unfold instancesEqual containerIDs
  by_cases hlen : a.length = b.length
  · simp [hlen]
  · simp [hlen]

theorem instancesEqual_iff_same_ids (a b : List DeploymentInstance)
    (ha : (containerIDs a).Nodup) (hb : (containerIDs b).Nodup) :
    instancesEqual a b = true ↔ ∀ id, id ∈ containerIDs a ↔ id ∈ containerIDs b := by
  rw [instancesEqual_iff]
  have hla : (containerIDs a).length = a.length := by simp [containerIDs]
  have hlb : (containerIDs b).length = b.length := by simp [containerIDs]
  constructor
  · rintro ⟨hlen, hsub⟩
    have hsp : (containerIDs b).Subperm (containerIDs a) := List.subperm_of_subset hb hsub
    have hperm : (containerIDs b).Perm (containerIDs a) :=
      hsp.perm_of_length_le (by rw [hla, hlb, hlen])
    intro id
    exact (hperm.mem_iff).symm
  · intro hset
    have hperm : (containerIDs a).Perm (containerIDs b) :=
      (List.perm_ext_iff_of_nodup ha hb).mpr hset
    refine ⟨?_, fun id hid => (hset id).mpr hid⟩
    rw [← hla, ← hlb]
    exact hperm.length_eq

/-- C10, amended. For well-formed maps and an app present in both, the app is
in `UpdatedDeployments` (with its new deployment) iff its new deployment id
differs from the old one or `instancesEqual` is false on the two instance
lists; `instancesEqual a b` is true exactly when the lists have the same
length and every container id of `b` occurs in `a`, which for lists without a
repeated container id is exactly when they have the same set of container
ids; and an app with the same id and `instancesEqual` instance lists is in
none of the three maps. -/
theorem C10_updated_iff_id_differs_or_instances_differ
    (oldDeployments newDeployments : GoMap String Deployment)
    (hold : mapWF oldDeployments) (hnew : mapWF newDeployments)
    (app : String) (prev cur : Deployment)
    (hprev : mapGet oldDeployments app = some prev)
    (hcur : mapGet newDeployments app = some cur) :
    (∀ d, mapGet (compareDeployments oldDeployments newDeployments).UpdatedDeployments app
        = some d ↔
      (d = cur ∧ (prev.Labels.DeploymentID ≠ cur.Labels.DeploymentID ∨
        instancesEqual prev.Instances cur.Instances = false))) ∧
    (∀ a b : List DeploymentInstance, instancesEqual a b = true ↔
      (a.length = b.length ∧ ∀ id ∈ containerIDs b, id ∈ containerIDs a)) ∧
    (∀ a b : List DeploymentInstance, (containerIDs a).Nodup → (containerIDs b).Nodup →
      (instancesEqual a b = true ↔ ∀ id, id ∈ containerIDs a ↔ id ∈ containerIDs b)) ∧
    (prev.Labels.DeploymentID = cur.Labels.DeploymentID →
      instancesEqual prev.Instances cur.Instances = true →
        mapGet (compareDeployments oldDeployments newDeployments).UpdatedDeployments app = none ∧
        mapGet (compareDeployments oldDeployments newDeployments).AddedDeployments app = none ∧
        mapGet (compareDeployments oldDeployments newDeployments).RemovedDeployments app
          = none) := by
  have hupd : mapGet (compareDeployments oldDeployments newDeployments).UpdatedDeployments app
      = (updatedEntry newDeployments (app, prev)).map Prod.snd := by
    rw [compareDeployments_eq _ _ hold hnew]
    simp only
    rw [mapGet_filterMap_updated newDeployments oldDeployments hold app, hprev]
  have hadd : mapGet (compareDeployments oldDeployments newDeployments).AddedDeployments app
      = none := by
    rw [compareDeployments_eq _ _ hold hnew]
    simp only
    rw [mapGet_filter newDeployments (fun k => (mapGet oldDeployments k).isNone) app]
    simp [hprev]
  have hrem : mapGet (compareDeployments oldDeployments newDeployments).RemovedDeployments app
      = none := by
    rw [compareDeployments_eq _ _ hold hnew]
    simp only
    rw [mapGet_filter oldDeployments (fun k => (mapGet newDeployments k).isNone) app]
    simp [hcur]
  refine ⟨?_, instancesEqual_iff, instancesEqual_iff_same_ids, ?_⟩
  · intro d
    rw [hupd]
    unfold updatedEntry
    simp only [hcur]
    by_cases hc : prev.Labels.DeploymentID ≠ cur.Labels.DeploymentID ∨
        instancesEqual prev.Instances cur.Instances = false
    · simp only [hc, if_true, Option.map_some', Option.some.injEq, and_true]
      exact eq_comm
    · simp [hc]
  · intro hid heq
    refine ⟨?_, hadd, hrem⟩
    rw [hupd]
    unfold updatedEntry
    simp [hcur, hid, heq]

/-- C10, as stated, fails: `blog` goes from deployment `02` to the older `01`
on the same container and is in `UpdatedDeployments`, though its new id is not
newer and its instance ids are the same; and `instancesEqual` holds of two
lists with different sets of container ids. -/
theorem C10_counterexample :
    (mapGet (compareDeployments registryBefore registryAfter).UpdatedDeployments "blog" =
        mapGet registryAfter "blog" ∧
      mapGet registryAfter "blog" = some ⟨blogLabels "01", [instanceAt "c1" "10.0.0.1"]⟩ ∧
      mapGet registryBefore "blog" = some ⟨blogLabels "02", [instanceAt "c1" "10.0.0.1"]⟩ ∧
      strLess "02" "01" = false) ∧
    (instancesEqual [instanceAt "x" "10.0.0.1", instanceAt "y" "10.0.0.2"]
        [instanceAt "x" "10.0.0.1", instanceAt "x" "10.0.0.1"] = true ∧
      "y" ∈ containerIDs [instanceAt "x" "10.0.0.1", instanceAt "y" "10.0.0.2"] ∧
      "y" ∉ containerIDs [instanceAt "x" "10.0.0.1", instanceAt "x" "10.0.0.1"]) := by
  decide

/-- C10, amended, at the registries `registryBefore` and `registryAfter`. -/
theorem C10_updated_iff_id_differs_or_instances_differ_witness :
    mapWF registryBefore ∧ mapWF registryAfter ∧
    mapGet registryBefore "blog" = some ⟨blogLabels "02", [instanceAt "c1" "10.0.0.1"]⟩ ∧
    mapGet registryAfter "blog" = some ⟨blogLabels "01", [instanceAt "c1" "10.0.0.1"]⟩ ∧
    mapGet (compareDeployments registryBefore registryAfter).UpdatedDeployments "blog" =
      some ⟨blogLabels "01", [instanceAt "c1" "10.0.0.1"]⟩ :=
  ⟨by decide, by decide, rfl, rfl,
    ((C10_updated_iff_id_differs_or_instances_differ registryBefore registryAfter
      (by decide) (by decide) "blog" _ _ rfl rfl).1 _).mpr ⟨rfl, Or.inl (by decide)⟩⟩

theorem healthCheckCalls_not_cutover (checked : List Deployment) :
    ∀ c ∈ healthCheckCalls checked, c.isCutover = false := by
  intro c hc
  simp only [healthCheckCalls, List.mem_flatMap, List.mem_map] at hc
  obtain ⟨d, _, i, _, rfl⟩ := hc
  rfl

theorem failedInstances_eq_nil_iff (cli : DockerClient) (d : Deployment) :
    failedInstances cli d = [] ↔
      ∀ inst ∈ d.Instances, cli.HealthCheckContainer inst.ContainerID = .ok () := by
  simp [failedInstances, List.filter_eq_nil_iff]

theorem failed_eq_nil_iff (cli : DockerClient) (added updated : GoMap String Deployment) :
    (healthCheckDeployments cli added updated).2 = [] ↔
      ∀ d ∈ (healthCheckDeployments cli added updated).1, ∀ inst ∈ d.Instances,
        cli.HealthCheckContainer inst.ContainerID = .ok () := by
  simp only [healthCheckDeployments, List.flatMap_eq_nil_iff, failedInstances_eq_nil_iff]

theorem updateCutover_calls (env : UpdaterEnv) (dm : DeploymentManager)
    (app : Option TriggeredByApp) (deployments : GoMap String Deployment) (calls : List Call) :
    ∃ later, (updateCutover env dm app deployments calls).calls = calls ++ later := by
  unfold updateCutover
  cases ApplyConfig env.proxy dm.haloydConfig deployments with
  | error e => exact ⟨_, rfl⟩
  | ok u =>
    cases app with
    | none => exact ⟨_, rfl⟩
    | some a =>
      simp only
      cases env.cli.StopContainers a.appName a.deploymentID with
      | error e => exact ⟨_, List.append_assoc _ _ _⟩
      | ok u =>
        simp only
        cases env.cli.RemoveContainers a.appName a.deploymentID with
        | error e =>
          exact ⟨[Call.ApplyConfig deployments] ++ ([Call.StopContainers a.appName a.deploymentID]
            ++ [Call.RemoveContainers a.appName a.deploymentID]),
            by simp only [List.append_assoc]⟩
        | ok u =>
          exact ⟨[Call.ApplyConfig deployments] ++ ([Call.StopContainers a.appName a.deploymentID]
            ++ [Call.RemoveContainers a.appName a.deploymentID]),
            by simp only [List.append_assoc]⟩

theorem updateCutover_calls_of_append (env : UpdaterEnv) (dm : DeploymentManager)
    (app : Option TriggeredByApp) (deployments : GoMap String Deployment)
    (calls extra : List Call) :
    ∃ later, (updateCutover env dm app deployments (calls ++ extra)).calls = calls ++ later := by
  obtain ⟨later, h⟩ := updateCutover_calls env dm app deployments (calls ++ extra)
  exact ⟨extra ++ later, by rw [h, List.append_assoc]⟩

theorem updateCertificates_calls (env : UpdaterEnv) (dm : DeploymentManager)
    (reason : TriggerReason) (app : Option TriggeredByApp)
    (deployments : GoMap String Deployment) (calls : List Call) :
    ∃ later, (updateCertificates env dm reason app deployments calls).calls = calls ++ later := by
  unfold updateCertificates
  cases GetCertificateDomains dm with
  | error e => exact ⟨[], by simp⟩
  | ok certDomains =>
    have key : ∀ extra : List Call, ∃ later,
        (updateCutover env dm app deployments
          (if reason = .TriggerPeriodicRefresh then
            (calls ++ extra) ++ [Call.CleanupExpiredCertificates certDomains]
          else calls ++ extra)).calls = calls ++ later := by
      intro extra
      split
      · rw [List.append_assoc]
        exact updateCutover_calls_of_append env dm app deployments calls _
      · exact updateCutover_calls_of_append env dm app deployments calls _
    cases app with
    | some a =>
      simp only
      split
      · cases RefreshSync env.certs (appCertDomains a certDomains) with
        | error e => exact ⟨_, rfl⟩
        | ok u => exact key _
      · split
        · cases RefreshSync env.certs certDomains with
          | error e => exact ⟨_, rfl⟩
          | ok u => exact key _
        · exact key _
    | none =>
      simp only
      split
      · cases RefreshSync env.certs certDomains with
        | error e => exact ⟨_, rfl⟩
        | ok u => exact key _
      · exact key _

/-- C3. In every run of `Update` that reaches `HealthCheckNewContainers`,
whatever other goroutines do meanwhile, a failed container id in its report
makes `Update` return the error that names the failed ids, with no call of
`ApplyConfig`, `StopContainers` or `RemoveContainers`. In a run that no
`BuildDeployments` of another goroutine interleaves with, a call of
`StopContainers` is made only after the health checks, every instance of every
deployment this run found added or updated having passed. That fails when
another goroutine completes a `BuildDeployments` between this run's own and
its read of `dm.compareResult`: on `registryClient`, where the new container
`c3` of `blog` fails its health check, the run on its own is aborted naming
`c3`, while the interleaved run reads an empty comparison, checks no
container, applies the configuration and stops and removes the old
containers of `blog`. -/
theorem C3_health_gate_skipped_by_concurrent_build (env : UpdaterEnv) (dm : DeploymentManager)
    (reason : TriggerReason) (app : Option TriggeredByApp) (others : Interleaving) :
    (∀ changed excluded dm', BuildDeployments env.cli dm = .ok (changed, excluded, dm') →
      (changed = true ∨ reason = .TriggerReasonInitial) →
      ∀ report, report = healthCheckDeployments env.cli
          (others.beforeAdded.foldl buildBy dm').compareResult.AddedDeployments
          (others.beforeUpdated.foldl buildBy
            (others.beforeAdded.foldl buildBy dm')).compareResult.UpdatedDeployments →
        report.2 ≠ [] →
          (Update env dm reason app others).result =
            .error ("deployment aborted: failed to perform health check on containers (" ++
              strJoin report.2 ", " ++ ")") ∧
          (Update env dm reason app others).calls = healthCheckCalls report.1 ∧
          ∀ c ∈ (Update env dm reason app others).calls, c.isCutover = false) ∧
    (∀ a i, Call.StopContainers a i ∈ (Update env dm reason app {}).calls →
      ∃ changed excluded dm', BuildDeployments env.cli dm = .ok (changed, excluded, dm') ∧
        (∃ later, (Update env dm reason app {}).calls =
          healthCheckCalls (mapValues dm'.compareResult.AddedDeployments ++
            mapValues dm'.compareResult.UpdatedDeployments) ++ later) ∧
        ∀ d ∈ mapValues dm'.compareResult.AddedDeployments ++
            mapValues dm'.compareResult.UpdatedDeployments,
          ∀ inst ∈ d.Instances, env.cli.HealthCheckContainer inst.ContainerID = .ok ()) ∧
    (registryClient.HealthCheckContainer "c3" ≠ .ok () ∧
      (∃ excluded dm', BuildDeployments registryClient {} = .ok (true, excluded, dm') ∧
        dm'.compareResult.AddedDeployments =
          [("blog", ⟨blogLabels "02",
            [instanceAt "c1" "10.0.0.1", instanceAt "c3" "10.0.0.3"]⟩)]) ∧
      (Update updaterEnv {} .TriggerReasonAppUpdated (some blogTrigger) {}).result =
        .error "deployment aborted: failed to perform health check on containers (c3)" ∧
      (Update updaterEnv {} .TriggerReasonAppUpdated (some blogTrigger) {}).calls =
        [Call.HealthCheckContainer "c1", Call.HealthCheckContainer "c3"] ∧
      (Update updaterEnv {} .TriggerReasonAppUpdated (some blogTrigger)
        oneBuildBeforeHealthCheck).result = .ok () ∧
      (Update updaterEnv {} .TriggerReasonAppUpdated (some blogTrigger)
        oneBuildBeforeHealthCheck).calls.any Call.isHealthCheck = false ∧
      (Update updaterEnv {} .TriggerReasonAppUpdated (some blogTrigger)
        oneBuildBeforeHealthCheck).calls.filter Call.isCutover =
        [Call.ApplyConfig
            [("blog", ⟨blogLabels "02",
              [instanceAt "c1" "10.0.0.1", instanceAt "c3" "10.0.0.3"]⟩)],
          Call.StopContainers "blog" "02", Call.RemoveContainers "blog" "02"]) := by
  refine ⟨?_, ?_, ?_⟩
  · intro changed excluded dm' hbuild hreach report hreport hfailed
    have hskip : ¬ (changed = false ∧ reason ≠ .TriggerReasonInitial) := by
      rintro ⟨h1, h2⟩
      rcases hreach with h | h
      · rw [h1] at h
        exact Bool.false_ne_true h
      · exact h2 h
    have hlen : report.2.length > 0 := List.length_pos.mpr hfailed
    have hU : Update env dm reason app others =
        ⟨healthCheckCalls report.1,
          .error ("deployment aborted: failed to perform health check on containers (" ++
            strJoin report.2 ", " ++ ")"),
          others.beforeUpdated.foldl buildBy (others.beforeAdded.foldl buildBy dm')⟩ := by
      unfold Update
      simp only [hbuild]
      rw [if_neg hskip]
      simp only [← hreport]
      rw [if_pos hlen]
    rw [hU]
    exact ⟨rfl, rfl, healthCheckCalls_not_cutover _⟩
  · intro a i hmem
    unfold Update at hmem ⊢
    cases hbuild : BuildDeployments env.cli dm with
    | error e => simp [hbuild] at hmem
    | ok r =>
      obtain ⟨changed, excluded, dm'⟩ := r
      simp only [hbuild, List.foldl_nil] at hmem ⊢
      by_cases hskip : changed = false ∧ reason ≠ .TriggerReasonInitial
      · simp [hskip] at hmem
      · simp only [hskip, if_false] at hmem ⊢
        by_cases hlen : (healthCheckDeployments env.cli dm'.compareResult.AddedDeployments
            dm'.compareResult.UpdatedDeployments).2.length > 0
        · simp only [hlen, if_true] at hmem
          have := healthCheckCalls_not_cutover _ _ hmem
          simp [Call.isCutover] at this
        · simp only [hlen, if_false] at hmem ⊢
          have hnil : (healthCheckDeployments env.cli dm'.compareResult.AddedDeployments
              dm'.compareResult.UpdatedDeployments).2 = [] := by
            simpa using hlen
          refine ⟨changed, excluded, dm', rfl, ?_, (failed_eq_nil_iff _ _ _).mp hnil⟩
          split
          · obtain ⟨later, h⟩ := updateCertificates_calls env dm' reason app dm'.Deployments
              (healthCheckCalls (healthCheckDeployments env.cli
                  dm'.compareResult.AddedDeployments dm'.compareResult.UpdatedDeployments).1 ++
                [Call.waitForACMERouting])
            exact ⟨_, by rw [h, List.append_assoc]; rfl⟩
          · exact updateCertificates_calls env dm' reason app dm'.Deployments _
  · refine ⟨by decide, ⟨_, _, rfl, by decide⟩, by decide, by decide, by decide, by decide,
      by decide⟩

/-- C1 at the descriptor `blogLabels "01"`, which has two aliases and passes
`Validate`. When the `range` loop of `ParseContainerLabels` visits the labels
in the order `ToLabels` adds them, the descriptor comes back; when it visits
them in the opposite order, the two aliases come back swapped. -/
theorem C1_roundtrip_swaps_aliases :
    (blogLabels "01").Validate = .ok () ∧
    (blogLabels "01").ToLabels.reverse.Perm (blogLabels "01").ToLabels ∧
    ParseContainerLabels (blogLabels "01").ToLabels = .ok (blogLabels "01") ∧
    ParseContainerLabels (blogLabels "01").ToLabels.reverse =
      .ok { blogLabels "01" with
            Domains := [⟨"blog.example", ["m.blog.example", "www.blog.example"]⟩] } ∧
    ParseContainerLabels (blogLabels "01").ToLabels.reverse ≠ .ok (blogLabels "01") :=
  ⟨by decide, List.reverse_perm _, by decide, by decide, by decide⟩

theorem deduplicateLoop_acc (domains : List CertificatesDomain) (seen : List String)
    (unique : List CertificatesDomain) :
    deduplicateLoop domains seen unique = unique ++ deduplicateLoop domains seen [] := by
  induction domains generalizing seen unique with
  | nil => simp [deduplicateLoop]
  | cons d rest ih =>
    unfold deduplicateLoop
    by_cases h : d.Canonical ∈ seen
    · simp only [h, if_true]
      exact ih seen unique
    · simp only [h, if_false]
      rw [ih (d.Canonical :: seen) (unique ++ [d]), ih (d.Canonical :: seen) ([] ++ [d])]
      simp

theorem deduplicateLoop_canonical_not_seen (domains : List CertificatesDomain)
    (seen : List String) :
    ∀ d ∈ deduplicateLoop domains seen [], d.Canonical ∉ seen := by
  induction domains generalizing seen with
  | nil => simp [deduplicateLoop]
  | cons x rest ih =>
    intro d hd
    unfold deduplicateLoop at hd
    by_cases h : x.Canonical ∈ seen
    · simp only [h, if_true] at hd
      exact ih seen d hd
    · simp only [h, if_false] at hd
      rw [deduplicateLoop_acc] at hd
      rcases List.mem_append.mp hd with h1 | h1
      · simp only [List.nil_append, List.mem_singleton] at h1
        rw [h1]
        exact h
      · have := ih (x.Canonical :: seen) d h1
        exact fun hmem => this (List.mem_cons_of_mem _ hmem)

theorem deduplicateLoop_nodup (domains : List CertificatesDomain) (seen : List String) :
    ((deduplicateLoop domains seen []).map (fun d => d.Canonical)).Nodup := by
  induction domains generalizing seen with
  | nil => simp [deduplicateLoop]
  | cons x rest ih =>
    unfold deduplicateLoop
    by_cases h : x.Canonical ∈ seen
    · simp only [h, if_true]
      exact ih seen
    · simp only [h, if_false]
      rw [deduplicateLoop_acc]
      simp only [List.nil_append, List.singleton_append, List.map_cons, List.nodup_cons]
      refine ⟨?_, ih _⟩
      intro hmem
      obtain ⟨d, hd, hk⟩ := List.mem_map.mp hmem
      exact deduplicateLoop_canonical_not_seen rest (x.Canonical :: seen) d hd
        (by rw [hk]; exact List.mem_cons_self _ _)

theorem deduplicateLoop_find (domains : List CertificatesDomain) (seen : List String)
    (k : String) (hk : k ∉ seen) :
    (deduplicateLoop domains seen []).find? (fun d => decide (d.Canonical = k)) =
      domains.find? (fun d => decide (d.Canonical = k)) := by
  induction domains generalizing seen with
  | nil => simp [deduplicateLoop]
  | cons x rest ih =>
    unfold deduplicateLoop
    by_cases h : x.Canonical ∈ seen
    · have hne : x.Canonical ≠ k := fun e => hk (e ▸ h)
      simp only [h, if_true, List.find?_cons, hne, decide_False]
      exact ih seen hk
    · simp only [h, if_false]
      rw [deduplicateLoop_acc]
      simp only [List.nil_append, List.singleton_append, List.find?_cons]
      by_cases hxk : x.Canonical = k
      · simp [hxk]
      · simp only [hxk, decide_False]
        apply ih
        intro hmem
        rcases List.mem_cons.mp hmem with h1 | h1
        · exact hxk h1.symm
        · exact hk h1

theorem currentStateStep_foldl (l : List CertificatesDomain)
    (acc : GoMap String CertificatesDomain)
    (hnodup : (l.map (fun d => d.Canonical)).Nodup)
    (hdisj : ∀ d ∈ l, d.Canonical ∉ mapKeys acc) :
    l.foldl currentStateStep acc = acc ++ l.map (fun d => (d.Canonical, d)) := by
  induction l generalizing acc with
  | nil => simp
  | cons x rest ih =>
    simp only [List.map_cons, List.nodup_cons] at hnodup
    have hx : x.Canonical ∉ mapKeys acc := hdisj x (List.mem_cons_self _ _)
    have hstep : currentStateStep acc x = acc ++ [(x.Canonical, x)] := by
      unfold currentStateStep
      rw [(mapGet_eq_none_iff acc x.Canonical).mpr hx]
      exact mapSet_of_not_mem acc x.Canonical x hx
    rw [List.foldl_cons, hstep, ih _ hnodup.2]
    · simp
    · intro d hd
      simp only [mapKeys, List.map_append, List.map_cons, List.map_nil, List.mem_append,
        List.mem_singleton, not_or]
      refine ⟨hdisj d (List.mem_cons_of_mem _ hd), ?_⟩
      intro e
      apply hnodup.1
      rw [← e]
      exact List.mem_map.mpr ⟨d, hd, rfl⟩

theorem mapGet_map_canonical (l : List CertificatesDomain) (k : String) :
    mapGet (l.map (fun d => (d.Canonical, d))) k =
      l.find? (fun d => decide (d.Canonical = k)) := by
  induction l with
  | nil => rfl
  | cons x rest ih =>
    by_cases h : x.Canonical = k
    · simp [mapGet, h]
    · simp [mapGet, h, ih]

/-- C7. The entry `checkRenewals` processes for a canonical name is, for every
list of domains, the first entry of the list with that name, however many
aliases a later entry has. At `duplicateCanonical` the entry kept for
`shop.example` is the first one, which has no alias, and the certificate
obtained is for that entry; with the two entries the other way round it is
the entry with the alias. -/
theorem C7_first_entry_kept :
    (∀ (domains : List CertificatesDomain) (k : String),
      mapGet (currentStateOf domains) k =
        domains.find? (fun d => decide (d.Canonical = k))) ∧
    deduplicateDomains duplicateCanonical = [⟨"shop.example", [], "ops@example.com"⟩] ∧
    currentStateOf duplicateCanonical =
      [("shop.example", ⟨"shop.example", [], "ops@example.com"⟩)] ∧
    checkRenewals certsAllGood duplicateCanonical =
      ([⟨"shop.example", [], "ops@example.com"⟩], none) ∧
    currentStateOf duplicateCanonical.reverse =
      [("shop.example", ⟨"shop.example", ["www.shop.example"], "ops@example.com"⟩)] := by
  refine ⟨?_, by decide, by decide, by decide, by decide⟩
  intro domains k
  unfold currentStateOf deduplicateDomains
  rw [currentStateStep_foldl _ [] (deduplicateLoop_nodup domains []) (by simp [mapKeys])]
  simp only [List.nil_append]
  rw [mapGet_map_canonical]
  exact deduplicateLoop_find domains [] k (by simp)

theorem obtainCertificate_ok (env : CertEnv) (d d' : CertificatesDomain)
    (h : obtainCertificate env d = .ok d') : d' = d := by
  unfold obtainCertificate at h
  split at h
  · cases h
  · split at h
    · cases h
    · split at h
      · cases h
      · split at h
        · cases h
        · cases h
          rfl

theorem renewLoop_ok (env : CertEnv) (visited : List (String × CertificatesDomain))
    (renewed : List CertificatesDomain)
    (hok : ∀ e ∈ visited, renewalDue env e.2 = some true →
      ∃ d, obtainCertificate env e.2 = .ok d) :
    renewLoop env visited renewed = (renewed ++ dueDomains env visited, none) := by
  induction visited generalizing renewed with
  | nil => simp [renewLoop, dueDomains]
  | cons e rest ih =>
    obtain ⟨k, domain⟩ := e
    have hrest : ∀ e ∈ rest, renewalDue env e.2 = some true →
        ∃ d, obtainCertificate env e.2 = .ok d :=
      fun e he => hok e (List.mem_cons_of_mem _ he)
    unfold renewLoop
    cases hdue : renewalDue env domain with
    | none =>
      simp only
      rw [ih renewed hrest]
      simp [dueDomains, List.filter_cons, hdue]
    | some b =>
      cases b with
      | false =>
        simp only
        rw [ih renewed hrest]
        simp [dueDomains, List.filter_cons, hdue]
      | true =>
        obtain ⟨d, hd⟩ := hok (k, domain) (List.mem_cons_self _ _) hdue
        have hdd := obtainCertificate_ok env domain d hd
        subst hdd
        simp only [hd]
        rw [ih _ hrest]
        simp [dueDomains, List.filter_cons, hdue]

theorem renewLoop_error (env : CertEnv) (pre post : List (String × CertificatesDomain))
    (e : String × CertificatesDomain) (err : String) (renewed : List CertificatesDomain)
    (hpre : ∀ x ∈ pre, renewalDue env x.2 = some true →
      ∃ d, obtainCertificate env x.2 = .ok d)
    (hdue : renewalDue env e.2 = some true) (herr : obtainCertificate env e.2 = .error err) :
    renewLoop env (pre ++ e :: post) renewed = (renewed ++ dueDomains env pre, some err) := by
  induction pre generalizing renewed with
  | nil =>
    obtain ⟨k, domain⟩ := e
    simp only [List.nil_append]
    unfold renewLoop
    simp only at hdue herr
    simp [hdue, herr, dueDomains]
  | cons x rest ih =>
    obtain ⟨k, domain⟩ := x
    have hrest : ∀ x ∈ rest, renewalDue env x.2 = some true →
        ∃ d, obtainCertificate env x.2 = .ok d :=
      fun x hx => hpre x (List.mem_cons_of_mem _ hx)
    simp only [List.cons_append]
    unfold renewLoop
    cases hd : renewalDue env domain with
    | none =>
      simp only
      rw [ih renewed hrest]
      simp [dueDomains, List.filter_cons, hd]
    | some b =>
      cases b with
      | false =>
        simp only
        rw [ih renewed hrest]
        simp [dueDomains, List.filter_cons, hd]
      | true =>
        obtain ⟨d, hobt⟩ := hpre (k, domain) (List.mem_cons_self _ _) hd
        have hdd := obtainCertificate_ok env domain d hobt
        subst hdd
        simp only [hobt]
        rw [ih _ hrest]
        simp [dueDomains, List.filter_cons, hd]

/-- C8, amended. Whatever the order `visited` in which the loop of
`checkRenewals` meets the unique canonical names: when no certificate it goes
on to obtain fails, it returns without an error exactly the domains it
obtained a certificate for; when obtaining fails for an entry, it returns that
error at once, together with the domains obtained before, and the entries
after it are not processed. `checkRenewals` runs this loop on `currentState`
whenever it is given a domain. -/
theorem C8_obtain_failure_stops_refresh (env : CertEnv)
    (visited : List (String × CertificatesDomain)) :
    ((∀ e ∈ visited, renewalDue env e.2 = some true →
        ∃ d, obtainCertificate env e.2 = .ok d) →
      renewLoop env visited [] = (dueDomains env visited, none)) ∧
    (∀ pre e post err, visited = pre ++ e :: post →
      (∀ x ∈ pre, renewalDue env x.2 = some true → ∃ d, obtainCertificate env x.2 = .ok d) →
      renewalDue env e.2 = some true → obtainCertificate env e.2 = .error err →
        renewLoop env visited [] = (dueDomains env pre, some err)) ∧
    (∀ domains : List CertificatesDomain, domains ≠ [] →
      checkRenewals env domains = renewLoop env (currentStateOf domains) []) := by
  refine ⟨?_, ?_, ?_⟩
  · intro hok
    simpa using renewLoop_ok env visited [] hok
  · intro pre e post err hv hpre hdue herr
    subst hv
    simpa using renewLoop_error env pre post e err [] hpre hdue herr
  · intro domains hne
    unfold checkRenewals
    have : ¬ domains.length = 0 := fun h => hne (List.length_eq_zero.mp h)
    simp [this]

/-- C8, as stated, fails at `twoCanonicals` when the DNS lookup of
`blog.example` fails: the refresh returns the error and no renewed domain,
and `api.example`, whose certificate can be obtained, is not processed;
visited the other way round, `api.example` is obtained before the error. -/
theorem C8_counterexample :
    currentStateOf twoCanonicals =
      [("blog.example", ⟨"blog.example", ["www.blog.example"], "ops@example.com"⟩),
       ("api.example", ⟨"api.example", [], "ops@example.com"⟩)] ∧
    obtainCertificate certsBlogUnresolved ⟨"api.example", [], "ops@example.com"⟩ =
      .ok ⟨"api.example", [], "ops@example.com"⟩ ∧
    checkRenewals certsBlogUnresolved twoCanonicals =
      ([], some "domain validation failed for blog.example: no such host") ∧
    renewLoop certsBlogUnresolved (currentStateOf twoCanonicals).reverse [] =
      ([⟨"api.example", [], "ops@example.com"⟩],
        some "domain validation failed for blog.example: no such host") := by
  decide

/-- C8, amended, at `twoCanonicals`: the failure for `blog.example` ends the
loop before `api.example`. -/
theorem C8_obtain_failure_stops_refresh_witness :
    renewalDue certsBlogUnresolved ⟨"blog.example", ["www.blog.example"], "ops@example.com"⟩
      = some true ∧
    obtainCertificate certsBlogUnresolved
        ⟨"blog.example", ["www.blog.example"], "ops@example.com"⟩ =
      .error "domain validation failed for blog.example: no such host" ∧
    renewLoop certsBlogUnresolved (currentStateOf twoCanonicals) [] =
      ([], some "domain validation failed for blog.example: no such host") :=
  ⟨by decide, by decide,
    (C8_obtain_failure_stops_refresh certsBlogUnresolved (currentStateOf twoCanonicals)).2.1
      [] ("blog.example", ⟨"blog.example", ["www.blog.example"], "ops@example.com"⟩)
      [("api.example", ⟨"api.example", [], "ops@example.com"⟩)]
      "domain validation failed for blog.example: no such host"
      (by decide) (by simp) (by decide) (by decide)⟩

theorem aclHosts_append (l₁ l₂ : List ConfigLine) :
    aclHosts (l₁ ++ l₂) = aclHosts l₁ ++ aclHosts l₂ := by
  simp [aclHosts]

theorem aclHosts_aliasLines (appName canonical : String) (aliases : List String) :
    aclHosts (aliases.flatMap (aliasLines appName canonical)) =
      aliases.filter (fun a => decide (a ≠ "")) := by
  induction aliases with
  | nil => rfl
  | cons a rest ih =>
    rw [List.flatMap_cons, aclHosts_append, ih]
    by_cases ha : a = ""
    · simp [aliasLines, ha, aclHosts]
    · simp [aliasLines, ha, aclHosts, List.filter_cons]

theorem aclHosts_domainHTTPSLines (appName : String) (domain : Domain) :
    aclHosts (domainHTTPSLines appName domain) = domain.hosts := by
  unfold domainHTTPSLines Domain.hosts
  by_cases hc : domain.Canonical = ""
  · simp [hc, aclHosts]
  · simp only [ne_eq, hc, not_false_eq_true, if_true]
    have := aclHosts_aliasLines appName domain.Canonical domain.Aliases
    simp only [aclHosts] at this ⊢
    rw [List.filterMap_cons]
    simp only
    rw [this]

theorem aclHosts_domainHTTPLines (appName : String) (domain : Domain) :
    aclHosts (domainHTTPLines appName domain) = domain.hosts := by
  unfold domainHTTPLines Domain.hosts
  by_cases hc : domain.Canonical = ""
  · simp [hc, aclHosts]
  · simp only [ne_eq, hc, not_false_eq_true, if_true]
    have := aclHosts_aliasLines appName domain.Canonical domain.Aliases
    simp only [aclHosts] at this ⊢
    rw [List.filterMap_cons]
    simp only
    rw [List.filterMap_cons]
    simp only
    rw [this]

theorem aclHosts_flatMap_domains (appName : String) (domains : List Domain)
    (f : String → Domain → List ConfigLine)
    (hf : ∀ d, aclHosts (f appName d) = d.hosts) :
    aclHosts (domains.flatMap (f appName)) = domains.flatMap Domain.hosts := by
  induction domains with
  | nil => rfl
  | cons d rest ih => rw [List.flatMap_cons, aclHosts_append, ih, hf, List.flatMap_cons]

theorem aclHosts_deploymentHTTPSLines (entry : String × Deployment) :
    aclHosts (deploymentHTTPSLines entry) = entry.2.Labels.Domains.flatMap Domain.hosts := by
  unfold deploymentHTTPSLines
  by_cases h : entry.2.Labels.Domains.length = 0
  · have : entry.2.Labels.Domains = [] := List.length_eq_zero.mp h
    simp [this, aclHosts]
  · simp only [h, if_false]
    exact aclHosts_flatMap_domains entry.1 _ domainHTTPSLines
      (aclHosts_domainHTTPSLines entry.1)

theorem aclHosts_deploymentHTTPLines (entry : String × Deployment) :
    aclHosts (deploymentHTTPLines entry) = entry.2.Labels.Domains.flatMap Domain.hosts := by
  unfold deploymentHTTPLines
  by_cases h : entry.2.Labels.Domains.length = 0
  · have : entry.2.Labels.Domains = [] := List.length_eq_zero.mp h
    simp [this, aclHosts]
  · simp only [h, if_false]
    exact aclHosts_flatMap_domains entry.1 _ domainHTTPLines
      (aclHosts_domainHTTPLines entry.1)

theorem aclHosts_flatMap_deployments (deployments : GoMap String Deployment)
    (f : String × Deployment → List ConfigLine)
    (hf : ∀ e, aclHosts (f e) = e.2.Labels.Domains.flatMap Domain.hosts) :
    aclHosts (deployments.flatMap f) =
      deployments.flatMap (fun e => e.2.Labels.Domains.flatMap Domain.hosts) := by
  induction deployments with
  | nil => rfl
  | cons e rest ih => rw [List.flatMap_cons, aclHosts_append, ih, hf, List.flatMap_cons]

theorem aclHosts_httpsFrontendLines (cfg : Option HaloydConfig)
    (deployments : GoMap String Deployment) :
    aclHosts (httpsFrontendLines cfg deployments) = configuredHosts cfg deployments := by
  unfold httpsFrontendLines configuredHosts
  rw [aclHosts_append, aclHosts_flatMap_deployments _ _ aclHosts_deploymentHTTPSLines]
  congr 1
  unfold apiHTTPSLines
  cases cfg with
  | none => rfl
  | some c =>
    by_cases h : c.APIDomain = ""
    · simp [h, aclHosts]
    · simp [h, aclHosts]

theorem aclHosts_httpFrontendLines (cfg : Option HaloydConfig)
    (deployments : GoMap String Deployment) :
    aclHosts (httpFrontendLines cfg deployments) = configuredHosts cfg deployments := by
  unfold httpFrontendLines configuredHosts
  rw [aclHosts_append, aclHosts_flatMap_deployments _ _ aclHosts_deploymentHTTPLines]
  congr 1
  unfold apiHTTPLines
  cases cfg with
  | none => rfl
  | some c =>
    by_cases h : c.APIDomain = ""
    · simp [h, aclHosts]
    · simp [h, aclHosts]

theorem mem_deploymentLines (deployments : GoMap String Deployment)
    (f : String × Deployment → List ConfigLine) (pre : List ConfigLine)
    (entry : String × Deployment) (hmem : entry ∈ deployments) (line : ConfigLine)
    (hline : line ∈ f entry) : line ∈ pre ++ deployments.flatMap f :=
  List.mem_append_right _ (List.mem_flatMap.mpr ⟨entry, hmem, hline⟩)

theorem mem_aliasLines (appName canonical a : String) (aliases : List String)
    (ha : a ∈ aliases) (hne : a ≠ "") :
    ConfigLine.acl (aliasACLName appName a) a ∈ aliases.flatMap (aliasLines appName canonical) ∧
    ConfigLine.redirect canonical (aliasACLName appName a) ∈
      aliases.flatMap (aliasLines appName canonical) := by
  constructor <;>
  · refine List.mem_flatMap.mpr ⟨a, ha, ?_⟩
    simp [aliasLines, hne]

theorem lastTwo_append (x s : String) (h : 2 ≤ s.data.length) :
    lastTwo (x ++ s) = lastTwo s := by
  unfold lastTwo
  rw [String.data_append, List.reverse_append, List.take_append_of_le_length]
  simpa using h

theorem lastTwo_canonical (appName domain : String) :
    lastTwo (generateACLName appName domain "canonical") = ['l', 'a'] := by
  unfold generateACLName
  rw [lastTwo_append _ _ (by decide)]
  decide

theorem lastTwo_acl (appName domain : String) :
    lastTwo (generateACLName appName domain "acl") = ['l', 'c'] := by
  unfold generateACLName
  rw [lastTwo_append _ _ (by decide)]
  decide

theorem lastTwo_alias (appName aliasHost : String) :
    lastTwo (aliasACLName appName aliasHost) = ['s', 'a'] := by
  unfold aliasACLName
  rw [lastTwo_append _ _ (by decide)]
  decide

theorem lastTwo_of_mem_canonicalACLs (appName : String) (domains : List Domain) (name : String)
    (h : name ∈ canonicalACLs appName domains) : lastTwo name = ['l', 'a'] := by
  simp only [canonicalACLs, List.mem_map] at h
  obtain ⟨d, _, rfl⟩ := h
  exact lastTwo_canonical _ _

theorem mem_canonicalACLs (appName : String) (domains : List Domain) (domain : Domain)
    (hd : domain ∈ domains) (hc : domain.Canonical ≠ "") :
    generateACLName appName domain.Canonical "canonical" ∈ canonicalACLs appName domains := by
  simp only [canonicalACLs, List.mem_map, List.mem_filter]
  exact ⟨domain, ⟨hd, by simpa using hc⟩, rfl⟩

theorem deploymentUseBackendLines_eq (app : String) (d : Deployment) (domain : Domain)
    (hd : domain ∈ d.Labels.Domains) (hc : domain.Canonical ≠ "") :
    deploymentUseBackendLines (app, d) =
      [.useBackend app (canonicalACLs app d.Labels.Domains)] := by
  unfold deploymentUseBackendLines
  have h1 : ¬ d.Labels.Domains.length = 0 := by
    intro h
    rw [List.length_eq_zero.mp h] at hd
    simp at hd
  have h2 : (canonicalACLs app d.Labels.Domains).length > 0 :=
    List.length_pos_of_mem (mem_canonicalACLs app _ domain hd hc)
  simp [h1, h2]

theorem count_useBackend_of_key_ne (l : GoMap String Deployment) (app : String)
    (acls : List String) (h : app ∉ mapKeys l) :
    (l.flatMap deploymentUseBackendLines).count (.useBackend app acls) = 0 := by
  rw [List.count_eq_zero]
  intro hmem
  obtain ⟨e, he, hline⟩ := List.mem_flatMap.mp hmem
  apply h
  unfold deploymentUseBackendLines at hline
  split at hline
  · simp at hline
  · split at hline
    · simp only [List.mem_singleton, ConfigLine.useBackend.injEq] at hline
      exact List.mem_map.mpr ⟨e, he, hline.1.symm⟩
    · simp at hline

theorem count_useBackend_deployments (l : GoMap String Deployment) (hwf : mapWF l)
    (app : String) (d : Deployment) (hmem : (app, d) ∈ l) (domain : Domain)
    (hd : domain ∈ d.Labels.Domains) (hc : domain.Canonical ≠ "") :
    (l.flatMap deploymentUseBackendLines).count
      (.useBackend app (canonicalACLs app d.Labels.Domains)) = 1 := by
  induction l with
  | nil => simp at hmem
  | cons e rest ih =>
    simp only [mapWF, mapKeys, List.map_cons, List.nodup_cons] at hwf
    rw [List.flatMap_cons, List.count_append]
    rcases List.mem_cons.mp hmem with heq | hrest
    · subst heq
      rw [deploymentUseBackendLines_eq app d domain hd hc,
        count_useBackend_of_key_ne rest app _ hwf.1]
      simp
    · have hne : e.1 ≠ app := by
        intro h
        apply hwf.1
        rw [h]
        exact List.mem_map.mpr ⟨(app, d), hrest, rfl⟩
      have h0 : (deploymentUseBackendLines e).count
          (.useBackend app (canonicalACLs app d.Labels.Domains)) = 0 := by
        rw [List.count_eq_zero]
        intro hline
        unfold deploymentUseBackendLines at hline
        split at hline
        · simp at hline
        · split at hline
          · simp only [List.mem_singleton, ConfigLine.useBackend.injEq] at hline
            exact hne hline.1.symm
          · simp at hline
      rw [h0, ih hwf.2 hrest]

theorem count_useBackend_api (cfg : Option HaloydConfig) (app : String) (domains : List Domain)
    (domain : Domain) (hd : domain ∈ domains) (hc : domain.Canonical ≠ "") :
    (apiUseBackendLines cfg).count (.useBackend app (canonicalACLs app domains)) = 0 := by
  rw [List.count_eq_zero]
  intro hmem
  unfold apiUseBackendLines at hmem
  cases cfg with
  | none => simp at hmem
  | some c =>
    simp only at hmem
    split at hmem
    · simp only [List.mem_singleton, ConfigLine.useBackend.injEq] at hmem
      have hin := mem_canonicalACLs app domains domain hd hc
      rw [hmem.2, List.mem_singleton] at hin
      have h1 := lastTwo_canonical app domain.Canonical
      rw [hin, lastTwo_acl] at h1
      exact absurd h1 (by decide)
    · simp at hmem

theorem useBackend_acls_not_alias (cfg : Option HaloydConfig)
    (deployments : GoMap String Deployment) (name : String) (acls : List String)
    (hline : ConfigLine.useBackend name acls ∈ useBackendLines cfg deployments)
    (app' aliasHost : String) : aliasACLName app' aliasHost ∉ acls := by
  intro hin
  have hal := lastTwo_alias app' aliasHost
  unfold useBackendLines at hline
  rcases List.mem_append.mp hline with hapi | hdep
  · unfold apiUseBackendLines at hapi
    cases cfg with
    | none => simp at hapi
    | some c =>
      simp only at hapi
      split at hapi
      · simp only [List.mem_singleton, ConfigLine.useBackend.injEq] at hapi
        rw [hapi.2, List.mem_singleton] at hin
        rw [hin, lastTwo_acl] at hal
        exact absurd hal (by decide)
      · simp at hapi
  · obtain ⟨e, _, he⟩ := List.mem_flatMap.mp hdep
    unfold deploymentUseBackendLines at he
    split at he
    · simp at he
    · split at he
      · simp only [List.mem_singleton, ConfigLine.useBackend.injEq] at he
        rw [he.2] at hin
        rw [lastTwo_of_mem_canonicalACLs _ _ _ hin] at hal
        exact absurd hal (by decide)
      · simp at he

theorem foldl_append_eq_join (l : List String) (init : String) :
    l.foldl (fun r s => r ++ s) init = init ++ String.join l := by
  induction l generalizing init with
  | nil => simp [String.join]
  | cons a rest ih =>
    rw [List.foldl_cons, ih]
    have hj : String.join (a :: rest) = a ++ String.join rest := by
      show List.foldl (fun r s => r ++ s) "" (a :: rest) = a ++ String.join rest
      rw [List.foldl_cons, ih ("" ++ a)]
      simp
    rw [hj, String.append_assoc]

theorem join_append (a b : List String) :
    String.join (a ++ b) = String.join a ++ String.join b := by
  unfold String.join
  rw [List.foldl_append, foldl_append_eq_join b]
  rfl

theorem renderLines_append (a b : List ConfigLine) :
    renderLines (a ++ b) = renderLines a ++ renderLines b := by
  unfold renderLines
  rw [List.map_append, join_append]

theorem renderLines_cons (l : ConfigLine) (ls : List ConfigLine) :
    renderLines (l :: ls) = l.render ++ renderLines ls := by
  unfold renderLines
  rw [List.map_cons]
  show List.foldl (fun r s => r ++ s) "" (l.render :: ls.map ConfigLine.render) = _
  rw [List.foldl_cons, foldl_append_eq_join]
  simp

theorem renderLines_of_mem (ls : List ConfigLine) (l : ConfigLine) (h : l ∈ ls) :
    ∃ pre post, renderLines ls = pre ++ l.render ++ post := by
  obtain ⟨s, t, rfl⟩ := List.append_of_mem h
  exact ⟨renderLines s, renderLines t, by
    rw [renderLines_append, renderLines_cons, String.append_assoc]⟩

theorem mem_domainLines_alias (appName : String) (domain : Domain) (hc : domain.Canonical ≠ "")
    (a : String) (ha : a ∈ domain.Aliases) (hne : a ≠ "") :
    (ConfigLine.acl (aliasACLName appName a) a ∈ domainHTTPSLines appName domain ∧
      ConfigLine.redirect domain.Canonical (aliasACLName appName a) ∈
        domainHTTPSLines appName domain) ∧
    (ConfigLine.acl (aliasACLName appName a) a ∈ domainHTTPLines appName domain ∧
      ConfigLine.redirect domain.Canonical (aliasACLName appName a) ∈
        domainHTTPLines appName domain) := by
  have h := mem_aliasLines appName domain.Canonical a domain.Aliases ha hne
  unfold domainHTTPSLines domainHTTPLines
  simp only [ne_eq, hc, not_false_eq_true, if_true]
  exact ⟨⟨List.mem_cons_of_mem _ h.1, List.mem_cons_of_mem _ h.2⟩,
    ⟨List.mem_cons_of_mem _ (List.mem_cons_of_mem _ h.1),
      List.mem_cons_of_mem _ (List.mem_cons_of_mem _ h.2)⟩⟩

theorem mem_frontends_of_mem_domain (cfg : Option HaloydConfig)
    (deployments : GoMap String Deployment) (app : String) (d : Deployment)
    (hmem : (app, d) ∈ deployments) (domain : Domain) (hd : domain ∈ d.Labels.Domains)
    (line : ConfigLine) :
    (line ∈ domainHTTPSLines app domain → line ∈ httpsFrontendLines cfg deployments) ∧
    (line ∈ domainHTTPLines app domain → line ∈ httpFrontendLines cfg deployments) := by
  have hne : ¬ d.Labels.Domains.length = 0 := by
    intro h
    rw [List.length_eq_zero.mp h] at hd
    simp at hd
  constructor
  · intro hl
    refine mem_deploymentLines deployments deploymentHTTPSLines _ (app, d) hmem line ?_
    unfold deploymentHTTPSLines
    simp only [hne, if_false]
    exact List.mem_flatMap.mpr ⟨domain, hd, hl⟩
  · intro hl
    refine mem_deploymentLines deployments deploymentHTTPLines _ (app, d) hmem line ?_
    unfold deploymentHTTPLines
    simp only [hne, if_false]
    exact List.mem_flatMap.mpr ⟨domain, hd, hl⟩

/-- C5, amended. In each of the HTTP and the HTTPS frontend the hosts of the ACL
lines are exactly the configured hosts (the canonical names that are not empty
and the non-empty aliases under them, with the API domain), as often and in
the order they are configured, so a host configured once has exactly one ACL
in each frontend. For a deployment `d` of `app` in the map and a domain of `d`
with a non-empty canonical name, the canonical ACL is in both frontends and
its name is in the condition of the `use_backend` line of `app`, and every
non-empty alias of the domain has its ACL and the 301 redirect to the
canonical name on that ACL in both frontends. -/
theorem C5_acl_per_configured_host (cfg : Option HaloydConfig)
    (deployments : GoMap String Deployment)
    (app : String) (d : Deployment) (hmem : (app, d) ∈ deployments)
    (domain : Domain) (hd : domain ∈ d.Labels.Domains) (hc : domain.Canonical ≠ "") :
    (aclHosts (httpsFrontendLines cfg deployments) = configuredHosts cfg deployments ∧
      aclHosts (httpFrontendLines cfg deployments) = configuredHosts cfg deployments ∧
      ∀ host, (configuredHosts cfg deployments).count host = 1 →
        (aclHosts (httpsFrontendLines cfg deployments)).count host = 1 ∧
        (aclHosts (httpFrontendLines cfg deployments)).count host = 1) ∧
    (ConfigLine.acl (generateACLName app domain.Canonical "canonical") domain.Canonical ∈
        httpsFrontendLines cfg deployments ∧
      ConfigLine.acl (generateACLName app domain.Canonical "canonical") domain.Canonical ∈
        httpFrontendLines cfg deployments ∧
      ConfigLine.useBackend app (canonicalACLs app d.Labels.Domains) ∈
        useBackendLines cfg deployments ∧
      generateACLName app domain.Canonical "canonical" ∈ canonicalACLs app d.Labels.Domains) ∧
    (∀ a ∈ domain.Aliases, a ≠ "" →
      (ConfigLine.acl (aliasACLName app a) a ∈ httpsFrontendLines cfg deployments ∧
        ConfigLine.redirect domain.Canonical (aliasACLName app a) ∈
          httpsFrontendLines cfg deployments) ∧
      (ConfigLine.acl (aliasACLName app a) a ∈ httpFrontendLines cfg deployments ∧
        ConfigLine.redirect domain.Canonical (aliasACLName app a) ∈
          httpFrontendLines cfg deployments)) := by
  have hfront := mem_frontends_of_mem_domain cfg deployments app d hmem domain hd
  refine ⟨⟨aclHosts_httpsFrontendLines cfg deployments,
    aclHosts_httpFrontendLines cfg deployments, ?_⟩, ⟨?_, ?_, ?_, ?_⟩, ?_⟩
  · intro host hone
    rw [aclHosts_httpsFrontendLines, aclHosts_httpFrontendLines]
    exact ⟨hone, hone⟩
  · apply (hfront _).1
    unfold domainHTTPSLines
    simp [hc]
  · apply (hfront _).2
    unfold domainHTTPLines
    simp [hc]
  · unfold useBackendLines
    refine mem_deploymentLines deployments deploymentUseBackendLines _ (app, d) hmem _ ?_
    rw [deploymentUseBackendLines_eq app d domain hd hc]
    exact List.mem_singleton.mpr rfl
  · exact mem_canonicalACLs app _ domain hd hc
  · intro a ha hne
    have hdom := mem_domainLines_alias app domain hc a ha hne
    exact ⟨⟨(hfront _).1 hdom.1.1, (hfront _).1 hdom.1.2⟩,
      ⟨(hfront _).2 hdom.2.1, (hfront _).2 hdom.2.2⟩⟩

/-- C5, as stated, fails. At `sharedAliasDeployments`, whose labels pass
`Validate`, the alias `www.blog.example` stands under two canonical names and
has two ACLs in the HTTPS frontend (and two in the HTTP frontend); at
`emptyCanonicalDeployments` the alias `old.example` of the domain with an
empty canonical name has no ACL at all. -/
theorem C5_counterexample :
    ({ blogLabels "01" with
        Domains := [⟨"blog.example", ["www.blog.example"]⟩,
                    ⟨"blog.test", ["www.blog.example"]⟩] } : ContainerLabels).Validate
      = .ok () ∧
    (aclHosts (httpsFrontendLines none sharedAliasDeployments)).count "www.blog.example" = 2 ∧
    (aclHosts (httpFrontendLines none sharedAliasDeployments)).count "www.blog.example" = 2 ∧
    (aclHosts (httpsFrontendLines none emptyCanonicalDeployments)).count "old.example" = 0 ∧
    (aclHosts (httpFrontendLines none emptyCanonicalDeployments)).count "old.example" = 0 := by
  decide

/-- C5, amended, at the registry `twoApps`: the alias `www-api.example` of
`api` has its ACL and its redirect in the HTTPS frontend. -/
theorem C5_acl_per_configured_host_witness :
    aclHosts (httpsFrontendLines none twoApps) =
      ["blog.example", "www.blog.example", "m.blog.example", "api.example",
       "www-api.example"] ∧
    ConfigLine.acl "api_www-api_example_alias" "www-api.example" ∈
      httpsFrontendLines none twoApps ∧
    ConfigLine.redirect "api.example" "api_www-api_example_alias" ∈
      httpsFrontendLines none twoApps :=
  have h := C5_acl_per_configured_host none twoApps "api"
    ⟨apiLabels "01", [instanceAt "c2" "10.0.0.2"]⟩ (by decide)
    ⟨"api.example", ["www-api.example"]⟩ (by decide) (by decide)
  ⟨h.1.1.trans (by decide), (h.2.2 "www-api.example" (by decide) (by decide)).1.1,
    (h.2.2 "www-api.example" (by decide) (by decide)).1.2⟩

theorem perm_of_length_le_one {α : Type} (l o o' : List α) (hlen : l.length ≤ 1)
    (h : o.Perm l) (h' : o'.Perm l) : o = o' := by
  match l, hlen with
  | [], _ => rw [List.Perm.eq_nil h, List.Perm.eq_nil h']
  | [a], _ => rw [List.perm_singleton.mp h, List.perm_singleton.mp h']

/-- C4, amended. The text `generateConfig` returns is determined by the daemon
configuration, the deployments map and the orders in which its two `range`
loops visit the map. For a map with at most one application any two calls
return the same text; for any map, whatever the visiting orders, each of the
four slots is made of the same lines, up to their order. -/
theorem C4_config_determined_up_to_visiting_order
    (template : HAProxyTemplateData → Except String String) (cfg : Option HaloydConfig)
    (deployments first second first' second' : GoMap String Deployment)
    (h1 : first.Perm deployments) (h2 : second.Perm deployments)
    (h1' : first'.Perm deployments) (h2' : second'.Perm deployments) :
    (deployments.length ≤ 1 →
      generateConfig template cfg first second = generateConfig template cfg first' second') ∧
    (httpFrontendLines cfg first).Perm (httpFrontendLines cfg first') ∧
    (httpsFrontendLines cfg first).Perm (httpsFrontendLines cfg first') ∧
    (useBackendLines cfg first).Perm (useBackendLines cfg first') ∧
    (backendLines cfg second).Perm (backendLines cfg second') := by
  have hp1 : first.Perm first' := h1.trans h1'.symm
  have hp2 : second.Perm second' := h2.trans h2'.symm
  refine ⟨?_, ?_, ?_, ?_, ?_⟩
  · intro hlen
    rw [perm_of_length_le_one deployments first first' hlen h1 h1',
      perm_of_length_le_one deployments second second' hlen h2 h2']
  · exact List.Perm.append_left _ (List.Perm.flatMap_right _ hp1)
  · exact List.Perm.append_left _ (List.Perm.flatMap_right _ hp1)
  · exact List.Perm.append_left _ (List.Perm.flatMap_right _ hp1)
  · exact List.Perm.append_left _ (List.Perm.flatMap_right _ hp2)

/-- C4, as stated, fails at the registry `twoApps`: when one call visits `blog`
before `api` and another call visits `api` before `blog`, the two calls fill
the template with different data, and the texts differ for the template that
writes the four slots one after the other. -/
theorem C4_counterexample :
    mapWF twoApps ∧ twoApps.reverse.Perm twoApps ∧
    generateTemplateData none twoApps twoApps ≠
      generateTemplateData none twoApps.reverse twoApps.reverse ∧
    generateConfig slotsTemplate none twoApps twoApps ≠
      generateConfig slotsTemplate none twoApps.reverse twoApps.reverse :=
  ⟨by decide, List.reverse_perm _, by decide, by decide⟩

/-- C4, amended, at the one-app registry `sharedAliasDeployments` and at the
two visiting orders of `twoApps`. -/
theorem C4_config_determined_up_to_visiting_order_witness :
    generateConfig slotsTemplate none sharedAliasDeployments sharedAliasDeployments =
      generateConfig slotsTemplate none sharedAliasDeployments.reverse
        sharedAliasDeployments.reverse ∧
    (httpsFrontendLines none twoApps).Perm (httpsFrontendLines none twoApps.reverse) :=
  ⟨(C4_config_determined_up_to_visiting_order slotsTemplate none sharedAliasDeployments
      sharedAliasDeployments sharedAliasDeployments sharedAliasDeployments.reverse
      sharedAliasDeployments.reverse (List.Perm.refl _) (List.Perm.refl _)
      (List.reverse_perm _) (List.reverse_perm _)).1 (by decide),
    (C4_config_determined_up_to_visiting_order slotsTemplate none twoApps
      twoApps twoApps twoApps.reverse twoApps.reverse (List.Perm.refl _) (List.Perm.refl _)
      (List.reverse_perm _) (List.reverse_perm _)).2.2.1⟩

theorem signalFold_spec (l : List ContainerEvent) (cur : ContainerEvent) (b : Bool) :
    (∀ e ∈ cur :: l, e.Labels.DeploymentID ≤ (l.foldl signalStep (cur, b)).1.Labels.DeploymentID) ∧
    (cur :: l).find? (fun e => decide (e.Labels.DeploymentID =
        (l.foldl signalStep (cur, b)).1.Labels.DeploymentID)) =
      some (l.foldl signalStep (cur, b)).1 ∧
    ((l.foldl signalStep (cur, b)).2 = true ↔ (b = true ∨ ∃ e ∈ l, e.Action = ActionStart)) := by
  induction l generalizing cur b with
  | nil => simp
  | cons x t ih =>
    rw [List.foldl_cons]
    obtain ⟨hmax, hfind, hflag⟩ := ih (signalStep (cur, b) x).1 (signalStep (cur, b) x).2
    have hpair : signalStep (cur, b) x = ((signalStep (cur, b) x).1, (signalStep (cur, b) x).2) :=
      rfl
    rw [← hpair] at hmax hfind hflag
    generalize hr : List.foldl signalStep (signalStep (cur, b) x) t = r at hmax hfind hflag ⊢
    have hcur' := hmax (signalStep (cur, b) x).1 (List.mem_cons_self _ _)
    refine ⟨?_, ?_, ?_⟩
    · intro e he
      rcases List.mem_cons.mp he with h | h
      · subst h
        by_cases hlt : strLess e.Labels.DeploymentID x.Labels.DeploymentID = true
        · have h1 : (signalStep (e, b) x).1 = x := by simp [signalStep, hlt]
          rw [h1] at hcur'
          exact le_trans (le_of_lt ((strLess_iff _ _).mp hlt)) hcur'
        · have h1 : (signalStep (e, b) x).1 = e := by simp [signalStep, hlt]
          rw [h1] at hcur'
          exact hcur'
      · rcases List.mem_cons.mp h with h' | h'
        · subst h'
          by_cases hlt : strLess cur.Labels.DeploymentID e.Labels.DeploymentID = true
          · have h1 : (signalStep (cur, b) e).1 = e := by simp [signalStep, hlt]
            rw [h1] at hcur'
            exact hcur'
          · have h1 : (signalStep (cur, b) e).1 = cur := by simp [signalStep, hlt]
            rw [h1] at hcur'
            have hle : e.Labels.DeploymentID ≤ cur.Labels.DeploymentID :=
              (not_strLess_iff _ _).mp (by simpa using hlt)
            exact le_trans hle hcur'
        · exact hmax e (List.mem_cons_of_mem _ h')
    · by_cases hlt : strLess cur.Labels.DeploymentID x.Labels.DeploymentID = true
      · have h1 : (signalStep (cur, b) x).1 = x := by simp [signalStep, hlt]
        rw [h1] at hfind hcur'
        have hne : ¬ cur.Labels.DeploymentID = r.1.Labels.DeploymentID := by
          intro h
          have hlt' := (strLess_iff _ _).mp hlt
          rw [h] at hlt'
          exact absurd hlt' (not_lt.mpr hcur')
        rw [List.find?_cons]
        simp only [hne, decide_False]
        exact hfind
      · have h1 : (signalStep (cur, b) x).1 = cur := by simp [signalStep, hlt]
        rw [h1] at hfind hcur'
        have hle : x.Labels.DeploymentID ≤ cur.Labels.DeploymentID :=
          (not_strLess_iff _ _).mp (by simpa using hlt)
        by_cases hc : cur.Labels.DeploymentID = r.1.Labels.DeploymentID
        · rw [List.find?_cons] at hfind ⊢
          simp only [hc, decide_True] at hfind ⊢
          exact hfind
        · rw [List.find?_cons] at hfind ⊢
          simp only [hc, decide_False] at hfind ⊢
          have hx : ¬ x.Labels.DeploymentID = r.1.Labels.DeploymentID := by
            intro h
            rw [h] at hle
            exact hc (le_antisymm hcur' hle)
          rw [List.find?_cons]
          simp only [hx, decide_False]
          exact hfind
    · rw [hflag]
      by_cases hs : x.Action = ActionStart
      · simp [signalStep, hs]
      · simp [signalStep, hs]

/-- C11. When `signalDone` fires for an app whose buffer is a non-empty list of
events, it sends one summary on the output: its deployment id is the greatest
one in the buffer, its domains and action are those of the first buffered
event with that id, the flag `CapturedStartEvent` is true iff some buffered
event has the action `start`, and afterwards the app has no buffer and no
timer entry. With no buffer or an empty one nothing is sent and nothing
changes. -/
theorem C11_debouncer_summary (d : AppDebouncer) (appName : String) :
    (∀ events, mapGet d.capturedEvents appName = some events → events ≠ [] →
      ∃ summary latest,
        (signalDone d appName).output = d.output ++ [summary] ∧
        summary.AppName = appName ∧
        (∀ e ∈ events, e.Labels.DeploymentID ≤ summary.DeploymentID) ∧
        events.find? (fun e => decide (e.Labels.DeploymentID = summary.DeploymentID)) =
          some latest ∧
        summary.Domains = latest.Labels.Domains ∧
        summary.EventAction = latest.Action ∧
        (summary.CapturedStartEvent = true ↔ ∃ e ∈ events, e.Action = "start") ∧
        mapGet (signalDone d appName).capturedEvents appName = none ∧
        mapGet (signalDone d appName).timers appName = none) ∧
    ((mapGet d.capturedEvents appName = none ∨ mapGet d.capturedEvents appName = some []) →
      signalDone d appName = d) := by
  constructor
  · intro events hget hne
    cases events with
    | nil => exact absurd rfl hne
    | cons first rest =>
      obtain ⟨hmax, hfind, hflag⟩ := signalFold_spec (first :: rest) first false
      have hdel : ∀ {α : Type} (m : GoMap String α), mapGet (mapDelete m appName) appName = none := by
        intro α m
        rw [mapGet_eq_none_iff]
        simp [mapKeys, mapDelete]
      refine ⟨{ AppName := appName
                DeploymentID :=
                  ((first :: rest).foldl signalStep (first, false)).1.Labels.DeploymentID
                Domains := ((first :: rest).foldl signalStep (first, false)).1.Labels.Domains
                EventAction := ((first :: rest).foldl signalStep (first, false)).1.Action
                CapturedStartEvent := ((first :: rest).foldl signalStep (first, false)).2 },
        ((first :: rest).foldl signalStep (first, false)).1, ?_, rfl, ?_, ?_, rfl, rfl,
        ?_, ?_, ?_⟩
      · simp only [signalDone, hget, Option.getD_some]
      · intro e he
        exact hmax e (List.mem_cons_of_mem _ he)
      · rw [List.find?_cons] at hfind
        by_cases hc : first.Labels.DeploymentID =
            ((first :: rest).foldl signalStep (first, false)).1.Labels.DeploymentID
        · simp only [hc, decide_True] at hfind
          rw [List.find?_cons]
          simp only [hc, decide_True]
          exact hfind
        · simp only [hc, decide_False] at hfind
          exact hfind
      · rw [hflag]
        simp [ActionStart]
      · simp only [signalDone, hget, Option.getD_some]
        exact hdel _
      · simp only [signalDone, hget, Option.getD_some]
        exact hdel _
  · rintro (h | h)
    · simp [signalDone, h]
    · simp [signalDone, h]

/-- C11 at the burst `blogBurst`: the summary carries deployment `03`, the
action `start` of the first event with that id, and the flag. -/
theorem C11_debouncer_summary_witness :
    mapGet blogBurst.capturedEvents "blog" =
      some [⟨"start", blogLabels "03"⟩, ⟨"stop", blogLabels "02"⟩, ⟨"die", blogLabels "03"⟩] ∧
    (signalDone blogBurst "blog").output =
      [⟨"blog", "03", (blogLabels "03").Domains, "start", true⟩] ∧
    ∃ summary latest, (signalDone blogBurst "blog").output = blogBurst.output ++ [summary] ∧
      [(⟨"start", blogLabels "03"⟩ : ContainerEvent), ⟨"stop", blogLabels "02"⟩,
        ⟨"die", blogLabels "03"⟩].find?
          (fun e => decide (e.Labels.DeploymentID = summary.DeploymentID)) = some latest ∧
      summary.EventAction = latest.Action :=
  ⟨by decide, by decide,
    match (C11_debouncer_summary blogBurst "blog").1 _ (by decide) (by decide) with
    | ⟨summary, latest, h1, _, _, h4, _, h6, _⟩ => ⟨summary, latest, h1, h4, h6⟩⟩

theorem statePriority_nonneg (s : String) (p : Int) (h : statePriority s = some p) : 0 ≤ p := by
  unfold statePriority at h
  repeat' split at h
  all_goals first | (cases h; decide) | cases h

theorem overallFold_none (states : List String) (acc : Int × String)
    (h : ∀ s ∈ states, statePriority s = none) : states.foldl overallStep acc = acc := by
  induction states generalizing acc with
  | nil => rfl
  | cons x t ih =>
    rw [List.foldl_cons]
    have hx : overallStep acc x = acc := by
      simp [overallStep, h x (List.mem_cons_self _ _)]
    rw [hx]
    exact ih acc (fun s hs => h s (List.mem_cons_of_mem _ hs))

/-- The loop of `determineOverallState` from a state `cur` of priority `p`
that was the first of its priority so far. -/
theorem overallFold_some (states : List String) (cur : String) (p : Int)
    (hcur : statePriority cur = some p) :
    ∃ q, statePriority (states.foldl overallStep (p, cur)).2 = some q ∧
      (states.foldl overallStep (p, cur)).1 = q ∧ p ≤ q ∧
      (∀ s ∈ states, ∀ r, statePriority s = some r → r ≤ q) ∧
      (cur :: states).find? (fun s => decide (statePriority s = some q)) =
        some (states.foldl overallStep (p, cur)).2 := by
  induction states generalizing cur p with
  | nil =>
    exact ⟨p, hcur, rfl, le_refl _, by simp, by simp [hcur]⟩
  | cons x t ih =>
    rw [List.foldl_cons]
    cases hx : statePriority x with
    | none =>
      have hstep : overallStep (p, cur) x = (p, cur) := by simp [overallStep, hx]
      rw [hstep]
      obtain ⟨q, h1, h2, h3, h4, h5⟩ := ih cur p hcur
      refine ⟨q, h1, h2, h3, ?_, ?_⟩
      · intro s hs r hr
        rcases List.mem_cons.mp hs with h | h
        · subst h; rw [hx] at hr; cases hr
        · exact h4 s h r hr
      · rw [List.find?_cons] at h5 ⊢
        by_cases hc : statePriority cur = some q
        · simp only [hc, decide_True] at h5 ⊢
          exact h5
        · simp only [hc, decide_False] at h5 ⊢
          rw [List.find?_cons]
          simp only [hx, decide_False]
          exact h5
    | some px =>
      by_cases hgt : px > p
      · have hstep : overallStep (p, cur) x = (px, x) := by simp [overallStep, hx, hgt]
        rw [hstep]
        obtain ⟨q, h1, h2, h3, h4, h5⟩ := ih x px hx
        refine ⟨q, h1, h2, le_trans (le_of_lt hgt) h3, ?_, ?_⟩
        · intro s hs r hr
          rcases List.mem_cons.mp hs with h | h
          · subst h; rw [hx] at hr; cases hr; exact h3
          · exact h4 s h r hr
        · rw [List.find?_cons]
          have hc : ¬ statePriority cur = some q := by
            rw [hcur]
            intro h
            cases h
            omega
          simp only [hc, decide_False]
          exact h5
      · have hstep : overallStep (p, cur) x = (p, cur) := by simp [overallStep, hx, hgt]
        rw [hstep]
        obtain ⟨q, h1, h2, h3, h4, h5⟩ := ih cur p hcur
        refine ⟨q, h1, h2, h3, ?_, ?_⟩
        · intro s hs r hr
          rcases List.mem_cons.mp hs with h | h
          · subst h; rw [hx] at hr; cases hr; omega
          · exact h4 s h r hr
        · rw [List.find?_cons] at h5 ⊢
          by_cases hc : statePriority cur = some q
          · simp only [hc, decide_True] at h5 ⊢
            exact h5
          · simp only [hc, decide_False] at h5 ⊢
            rw [List.find?_cons]
            have hxq : ¬ statePriority x = some q := by
              rw [hx]
              intro h
              injection h with h
              have hpq : p = q := by omega
              rw [hpq] at hcur
              exact hc hcur
            simp only [hxq, decide_False]
            exact h5

theorem overallFold_first (states : List String)
    (h : ∃ s ∈ states, statePriority s ≠ none) :
    ∃ q, statePriority (states.foldl overallStep (-1, "unknown")).2 = some q ∧
      (∀ s ∈ states, ∀ r, statePriority s = some r → r ≤ q) ∧
      states.find? (fun s => decide (statePriority s = some q)) =
        some (states.foldl overallStep (-1, "unknown")).2 := by
  induction states with
  | nil => simp at h
  | cons x t ih =>
    rw [List.foldl_cons]
    cases hx : statePriority x with
    | none =>
      have hstep : overallStep (-1, "unknown") x = (-1, "unknown") := by simp [overallStep, hx]
      rw [hstep]
      have ht : ∃ s ∈ t, statePriority s ≠ none := by
        obtain ⟨s, hs, hne⟩ := h
        rcases List.mem_cons.mp hs with h' | h'
        · subst h'; exact absurd hx hne
        · exact ⟨s, h', hne⟩
      obtain ⟨q, h1, h2, h3⟩ := ih ht
      refine ⟨q, h1, ?_, ?_⟩
      · intro s hs r hr
        rcases List.mem_cons.mp hs with h' | h'
        · subst h'; rw [hx] at hr; cases hr
        · exact h2 s h' r hr
      · rw [List.find?_cons]
        simp only [hx, decide_False]
        exact h3
    | some px =>
      have hnn := statePriority_nonneg x px hx
      have hstep : overallStep (-1, "unknown") x = (px, x) := by
        have : px > -1 := by omega
        simp [overallStep, hx, this]
      rw [hstep]
      obtain ⟨q, h1, _, h3, h4, h5⟩ := overallFold_some t x px hx
      refine ⟨q, h1, ?_, h5⟩
      intro s hs r hr
      rcases List.mem_cons.mp hs with h' | h'
      · subst h'; rw [hx] at hr; cases hr; exact h3
      · exact h4 s h' r hr

/-- C14. The priorities are restarting 4, paused 3, running 2, exited and
created 1, dead 0. For a list with a recognised state `determineOverallState`
returns the first state of the list whose priority is the highest one in the
list; for the empty list and for a list without a recognised state it returns
`unknown`. -/
theorem C14_status_priority (states : List String) :
    (statePriority "restarting" = some 4 ∧ statePriority "paused" = some 3 ∧
      statePriority "running" = some 2 ∧ statePriority "exited" = some 1 ∧
      statePriority "created" = some 1 ∧ statePriority "dead" = some 0 ∧
      ∀ s, s ∉ ["restarting", "paused", "running", "exited", "created", "dead"] →
        statePriority s = none) ∧
    ((∃ s ∈ states, statePriority s ≠ none) →
      ∃ q, statePriority (determineOverallState states) = some q ∧
        (∀ s ∈ states, ∀ r, statePriority s = some r → r ≤ q) ∧
        states.find? (fun s => decide (statePriority s = some q)) =
          some (determineOverallState states)) ∧
    ((∀ s ∈ states, statePriority s = none) → determineOverallState states = "unknown") := by
  refine ⟨⟨by decide, by decide, by decide, by decide, by decide, by decide, ?_⟩, ?_, ?_⟩
  · intro s hs
    simp only [List.mem_cons, List.mem_singleton, List.not_mem_nil, or_false, not_or] at hs
    simp [statePriority, hs]
  · intro h
    have hne : ¬ states.length = 0 := by
      obtain ⟨s, hs, _⟩ := h
      intro h0
      rw [List.length_eq_zero.mp h0] at hs
      simp at hs
    simp only [determineOverallState, hne, if_false]
    exact overallFold_first states h
  · intro h
    unfold determineOverallState
    split
    · rfl
    · rw [overallFold_none states _ h]

/-- C14 at a list in which `created` stands before `exited` and `dead`. -/
theorem C14_status_priority_witness :
    determineOverallState ["dead", "created", "exited", "bogus"] = "created" ∧
    ∃ q, statePriority (determineOverallState ["dead", "created", "exited", "bogus"]) = some q ∧
      ["dead", "created", "exited", "bogus"].find? (fun s => decide (statePriority s = some q)) =
        some (determineOverallState ["dead", "created", "exited", "bogus"]) :=
  ⟨by decide,
    match (C14_status_priority ["dead", "created", "exited", "bogus"]).2.1
      ⟨"dead", by decide, by decide⟩ with
    | ⟨q, h1, _, h3⟩ => ⟨q, h1, h3⟩⟩

theorem aliasACLName_eq (app aliasHost : String) :
    aliasACLName app aliasHost = generateACLName app aliasHost "alias" := by
  have h : ("_" : String) ++ "alias" = "_alias" := by decide
  unfold aliasACLName generateACLName sanitizeForACL
  rw [String.append_assoc _ "_" "alias", h]

/-- C18. For all strings, `generateACLName app domain role` is `app`, `_`, the
domain with every `.` replaced by `_` (no other character changes and no `.`
is left), `_` and `role`; app `blog` with canonical `blog.example` yields
`blog_blog_example_canonical`; and the name `generateConfig` builds inline for
an alias, which is the name on the ACL and the redirect line of the alias,
equals `generateACLName app aliasHost "alias"`. -/
theorem C18_acl_naming (app domain role : String) :
    generateACLName app domain role =
      app ++ "_" ++ String.mk (domain.data.map (fun c => if c = '.' then '_' else c)) ++
        "_" ++ role ∧
    ('.' ∉ (sanitizeForACL domain).data ∧
      (sanitizeForACL domain).data.length = domain.data.length ∧
      ∀ (i : Nat) (c : Char), domain.data[i]? = some c →
        (sanitizeForACL domain).data[i]? = some (if c = '.' then '_' else c)) ∧
    generateACLName "blog" "blog.example" "canonical" = "blog_blog_example_canonical" ∧
    (∀ aliasHost : String, aliasACLName app aliasHost = generateACLName app aliasHost "alias") ∧
    (∀ canonical aliasHost : String, aliasLines app canonical aliasHost =
      if aliasHost ≠ "" then
        [.acl (generateACLName app aliasHost "alias") aliasHost,
         .redirect canonical (generateACLName app aliasHost "alias")]
      else []) := by
  refine ⟨rfl, ⟨?_, ?_, ?_⟩, by decide, aliasACLName_eq app, ?_⟩
  rotate_right
  · intro canonical aliasHost
    unfold aliasLines
    rw [aliasACLName_eq]
  · simp only [sanitizeForACL, replaceDots, List.mem_map, not_exists, not_and]
    intro c _ h
    by_cases hc : c = '.'
    · simp [hc] at h
    · simp only [hc, if_false] at h
  · simp [sanitizeForACL, replaceDots]
  · intro i c h
    simp [sanitizeForACL, replaceDots, List.getElem?_map, h]

theorem serverLines_getElem? (insts : List DeploymentInstance) (k i : Nat) :
    (serverLines k insts)[i]? =
      (insts[i]?).map (fun inst => ConfigLine.server (k + i + 1) inst.IP inst.Port) := by
  induction insts generalizing k i with
  | nil => simp [serverLines]
  | cons x t ih =>
    cases i with
    | zero => simp [serverLines]
    | succ j =>
      simp only [serverLines, List.getElem?_cons_succ]
      rw [ih (k + 1) j]
      have : k + 1 + j + 1 = k + (j + 1) + 1 := by omega
      rw [this]

theorem serverLines_length (insts : List DeploymentInstance) (k : Nat) :
    (serverLines k insts).length = insts.length := by
  induction insts generalizing k with
  | nil => rfl
  | cons x t ih => simp [serverLines, ih]

theorem instancesEqual_self (a : List DeploymentInstance) : instancesEqual a a = true := by
  rw [instancesEqual_iff]
  exact ⟨rfl, fun _ h => h⟩

theorem mapWF_addInstance (m : GoMap String Deployment) (labels : ContainerLabels)
    (inst : DeploymentInstance) (hwf : mapWF m) : mapWF (addInstance m labels inst) := by
  unfold addInstance
  split
  · split
    · exact mapWF_mapSet _ _ _ hwf
    · split
      · exact mapWF_mapSet _ _ _ hwf
      · exact hwf
  · exact mapWF_mapSet _ _ _ hwf

theorem mapWF_foldl_addInstance (es : List (ContainerLabels × DeploymentInstance))
    (m : GoMap String Deployment) (hwf : mapWF m) :
    mapWF (es.foldl (fun m e => addInstance m e.1 e.2) m) := by
  induction es generalizing m with
  | nil => exact hwf
  | cons e rest ih => exact ih _ (mapWF_addInstance m e.1 e.2 hwf)

theorem mapWF_build (cli : DockerClient) (containers : List String) :
    mapWF (buildNewDeployments cli containers).1 := by
  unfold buildNewDeployments
  rw [buildNewDeployments_fold]
  exact mapWF_foldl_addInstance _ _ (by simp [mapWF, mapKeys])

theorem aliasFold_error (l : List String) (e : String) :
    l.foldl
      (fun acc a =>
        match acc with
        | .error e => .error e
        | .ok _ =>
          match IsValidDomain a with
          | .error e => .error ("alias '" ++ a ++ "': " ++ e)
          | .ok _ => .ok ())
      (Except.error e : Except String Unit) = .error e := by
  induction l with
  | nil => rfl
  | cons a rest ih => simpa using ih

theorem aliasFold_ok_iff (l : List String) :
    l.foldl
      (fun acc a =>
        match acc with
        | .error e => .error e
        | .ok _ =>
          match IsValidDomain a with
          | .error e => .error ("alias '" ++ a ++ "': " ++ e)
          | .ok _ => .ok ())
      (Except.ok () : Except String Unit) = .ok () ↔ ∀ a ∈ l, IsValidDomain a = .ok () := by
  induction l with
  | nil => simp
  | cons a rest ih =>
    simp only [List.foldl_cons, List.mem_cons, forall_eq_or_imp]
    cases h : IsValidDomain a with
    | error e =>
      simp only [aliasFold_error]
      simp
    | ok u =>
      simp only [ih]
      simp

theorem domainValidate_ok_iff (d : Domain) :
    d.Validate = .ok () ↔
      IsValidDomain d.Canonical = .ok () ∧ ∀ a ∈ d.Aliases, IsValidDomain a = .ok () := by
  unfold Domain.Validate
  cases h : IsValidDomain d.Canonical with
  | error e => simp
  | ok u =>
    simp only [true_and]
    exact aliasFold_ok_iff d.Aliases

theorem validateDomains_ok_iff (l : List Domain) :
    validateDomains l = .ok () ↔ ∀ d ∈ l, d.Validate = .ok () := by
  induction l with
  | nil => simp [validateDomains]
  | cons d rest ih =>
    simp only [validateDomains, List.mem_cons, forall_eq_or_imp]
    cases h : d.Validate with
    | error e => simp
    | ok u => simp [ih]

theorem validate_ok_iff (cl : ContainerLabels) :
    cl.Validate = .ok () ↔
      cl.AppName ≠ "" ∧ cl.DeploymentID ≠ "" ∧ (∀ d ∈ cl.Domains, d.Validate = .ok ()) ∧
      (cl.ACMEEmail = "" ∨ IsValidEmail cl.ACMEEmail = true) ∧ cl.Port ≠ "" ∧
      cl.Role = AppLabelRole := by
  unfold ContainerLabels.Validate
  by_cases h1 : cl.AppName = ""
  · simp [h1]
  by_cases h2 : cl.DeploymentID = ""
  · simp [h1, h2]
  simp only [h1, h2, if_false, ne_eq, not_false_eq_true, true_and]
  rw [← validateDomains_ok_iff]
  cases h3 : validateDomains cl.Domains with
  | error e => simp
  | ok u =>
    by_cases h4 : cl.ACMEEmail = ""
    · by_cases h5 : cl.Port = ""
      · simp [h4, h5]
      · by_cases h6 : cl.Role = AppLabelRole
        · simp [h4, h5, h6]
        · simp [h4, h5, h6]
    · cases h7 : IsValidEmail cl.ACMEEmail with
      | false => simp [h4]
      | true =>
        by_cases h5 : cl.Port = ""
        · simp [h4, h5]
        · by_cases h6 : cl.Role = AppLabelRole
          · simp [h4, h5, h6]
          · simp [h4, h5, h6]

/-- C16. For every label map, `ParseContainerLabels` returns an error exactly
when the `appName` label is missing or empty, the `deploymentID` label is
missing or empty, the `port` label is present and empty, the `role` label is
not `app`, some parsed canonical domain or alias fails `IsValidDomain`, or the
ACME email is non-empty and not valid; in every other case it succeeds and
returns the parsed descriptor. -/
theorem C16_label_validation (labels : GoMap String String) :
    ((∃ e, ParseContainerLabels labels = .error e) ↔
      ((mapGet labels LabelAppName = none ∨ mapGet labels LabelAppName = some "") ∨
       (mapGet labels LabelDeploymentID = none ∨ mapGet labels LabelDeploymentID = some "") ∨
       mapGet labels LabelPort = some "" ∨
       mapGetD labels LabelRole ≠ "app" ∨
       (∃ d ∈ (parseLabelsRaw labels).Domains,
          IsValidDomain d.Canonical ≠ .ok () ∨ ∃ a ∈ d.Aliases, IsValidDomain a ≠ .ok ()) ∨
       (mapGetD labels LabelACMEEmail ≠ "" ∧ IsValidEmail (mapGetD labels LabelACMEEmail) = false))) ∧
    ((∀ e, ParseContainerLabels labels ≠ .error e) →
      ParseContainerLabels labels = .ok (parseLabelsRaw labels)) := by
  have hraw : ∀ e, ParseContainerLabels labels = .error e ↔
      (parseLabelsRaw labels).Validate = .error e := by
    intro e
    unfold ParseContainerLabels
    cases h : (parseLabelsRaw labels).Validate with
    | error e' => simp
    | ok u => simp
  have hok : (¬ ∃ e, ParseContainerLabels labels = .error e) ↔
      (parseLabelsRaw labels).Validate = .ok () := by
    simp only [hraw]
    cases h : (parseLabelsRaw labels).Validate with
    | error e' => simp
    | ok u => simp
  constructor
  · rw [← not_iff_not, hok, validate_ok_iff]
    have hname : (parseLabelsRaw labels).AppName = mapGetD labels LabelAppName := rfl
    have hid : (parseLabelsRaw labels).DeploymentID = mapGetD labels LabelDeploymentID := rfl
    have hmail : (parseLabelsRaw labels).ACMEEmail = mapGetD labels LabelACMEEmail := rfl
    have hrole : (parseLabelsRaw labels).Role = mapGetD labels LabelRole := rfl
    have hport : (parseLabelsRaw labels).Port =
        (mapGet labels LabelPort).getD DefaultContainerPort := rfl
    rw [hname, hid, hmail, hrole, hport]
    simp only [domainValidate_ok_iff, mapGetD, AppLabelRole]
    have hdef : DefaultContainerPort ≠ "" := by decide
    cases h1 : mapGet labels LabelAppName <;> cases h2 : mapGet labels LabelDeploymentID <;>
      cases h3 : mapGet labels LabelPort <;>
      simp [hdef] <;> tauto
  · intro h
    unfold ParseContainerLabels
    cases hv : (parseLabelsRaw labels).Validate with
    | error e => exact absurd ((hraw e).mpr hv) (h e)
    | ok u => rfl

theorem mapWF_updateDomain (m : GoMap Int Domain) (idx : Int) (f : Domain → Domain)
    (hwf : mapWF m) : mapWF (updateDomain m idx f) := by
  unfold updateDomain
  split <;> exact mapWF_mapSet _ _ _ hwf

theorem mapWF_parseDomainLabel (m : GoMap Int Domain) (kv : String × String)
    (hwf : mapWF m) : mapWF (parseDomainLabel m kv) := by
  unfold parseDomainLabel
  split
  · exact hwf
  · split
    · split
      · exact hwf
      · exact mapWF_updateDomain _ _ _ hwf
    · split
      · exact hwf
      · exact mapWF_updateDomain _ _ _ hwf

theorem mapWF_domainMap (labels : GoMap String String) (m : GoMap Int Domain) (hwf : mapWF m) :
    mapWF (labels.foldl parseDomainLabel m) := by
  induction labels generalizing m with
  | nil => exact hwf
  | cons kv rest ih => exact ih _ (mapWF_parseDomainLabel m kv hwf)

/-- C17. The label key `dev.haloy.domain.0.backup` has text after the index, so
it has neither of the two forms, and `ParseContainerLabels` does not ignore
it: `Sscanf` stops reading after the index, and the value of the label
replaces the canonical domain of index 0. A key without an index, such as
`dev.haloy.domain.x`, is ignored. For every label map the parsed domains are
those of the indices met, in strictly increasing order of the index. -/
theorem C17_key_with_trailing_text_is_parsed :
    ParseContainerLabels (blogLabelMap "01") = .ok (blogLabels "01") ∧
    sscanfDomainCanonical "dev.haloy.domain.0.backup" = some 0 ∧
    ParseContainerLabels backupKeyLabels =
      .ok { blogLabels "01" with
            Domains := [⟨"evil.example", ["www.blog.example", "m.blog.example"]⟩] } ∧
    ParseContainerLabels backupKeyLabels ≠ ParseContainerLabels (blogLabelMap "01") ∧
    sscanfDomainCanonical "dev.haloy.domain.x" = none ∧
    ParseContainerLabels noIndexKeyLabels = ParseContainerLabels (blogLabelMap "01") ∧
    (∀ labels : GoMap String String,
      ∃ indices : List Int, List.Sorted (fun a b => a < b) indices ∧
        (∀ i, i ∈ indices ↔ i ∈ mapKeys (labels.foldl parseDomainLabel [])) ∧
        (parseLabelsRaw labels).Domains =
          indices.map (fun i => (mapGet (labels.foldl parseDomainLabel []) i).getD {})) := by
  refine ⟨by decide, by decide, by decide, by decide, by decide, by decide, ?_⟩
  intro labels
  refine ⟨(mapKeys (labels.foldl parseDomainLabel [])).insertionSort (fun a b => a ≤ b),
    ?_, ?_, rfl⟩
  · have hs : List.Sorted (fun a b : Int => a ≤ b)
        ((mapKeys (labels.foldl parseDomainLabel [])).insertionSort (fun a b => a ≤ b)) :=
      List.sorted_insertionSort _ _
    have hnd : ((mapKeys (labels.foldl parseDomainLabel [])).insertionSort
        (fun a b => a ≤ b)).Nodup :=
      (List.perm_insertionSort _ _).nodup_iff.mpr
        (mapWF_domainMap labels [] (by simp [mapWF, mapKeys]))
    exact hs.lt_of_le hnd
  · intro i
    exact (List.perm_insertionSort _ _).mem_iff

theorem mem_charRange (lo hi c : Char) (h1 : lo.toNat ≤ c.toNat) (h2 : c.toNat ≤ hi.toNat) :
    c ∈ charRange lo hi := by
  unfold charRange
  rw [List.mem_map]
  refine ⟨c.toNat - lo.toNat, ?_, ?_⟩
  · rw [List.mem_range]
    omega
  · rw [show lo.toNat + (c.toNat - lo.toNat) = c.toNat by omega]
    exact Char.ofNat_toNat c

theorem mem_alnumClass (c : Char) : c ∈ alnumClass ↔ isAlnum c = true := by
  constructor
  · have h : ∀ x ∈ alnumClass, isAlnum x = true := by decide
    exact h c
  · intro h
    simp only [isAlnum, isLetter, isDigit, Bool.or_eq_true, Bool.and_eq_true,
      decide_eq_true_eq] at h
    unfold alnumClass
    rw [List.mem_append, List.mem_append]
    rcases h with (h | h) | h
    · exact Or.inl (Or.inl (mem_charRange _ _ _ h.1 h.2))
    · exact Or.inl (Or.inr (mem_charRange _ _ _ h.1 h.2))
    · exact Or.inr (mem_charRange _ _ _ h.1 h.2)

theorem charClass_rmatch (cs : List Char) (x : List Char) :
    (charClass cs).rmatch x = true ↔ ∃ c ∈ cs, x = [c] := by
  induction cs with
  | nil =>
    show (0 : RegularExpression Char).rmatch x = true ↔ _
    simp
  | cons c rest ih =>
    show (RegularExpression.char c + charClass rest).rmatch x = true ↔ _
    rw [RegularExpression.add_rmatch_iff, RegularExpression.char_rmatch_iff, ih]
    simp

theorem appNameRegex_rmatch (x : List Char) :
    appNameRegex.rmatch x = true ↔
      ∃ c rest, x = c :: rest ∧ isAlnum c = true ∧
        ∀ y ∈ rest, isAlnum y = true ∨ y = '_' ∨ y = '-' := by
  unfold appNameRegex
  rw [RegularExpression.mul_rmatch_iff]
  constructor
  · rintro ⟨t, u, hx, ht, hu⟩
    rw [charClass_rmatch] at ht
    obtain ⟨c, hc, rfl⟩ := ht
    rw [RegularExpression.star_rmatch_iff] at hu
    obtain ⟨S, rfl, hS⟩ := hu
    refine ⟨c, S.flatten, by simpa using hx, (mem_alnumClass c).mp hc, ?_⟩
    intro y hy
    rw [List.mem_flatten] at hy
    obtain ⟨l, hl, hyl⟩ := hy
    obtain ⟨_, hm⟩ := hS l hl
    rw [charClass_rmatch] at hm
    obtain ⟨z, hz, rfl⟩ := hm
    rw [List.mem_singleton] at hyl
    subst hyl
    rw [List.mem_append] at hz
    rcases hz with hz | hz
    · exact Or.inl ((mem_alnumClass y).mp hz)
    · exact Or.inr (by simpa using hz)
  · rintro ⟨c, rest, rfl, hc, hrest⟩
    refine ⟨[c], rest, rfl, ?_, ?_⟩
    · rw [charClass_rmatch]
      exact ⟨c, (mem_alnumClass c).mpr hc, rfl⟩
    · rw [RegularExpression.star_rmatch_iff]
      refine ⟨rest.map (fun y => [y]), ?_, ?_⟩
      · clear hrest
        induction rest with
        | nil => rfl
        | cons y ys ih => simpa using ih
      · intro t ht
        rw [List.mem_map] at ht
        obtain ⟨y, hy, rfl⟩ := ht
        refine ⟨by simp, ?_⟩
        rw [charClass_rmatch]
        refine ⟨y, ?_, rfl⟩
        rw [List.mem_append]
        rcases hrest y hy with h | h | h
        · exact Or.inl ((mem_alnumClass y).mpr h)
        · exact Or.inr (by simp [h])
        · exact Or.inr (by simp [h])

/-- C21. `isValidAppName(s)` is true exactly when `s` is non-empty, its first
character is an ASCII letter or digit and every other character is an ASCII
letter, a digit, `_` or `-`; `TargetConfig.Validate` returns an error for
every target whose `Name` is empty or fails the test. The names of the test
table are evaluated. -/
theorem C21_application_names (s : String) (tc : TargetConfig) (format : String) :
    (isValidAppName s = true ↔
      ∃ c rest, s.data = c :: rest ∧ isAlnum c = true ∧
        ∀ y ∈ rest, isAlnum y = true ∨ y = '_' ∨ y = '-') ∧
    ((tc.Name = "" ∨ isValidAppName tc.Name = false) → ∃ e, tc.Validate format = .error e) ∧
    (["myapp", "my-app", "my_app", "app123"].all isValidAppName = true) ∧
    (["my app", "my.app", "my@app", "", "my/app", "_my-app", "-my-app", ".my-app"].all
      (fun n => !isValidAppName n) = true) := by
  refine ⟨appNameRegex_rmatch s.data, ?_, by decide, by decide⟩
  intro h
  unfold TargetConfig.Validate
  by_cases h1 : tc.Name = ""
  · exact ⟨_, by rw [if_pos h1]⟩
  · rw [if_neg h1]
    by_cases h2 : tc.Server = ""
    · exact ⟨_, by rw [if_pos h2]⟩
    · rw [if_neg h2]
      rcases h with h | h
      · exact absurd h h1
      · exact ⟨_, by rw [if_pos h]⟩

theorem utf8Size_of_ascii (c : Char) (h : c.toNat ≤ 127) : c.utf8Size = 1 := by
  unfold Char.utf8Size
  rw [if_pos]
  exact h

theorem isAlnum_ascii (c : Char) (h : isAlnum c = true) : c.toNat ≤ 127 := by
  simp only [isAlnum, isLetter, isDigit, Bool.or_eq_true, Bool.and_eq_true, decide_eq_true_eq] at h
  have h1 : 'z'.toNat = 122 := by decide
  have h2 : 'Z'.toNat = 90 := by decide
  have h3 : '9'.toNat = 57 := by decide
  omega

theorem utf8ByteSize_of_ascii (l : List Char) (h : ∀ c ∈ l, c.toNat ≤ 127) :
    (String.mk l).utf8ByteSize = l.length := by
  induction l with
  | nil => rfl
  | cons c rest ih =>
    rw [String.utf8ByteSize_mk, String.utf8Len_cons, ← String.utf8ByteSize_mk,
      ih (fun x hx => h x (List.mem_cons_of_mem _ hx)),
      utf8Size_of_ascii c (h c (List.mem_cons_self _ _)), List.length_cons]

theorem labelChar_ascii (c : Char) (h : isAlnum c = true ∨ c = '-') : c.toNat ≤ 127 := by
  rcases h with h | h
  · exact isAlnum_ascii c h
  · subst h
    decide

theorem validateDomainLabel_ok_iff (l : List Char) :
    validateDomainLabel l = .ok () ↔
      1 ≤ l.length ∧ l.length ≤ 63 ∧ (∀ c ∈ l, isAlnum c = true ∨ c = '-') ∧
      l.head? ≠ some '-' ∧ l.getLast? ≠ some '-' := by
  unfold validateDomainLabel
  by_cases hall : ∀ c ∈ l, isAlnum c = true ∨ c = '-'
  · have hfind : l.find? (fun r => !(isAlnum r || r == '-')) = none := by
      rw [List.find?_eq_none]
      intro c hc
      rcases hall c hc with h | h
      · simp [h]
      · simp [h]
    rw [hfind, utf8ByteSize_of_ascii l (fun c hc => labelChar_ascii c (hall c hc))]
    by_cases h1 : l.length = 0 ∨ l.length > 63
    · rw [if_pos h1]
      simp only [false_iff, reduceCtorEq]
      omega
    · rw [if_neg h1]
      by_cases h2 : l.head? = some '-' ∨ l.getLast? = some '-'
      · rw [if_pos h2]
        simp only [false_iff, reduceCtorEq]
        tauto
      · rw [if_neg h2]
        simp only [true_iff]
        refine ⟨by omega, by omega, hall, ?_, ?_⟩ <;> tauto
  · have hfind : ∃ r, l.find? (fun r => !(isAlnum r || r == '-')) = some r := by
      cases hf : l.find? (fun r => !(isAlnum r || r == '-')) with
      | some r => exact ⟨r, rfl⟩
      | none =>
        exfalso
        apply hall
        intro c hc
        have := List.find?_eq_none.mp hf c hc
        by_cases ha : isAlnum c = true
        · exact Or.inl ha
        · right
          simpa [ha] using this
    obtain ⟨r, hr⟩ := hfind
    rw [hr]
    constructor
    · intro h
      split at h
      · simp at h
      · split at h <;> simp at h
    · intro h
      exact absurd h.2.2.1 hall

theorem validateTLD_ok_iff (l : List Char) :
    validateTLD l = .ok () ↔
      2 ≤ l.length ∧ l.length ≤ 63 ∧ ∀ c ∈ l, isAlnum c = true := by
  unfold validateTLD
  by_cases hall : ∀ c ∈ l, isAlnum c = true
  · have hfind : l.find? (fun r => !isAlnum r) = none := by
      rw [List.find?_eq_none]
      intro c hc
      simp [hall c hc]
    rw [hfind, utf8ByteSize_of_ascii l (fun c hc => isAlnum_ascii c (hall c hc))]
    by_cases h1 : l.length < 2 ∨ l.length > 63
    · rw [if_pos h1]
      simp only [false_iff, reduceCtorEq]
      omega
    · rw [if_neg h1]
      have h2 : ¬ (l.head? = some '-' ∨ l.getLast? = some '-') := by
        intro h
        rcases h with h | h
        · have := hall '-' (List.mem_of_mem_head? h)
          exact absurd this (by decide)
        · have := hall '-' (List.mem_of_mem_getLast? h)
          exact absurd this (by decide)
      rw [if_neg h2]
      simp only [true_iff]
      exact ⟨by omega, by omega, hall⟩
  · have hfind : ∃ r, l.find? (fun r => !isAlnum r) = some r := by
      cases hf : l.find? (fun r => !isAlnum r) with
      | some r => exact ⟨r, rfl⟩
      | none =>
        exfalso
        apply hall
        intro c hc
        have := List.find?_eq_none.mp hf c hc
        simpa using this
    obtain ⟨r, hr⟩ := hfind
    rw [hr]
    constructor
    · intro h
      split at h
      · simp at h
      · split at h <;> simp at h
    · intro h
      exact absurd h.2.2 hall

theorem validateLabels_ok_iff (labels : List (List Char)) (tld : List Char) :
    validateLabels (labels ++ [tld]) = .ok () ↔
      (∀ l ∈ labels, validateDomainLabel l = .ok ()) ∧ validateTLD tld = .ok () := by
  induction labels with
  | nil =>
    simp only [List.nil_append, validateLabels, List.not_mem_nil, false_implies, implies_true,
      true_and]
    cases h : validateTLD tld <;> simp
  | cons l rest ih =>
    have hne : rest ++ [tld] ≠ [] := by simp
    obtain ⟨x, xs, hx⟩ := List.exists_cons_of_ne_nil hne
    simp only [List.cons_append, hx, validateLabels, List.mem_cons, forall_eq_or_imp]
    rw [← hx]
    cases h : validateDomainLabel l with
    | error e => simp
    | ok u => simpa using ih

theorem splitCharsAux_head (sep : Char) (s acc : List Char) :
    ∃ tl, splitCharsAux sep s acc = (acc.reverse ++ s.takeWhile (fun c => c != sep)) :: tl := by
  induction s generalizing acc with
  | nil => exact ⟨[], by simp [splitCharsAux]⟩
  | cons c cs ih =>
    by_cases h : c = sep
    · exact ⟨splitCharsAux sep cs [], by simp [splitCharsAux, h]⟩
    · obtain ⟨tl, htl⟩ := ih (c :: acc)
      exact ⟨tl, by simp [splitCharsAux, h, htl]⟩

theorem splitCharsAux_snoc_sep (sep : Char) (s acc : List Char) :
    splitCharsAux sep (s ++ [sep]) acc = splitCharsAux sep s acc ++ [[]] := by
  induction s generalizing acc with
  | nil => simp [splitCharsAux]
  | cons c cs ih =>
    by_cases h : c = sep
    · simp [splitCharsAux, h, ih]
    · simp [splitCharsAux, h, ih]

theorem splitCharsAux_snoc (sep : Char) (s acc : List Char) (c : Char) (hc : c ≠ sep) :
    ∃ init lst, splitCharsAux sep s acc = init ++ [lst] ∧
      splitCharsAux sep (s ++ [c]) acc = init ++ [lst ++ [c]] := by
  induction s generalizing acc with
  | nil => exact ⟨[], acc.reverse, by simp [splitCharsAux, hc]⟩
  | cons x xs ih =>
    by_cases h : x = sep
    · obtain ⟨init, lst, h1, h2⟩ := ih []
      exact ⟨acc.reverse :: init, lst, by simp [splitCharsAux, h, h1], by simp [splitCharsAux, h, h2]⟩
    · obtain ⟨init, lst, h1, h2⟩ := ih (x :: acc)
      exact ⟨init, lst, by simp [splitCharsAux, h, h1], by simp [splitCharsAux, h, h2]⟩

/-- C22. `IsValidDomain(d)` returns nil exactly when `d` is 1 to 253 bytes
long and splits on `.` into at least two labels, each label but the last being
1 to 63 characters among ASCII letters, digits and `-` that neither starts nor
ends with `-`, and the last label being 2 to 63 ASCII letters or digits. A
single-label name, a one-letter last label, a leading hyphen, a space and the
empty string are rejected; the valid names of the test table are accepted. -/
theorem C22_domain_validation (d : String) :
    (IsValidDomain d = .ok () ↔
      1 ≤ d.utf8ByteSize ∧ d.utf8ByteSize ≤ 253 ∧
      ∃ labels tld, splitDots d = labels ++ [tld] ∧ 1 ≤ labels.length ∧
        (∀ l ∈ labels, 1 ≤ l.length ∧ l.length ≤ 63 ∧
          (∀ c ∈ l, isAlnum c = true ∨ c = '-') ∧
          l.head? ≠ some '-' ∧ l.getLast? ≠ some '-') ∧
        2 ≤ tld.length ∧ tld.length ≤ 63 ∧ ∀ c ∈ tld, isAlnum c = true) ∧
    IsValidDomain "example" ≠ .ok () ∧
    IsValidDomain "example.c" ≠ .ok () ∧
    IsValidDomain "-example.com" ≠ .ok () ∧
    IsValidDomain "example domain.com" ≠ .ok () ∧
    IsValidDomain "" ≠ .ok () ∧
    IsValidDomain "example.com" = .ok () ∧
    IsValidDomain "sub.example.co.uk" = .ok () ∧
    IsValidDomain "example-domain.com" = .ok () := by
  refine ⟨?_, by decide, by decide, by decide, by decide, by decide, by decide, by decide,
    by decide⟩
  have hsplit : ∃ labels tld, splitDots d = labels ++ [tld] := by
    obtain ⟨tl, htl⟩ := splitCharsAux_head '.' d.data []
    have hne : splitDots d ≠ [] := by
      unfold splitDots
      rw [htl]
      simp
    exact ⟨(splitDots d).dropLast, (splitDots d).getLast hne,
      (List.dropLast_append_getLast hne).symm⟩
  obtain ⟨labels, tld, hlt⟩ := hsplit
  constructor
  · intro h
    unfold IsValidDomain at h
    split at h
    · simp at h
    · rename_i h1
      split at h
      · simp at h
      · split at h
        · simp at h
        · split at h
          · simp at h
          · rename_i h4
            rw [hlt, validateLabels_ok_iff] at h
            rw [hlt, List.length_append] at h4
            simp only [List.length_singleton] at h4
            refine ⟨by omega, by omega, labels, tld, hlt, by omega, ?_, ?_⟩
            · intro l hl
              exact (validateDomainLabel_ok_iff l).mp (h.1 l hl)
            · exact (validateTLD_ok_iff tld).mp h.2
  · rintro ⟨h1, h2, labels', tld', hlt', hlen, hlabels, htld⟩
    have hval : validateLabels (splitDots d) = .ok () := by
      rw [hlt', validateLabels_ok_iff]
      exact ⟨fun l hl => (validateDomainLabel_ok_iff l).mpr (hlabels l hl),
        (validateTLD_ok_iff tld').mpr htld⟩
    obtain ⟨l0, ls, hl0⟩ := List.exists_cons_of_ne_nil
      (show labels' ≠ [] from fun h => by rw [h] at hlen; simp at hlen)
    have hl0ok := hlabels l0 (by rw [hl0]; exact List.mem_cons_self _ _)
    obtain ⟨tl, htl⟩ := splitCharsAux_head '.' d.data []
    have hhead : l0 = d.data.takeWhile (fun c => c != '.') := by
      have : splitDots d = l0 :: (ls ++ [tld']) := by rw [hlt', hl0]; rfl
      unfold splitDots at this
      rw [htl] at this
      simp only [List.reverse_nil, List.nil_append, List.cons.injEq] at this
      exact this.1.symm
    have hpre : ∀ c, (c = '.' ∨ c = '-') → ¬ hasPrefix d (String.singleton c) = true := by
      intro c hc hp
      unfold hasPrefix at hp
      rw [List.isPrefixOf_iff_prefix] at hp
      obtain ⟨t, ht⟩ := hp
      have hd : d.data = c :: t := by rw [← ht]; rfl
      rw [hd] at hhead
      rcases hc with rfl | rfl
      · simp at hhead
        rw [hhead] at hl0ok
        simp at hl0ok
      · simp at hhead
        rw [hhead] at hl0ok
        simp at hl0ok
    have hsuf : ∀ c, (c = '.' ∨ c = '-') → ¬ hasSuffix d (String.singleton c) = true := by
      intro c hc hs
      unfold hasSuffix at hs
      rw [List.isSuffixOf_iff_suffix] at hs
      obtain ⟨t, ht⟩ := hs
      have hd : d.data = t ++ [c] := by rw [← ht]; rfl
      rcases hc with rfl | rfl
      · have := splitCharsAux_snoc_sep '.' t []
        rw [← hd] at this
        unfold splitDots at hlt'
        rw [hlt'] at this
        have h3 := List.append_inj_right' this (by simp)
        simp only [List.cons.injEq, and_true] at h3
        rw [h3] at htld
        simp at htld
      · obtain ⟨init, lst, _, h4⟩ := splitCharsAux_snoc '.' t [] '-' (by decide)
        rw [← hd] at h4
        unfold splitDots at hlt'
        rw [hlt'] at h4
        have h3 := List.append_inj_right' h4 (by simp)
        simp only [List.cons.injEq, and_true] at h3
        have := htld.2.2 '-' (by rw [h3]; simp)
        exact absurd this (by decide)
    unfold IsValidDomain
    rw [if_neg (by omega), if_neg, if_neg, if_neg, hval]
    · rw [hlt', List.length_append]
      simp only [List.length_singleton]
      omega
    · intro h
      rcases h with h | h
      · exact hpre '-' (Or.inr rfl) h
      · exact hsuf '-' (Or.inr rfl) h
    · intro h
      rcases h with h | h
      · exact hpre '.' (Or.inl rfl) h
      · exact hsuf '.' (Or.inl rfl) h

theorem validate_of_name_server (tc : TargetConfig) (format : String) (image : Image)
    (hname : tc.Name ≠ "") (hvalid : isValidAppName tc.Name = true) (hserver : tc.Server ≠ "")
    (himage : tc.Image = some image) (hkey : tc.ImageKey = "")
    (hok : image.Validate format = .ok ()) :
    tc.Validate format =
      if tc.DeploymentStrategy ≠ "" ∧
          ¬ tc.DeploymentStrategy ∈ [DeploymentStrategyRolling, DeploymentStrategyReplace] then
        .error ("deployment_strategy must be 'rolling' or 'replace', got '" ++
          tc.DeploymentStrategy ++ "'")
      else
        match validateTargetDomains tc.Domains with
        | .error e => .error e
        | .ok _ => tc.validateRest format := by
  unfold TargetConfig.Validate
  rw [if_neg hname, if_neg hserver, if_neg (by simp [hvalid]), if_neg (by simp [hkey]), himage]
  simp only [hok]

/-- C23, the statement that holds. `TargetConfig.Validate` returns an error
for every target whose `HealthCheckPath` is non-empty and does not begin with
`/`, whose `Replicas` is set and less than 1, or whose `DeploymentStrategy` is
non-empty and neither `rolling` nor `replace`; it accepts every target with a
name that passes `isValidAppName`, a server and an image that passes
`Image.Validate`, whose image key, deployment strategy, domains, ACME email,
environment, volumes, health-check path and replicas are all unset. -/
theorem C23_descriptor_validation (tc : TargetConfig) (format : String) :
    (((tc.HealthCheckPath ≠ "" ∧ tc.HealthCheckPath.data.head? ≠ some '/') ∨
        (∃ n, tc.Replicas = some n ∧ n < 1) ∨
        (tc.DeploymentStrategy ≠ "" ∧ tc.DeploymentStrategy ≠ "rolling" ∧
          tc.DeploymentStrategy ≠ "replace")) →
      ∃ e, tc.Validate format = .error e) ∧
    (∀ image, tc.Name ≠ "" → isValidAppName tc.Name = true → tc.Server ≠ "" →
      tc.Image = some image → image.Validate format = .ok () →
      tc.ImageKey = "" → tc.DeploymentStrategy = "" → tc.Domains = [] → tc.ACMEEmail = "" →
      tc.Env = [] → tc.Volumes = [] → tc.HealthCheckPath = "" → tc.Replicas = none →
      tc.Validate format = .ok ()) := by
  constructor
  · intro h
    have hrest : ((tc.HealthCheckPath ≠ "" ∧ tc.HealthCheckPath.data.head? ≠ some '/') ∨
        (∃ n, tc.Replicas = some n ∧ n < 1)) → ∃ e, tc.validateRest format = .error e := by
      intro h
      unfold TargetConfig.validateRest
      split
      · exact ⟨_, rfl⟩
      · split
        · exact ⟨_, rfl⟩
        · split
          · exact ⟨_, rfl⟩
          · by_cases hh : tc.HealthCheckPath ≠ "" ∧ tc.HealthCheckPath.data.head? ≠ some '/'
            · exact ⟨_, by rw [if_pos hh]⟩
            · rw [if_neg hh]
              rcases h with h | ⟨n, hn, hlt⟩
              · exact absurd h hh
              · exact ⟨_, by rw [if_pos (by simp [hn, hlt])]⟩
    unfold TargetConfig.Validate
    split
    · exact ⟨_, rfl⟩
    · split
      · exact ⟨_, rfl⟩
      · split
        · exact ⟨_, rfl⟩
        · split
          · exact ⟨_, rfl⟩
          · split
            · exact ⟨_, rfl⟩
            · by_cases hs : tc.DeploymentStrategy ≠ "" ∧
                  ¬ tc.DeploymentStrategy ∈ [DeploymentStrategyRolling, DeploymentStrategyReplace]
              · exact ⟨_, by rw [if_pos hs]⟩
              · rw [if_neg hs]
                split
                · exact ⟨_, rfl⟩
                · apply hrest
                  rcases h with h | h | h
                  · exact Or.inl h
                  · exact Or.inr h
                  · exfalso
                    apply hs
                    refine ⟨h.1, ?_⟩
                    simp only [List.mem_cons, List.mem_singleton, List.not_mem_nil, or_false,
                      DeploymentStrategyRolling, DeploymentStrategyReplace]
                    tauto
  · intro image hname hvalid hserver himage hok hkey hstrat hdom hmail henv hvol hpath hrep
    rw [validate_of_name_server tc format image hname hvalid hserver himage hkey hok]
    rw [if_neg (by simp [hstrat]), hdom]
    simp only [validateTargetDomains, TargetConfig.validateRest, hmail, henv, hvol, hpath,
      hrep, validateEnv, validateVolumes]
    simp

/-- C23 as stated fails at `spaceNameTarget`, which has a name, a server and a
valid image and no optional field: its name holds a space and the target is
rejected. -/
theorem C23_counterexample :
    spaceNameTarget.Name ≠ "" ∧ spaceNameTarget.Server ≠ "" ∧
    (∃ image, spaceNameTarget.Image = some image ∧ image.Validate "yaml" = .ok ()) ∧
    spaceNameTarget.ImageKey = "" ∧ spaceNameTarget.DeploymentStrategy = "" ∧
    spaceNameTarget.Domains = [] ∧ spaceNameTarget.ACMEEmail = "" ∧ spaceNameTarget.Env = [] ∧
    spaceNameTarget.Volumes = [] ∧ spaceNameTarget.HealthCheckPath = "" ∧
    spaceNameTarget.Replicas = none ∧ spaceNameTarget.APIToken = none ∧
    spaceNameTarget.Port = "" ∧ spaceNameTarget.Network = "" ∧
    spaceNameTarget.PreDeploy = [] ∧ spaceNameTarget.PostDeploy = [] ∧
    spaceNameTarget.Validate "yaml" =
      .error ("invalid app name 'my app'; must contain only alphanumeric characters, " ++
        "hyphens, and underscores") := by
  refine ⟨by decide, by decide, ⟨_, rfl, by decide⟩, rfl, rfl, rfl, rfl, rfl, rfl, rfl, rfl,
    rfl, rfl, rfl, rfl, rfl, by decide⟩

/-- C23 at the targets of the test table: the minimal target is accepted, a
health-check path without a leading slash and zero replicas are rejected. -/
theorem C23_descriptor_validation_witness :
    minimalTarget.Validate "yaml" = .ok () ∧
    (∃ e, { minimalTarget with HealthCheckPath := "no-leading-slash" }.Validate "yaml" =
      .error e) ∧
    (∃ e, { minimalTarget with Replicas := some 0 }.Validate "yaml" = .error e) :=
  ⟨(C23_descriptor_validation minimalTarget "yaml").2 _ (by decide) (by decide) (by decide) rfl
      (by decide) rfl rfl rfl rfl rfl rfl rfl rfl,
    (C23_descriptor_validation { minimalTarget with HealthCheckPath := "no-leading-slash" }
      "yaml").1 (Or.inl (by decide)),
    (C23_descriptor_validation { minimalTarget with Replicas := some 0 } "yaml").1
      (Or.inr (Or.inl ⟨0, rfl, by decide⟩))⟩

theorem sanitizeLoop_eq (l : List Char) :
    sanitizeLoop l false = documentedSanitize l ∧
    sanitizeLoop l true = documentedSanitize (l.dropWhile (fun c => !isSanitizeAllowed c)) := by
  induction l with
  | nil => simp [sanitizeLoop, documentedSanitize]
  | cons r rest ih =>
    by_cases h : isSanitizeAllowed r = true
    · refine ⟨?_, ?_⟩
      · rw [documentedSanitize]
        simp [sanitizeLoop, h, ih.1]
      · rw [List.dropWhile_cons_of_neg (by simp [h]), documentedSanitize]
        simp [sanitizeLoop, h, ih.1]
    · refine ⟨?_, ?_⟩
      · rw [documentedSanitize]
        simp [sanitizeLoop, h, ih.2]
      · rw [List.dropWhile_cons_of_pos (by simp [h])]
        simp [sanitizeLoop, h, ih.2]

theorem sanitizeLoop_allowed (l : List Char) (b : Bool) :
    ∀ c ∈ sanitizeLoop l b, isSanitizeAllowed c = true := by
  induction l generalizing b with
  | nil => simp [sanitizeLoop]
  | cons r rest ih =>
    intro c hc
    unfold sanitizeLoop at hc
    split at hc
    · rename_i h
      rcases List.mem_cons.mp hc with rfl | h'
      · exact h
      · exact ih false c h'
    · split at hc
      · rcases List.mem_cons.mp hc with rfl | h'
        · decide
        · exact ih true c h'
      · exact ih true c hc

theorem sanitizeLoop_filter (l : List Char) (b : Bool) :
    (sanitizeLoop l b).filter (fun c => c != '_') =
      l.filter (fun c => isSanitizeAllowed c && c != '_') := by
  induction l generalizing b with
  | nil => simp [sanitizeLoop]
  | cons r rest ih =>
    unfold sanitizeLoop
    by_cases h : isSanitizeAllowed r = true
    · by_cases h2 : r = '_'
      · subst h2
        rw [if_pos h, List.filter_cons_of_neg (by decide), List.filter_cons_of_neg (by decide)]
        exact ih false
      · have h3 : (r != '_') = true := by simpa using h2
        rw [if_pos h, List.filter_cons_of_pos (by simpa using h3),
          List.filter_cons_of_pos (by simp [h, h3]), ih false]
    · rw [if_neg h, List.filter_cons_of_neg (by simp [h])]
      cases b
      · rw [if_pos (by rfl), List.filter_cons_of_neg (by decide)]
        exact ih true
      · rw [if_neg (by simp)]
        exact ih true

/-- C24. For every input string the output of `SanitizeString` holds only
ASCII letters, digits, `-` and `_`; it is the input with every allowed
character kept in place and every maximal run of disallowed characters
replaced by one `_` (`documentedSanitize`), so the allowed characters other than `_`
come out unchanged and in order; `my!app@name#$` gives `my_app_name_` and the
empty string stays empty. -/
theorem C24_sanitize_string (input : String) :
    (∀ c ∈ (SanitizeString input).data, isSanitizeAllowed c = true) ∧
    SanitizeString input = ⟨documentedSanitize input.data⟩ ∧
    (SanitizeString input).data.filter (fun c => c != '_') =
      input.data.filter (fun c => isSanitizeAllowed c && c != '_') ∧
    SanitizeString "my!app@name#$" = "my_app_name_" ∧
    SanitizeString "" = "" ∧
    SanitizeString "a_!!b" = "a__b" := by
  have hs : SanitizeString input = ⟨sanitizeLoop input.data false⟩ := by
    unfold SanitizeString
    split
    · rename_i h
      rw [h]
      rfl
    · rfl
  refine ⟨?_, ?_, ?_, by decide, by decide, by decide⟩
  · rw [hs]
    exact sanitizeLoop_allowed _ _
  · rw [hs, (sanitizeLoop_eq input.data).1]
  · rw [hs]
    exact sanitizeLoop_filter _ _

theorem containsChars_singleton (c : Char) (l : List Char) :
    containsChars [c] l = true ↔ c ∈ l := by
  induction l with
  | nil => simp [containsChars]
  | cons x xs ih =>
    simp only [containsChars, Bool.or_eq_true, ih, List.mem_cons]
    constructor
    · rintro (h | h)
      · left
        simp only [List.isPrefixOf, Bool.and_eq_true, beq_iff_eq] at h
        exact h.1
      · exact Or.inr h
    · rintro (h | h)
      · left
        simp [List.isPrefixOf, h]
      · exact Or.inr h

/-- C26. With `r` and `t` the repository and the tag stripped of surrounding
white space, `ImageRef()` returns `r` when `r` contains `:` and `t` is empty,
and `r ++ ":" ++ t` otherwise, with `latest` for an empty `t`; in both cases
the result contains a `:`. The images of the test table are evaluated. -/
theorem C26_image_ref (i : Image) :
    ((strContains (trimSpace i.Repository) ":" = true ∧ trimSpace i.Tag = "") →
      i.ImageRef = trimSpace i.Repository) ∧
    (¬ (strContains (trimSpace i.Repository) ":" = true ∧ trimSpace i.Tag = "") →
      i.ImageRef = trimSpace i.Repository ++ ":" ++
        (if trimSpace i.Tag = "" then "latest" else trimSpace i.Tag)) ∧
    strContains i.ImageRef ":" = true ∧
    Image.ImageRef { Repository := "nginx", Tag := "1.21" } = "nginx:1.21" ∧
    Image.ImageRef { Repository := "nginx", Tag := "" } = "nginx:latest" ∧
    Image.ImageRef { Repository := "nginx", Tag := " 1.21 " } = "nginx:1.21" ∧
    Image.ImageRef { Repository := " nginx ", Tag := "1.21" } = "nginx:1.21" ∧
    Image.ImageRef { Repository := "registry.example.com/myapp", Tag := "v1.0.0" } =
      "registry.example.com/myapp:v1.0.0" ∧
    Image.ImageRef { Repository := "localhost:5000/app", Tag := " " } = "localhost:5000/app" := by
  refine ⟨?_, ?_, ?_, by decide, by decide, by decide, by decide, by decide, by decide⟩
  · intro h
    unfold Image.ImageRef
    simp only [h, and_self, if_true]
  · intro h
    unfold Image.ImageRef
    simp only [h, if_false]
  · unfold Image.ImageRef
    by_cases h : strContains (trimSpace i.Repository) ":" = true ∧ trimSpace i.Tag = ""
    · simp only [h, and_self, if_true]
    · simp only [h, if_false]
      unfold strContains
      rw [show (":" : String).data = [':'] from rfl, containsChars_singleton]
      simp [String.data_append]

/-- C27. `Image.Validate` returns an error for every image whose history
strategy is `registry` and whose tag, stripped of surrounding white space, is
empty, `latest` or one of `main`, `master`, `develop`, `staging`,
`production`. An image with the registry strategy, a count of at least 1, a
non-blank pattern and a tag holding none of the four white-space characters
and being none of those passes the checks of the history; with a repository
that is set and holds no white space, and with neither registry
authentication nor a build, `Image.Validate` returns nil. -/
theorem C27_registry_history_tags (i : Image) (format : String) (h : ImageHistory)
    (hhist : i.History = some h) (hstrategy : h.Strategy = "registry") :
    ((trimSpace i.Tag = "" ∨ trimSpace i.Tag = "latest" ∨ trimSpace i.Tag ∈ mutableTags) →
      ∃ e, i.Validate format = .error e) ∧
    (∀ count, h.Count = some count → 1 ≤ count → trimSpace h.Pattern ≠ "" →
      containsAny i.Tag " \t\n\r" = false →
      ¬ (trimSpace i.Tag = "" ∨ trimSpace i.Tag = "latest" ∨ trimSpace i.Tag ∈ mutableTags) →
      i.validateHistory = .ok () ∧
      (trimSpace i.Repository ≠ "" → containsAny i.Repository " \t\n\r" = false →
        i.RegistryAuth = none → i.Build = none → i.BuildConfig = none →
        i.Validate format = .ok ())) := by
  constructor
  · intro htag
    have hh : ∃ e, i.validateHistory = .error e := by
      unfold Image.validateHistory
      rw [hhist]
      simp only
      split
      · exact ⟨_, rfl⟩
      · rw [if_pos (by rw [hstrategy]; rfl)]
        show ∃ e, (if trimSpace i.Tag = "" ∨ trimSpace i.Tag = "latest" then _
          else if trimSpace i.Tag ∈ mutableTags then _ else _) = Except.error e
        by_cases h1 : trimSpace i.Tag = "" ∨ trimSpace i.Tag = "latest"
        · exact ⟨_, by rw [if_pos h1]⟩
        · rw [if_neg h1]
          have h2 : trimSpace i.Tag ∈ mutableTags := by tauto
          exact ⟨_, by rw [if_pos h2]⟩
    obtain ⟨e, he⟩ := hh
    unfold Image.Validate
    split
    · exact ⟨_, rfl⟩
    · split
      · exact ⟨_, rfl⟩
      · split
        · exact ⟨_, rfl⟩
        · rw [he]
          exact ⟨_, rfl⟩
  · intro count hcount hge hpattern htagws htag
    have hv : h.Validate = .ok () := by
      unfold ImageHistory.Validate
      rw [if_neg (by simp [hstrategy, HistoryStrategyRegistry]),
        if_neg (by simp [hcount]),
        if_neg (by simp [hcount]; omega),
        if_neg (by simp [hpattern])]
    have hh : i.validateHistory = .ok () := by
      unfold Image.validateHistory
      rw [hhist]
      simp only [hv]
      rw [if_pos (by rw [hstrategy]; rfl)]
      show (if trimSpace i.Tag = "" ∨ trimSpace i.Tag = "latest" then _
        else if trimSpace i.Tag ∈ mutableTags then _ else _) = _
      rw [if_neg (by tauto), if_neg (by tauto)]
    refine ⟨hh, ?_⟩
    intro hrepo hrepows hauth hbuild hbc
    unfold Image.Validate
    rw [if_neg (by simp [hrepo]), if_neg (by simp [hrepows]), if_neg (by simp [htagws]), hh]
    simp only [Image.validateRegistryAuth, hauth, Image.validateBuild, Image.ShouldBuild,
      hbuild, hbc]
    simp

/-- C27 at the images of the test table: the tags `latest` and `main` are
rejected with the registry strategy, the tag `v1.2.3` is accepted. -/
theorem C27_registry_history_tags_witness :
    (∃ e, (registryImage "latest").Validate "yaml" = .error e) ∧
    (∃ e, (registryImage "main").Validate "yaml" = .error e) ∧
    (registryImage "v1.2.3").Validate "yaml" = .ok () :=
  ⟨(C27_registry_history_tags (registryImage "latest") "yaml" _ rfl rfl).1
      (Or.inr (Or.inl (by decide))),
    (C27_registry_history_tags (registryImage "main") "yaml" _ rfl rfl).1
      (Or.inr (Or.inr (by decide))),
    ((C27_registry_history_tags (registryImage "v1.2.3") "yaml" _ rfl rfl).2 5 rfl (by decide)
      (by decide) (by decide) (by decide)).2 (by decide) (by decide) rfl rfl rfl⟩

theorem buildNewDeployments_snd (cli : DockerClient) (containers : List String)
    (acc : GoMap String Deployment × List ExcludedContainerInfo) :
    (containers.foldl (buildStep cli) acc).2 = acc.2 ++ excludedOf cli containers := by
  induction containers generalizing acc with
  | nil => simp [excludedOf]
  | cons id rest ih =>
    rw [List.foldl_cons, ih]
    unfold excludedOf buildStep
    cases h : inspectContainer cli id with
    | error info => simp [h]
    | ok p => simp [h]

theorem inspectContainer_domains (cli : DockerClient) (id : String) (labels : ContainerLabels)
    (inst : DeploymentInstance) (h : inspectContainer cli id = .ok (labels, inst)) :
    labels.Domains ≠ [] := by
  unfold inspectContainer at h
  split at h
  · exact absurd h (by simp)
  · split at h
    · exact absurd h (by simp)
    · split at h
      · exact absurd h (by simp)
      · split at h
        · exact absurd h (by simp)
        · split at h
          · exact absurd h (by simp)
          · rename_i hdom
            split at h
            · exact absurd h (by simp)
            · simp only [Except.ok.injEq, Prod.mk.injEq] at h
              rw [← h.1]
              intro hnil
              exact hdom (by rw [hnil]; rfl)

theorem eligible_domains (cli : DockerClient) (containers : List String) :
    ∀ e ∈ eligibleContainers cli containers, e.1.Domains ≠ [] := by
  intro e he
  unfold eligibleContainers at he
  rw [List.mem_filterMap] at he
  obtain ⟨id, _, hid⟩ := he
  cases h : inspectContainer cli id with
  | error info => simp [h] at hid
  | ok p =>
    simp only [h, Option.some.injEq] at hid
    subst hid
    exact inspectContainer_domains cli id p.1 p.2 h

theorem excluded_eligible_length (cli : DockerClient) (containers : List String) :
    (excludedOf cli containers).length + (eligibleContainers cli containers).length =
      containers.length := by
  unfold excludedOf eligibleContainers
  induction containers with
  | nil => rfl
  | cons id rest ih =>
    cases h : inspectContainer cli id with
    | error info =>
      simp only [List.filterMap_cons, h, List.length_cons]
      omega
    | ok p =>
      simp only [List.filterMap_cons, h, List.length_cons]
      omega

theorem labelsInv_mapSet (m : GoMap String Deployment) (k : String) (dep : Deployment)
    (hinv : LabelsInv m) (hk : dep.Labels.AppName = k) (hd : dep.Labels.Domains ≠ []) :
    LabelsInv (mapSet m k dep) := by
  intro app dep' hget
  by_cases h : k = app
  · subst h
    rw [mapGet_mapSet_self] at hget
    simp only [Option.some.injEq] at hget
    subst hget
    exact ⟨hk, hd⟩
  · rw [mapGet_mapSet_ne m k app dep h] at hget
    exact hinv app dep' hget

theorem labelsInv_addInstance (m : GoMap String Deployment) (labels : ContainerLabels)
    (inst : DeploymentInstance) (hinv : LabelsInv m) (hd : labels.Domains ≠ []) :
    LabelsInv (addInstance m labels inst) := by
  unfold addInstance
  split
  · rename_i deployment hget
    split
    · exact labelsInv_mapSet m _ _ hinv (hinv _ _ hget).1 (hinv _ _ hget).2
    · split
      · exact labelsInv_mapSet m _ _ hinv rfl hd
      · exact hinv
  · exact labelsInv_mapSet m _ _ hinv rfl hd

theorem labelsInv_foldl (es : List (ContainerLabels × DeploymentInstance))
    (m : GoMap String Deployment) (hinv : LabelsInv m) (hes : ∀ e ∈ es, e.1.Domains ≠ []) :
    LabelsInv (es.foldl (fun m e => addInstance m e.1 e.2) m) := by
  induction es generalizing m with
  | nil => exact hinv
  | cons e rest ih =>
    exact ih _ (labelsInv_addInstance m e.1 e.2 hinv (hes e (List.mem_cons_self _ _)))
      (fun e' he' => hes e' (List.mem_cons_of_mem _ he'))

theorem labelsInv_build (cli : DockerClient) (containers : List String) :
    LabelsInv (buildNewDeployments cli containers).1 := by
  unfold buildNewDeployments
  rw [buildNewDeployments_fold]
  exact labelsInv_foldl _ _ (fun app dep h => by simp [mapGet] at h) (eligible_domains cli containers)

/-- C29. After `BuildDeployments` (the listing having succeeded), every
deployment stored in the registry map has at least one instance, sits under
the key equal to the `AppName` of its labels and has at least one domain; the
excluded containers are exactly the listed containers that fail a check, each
with the one reason of the check it failed, in listing order; every listed
container is either excluded or eligible, never both; and every eligible
container has its app in the map and is either an instance of the stored
(active) deployment, carrying its id, or an older container with a smaller
id. -/
theorem C29_registry_well_formed (cli : DockerClient) (dm : DeploymentManager)
    (containers : List String) (hlist : cli.ContainerList = .ok containers) :
    ∃ changed excluded dm', BuildDeployments cli dm = .ok (changed, excluded, dm') ∧
      mapWF dm'.deployments ∧
      (∀ app dep, mapGet dm'.deployments app = some dep →
        dep.Instances ≠ [] ∧ dep.Labels.AppName = app ∧ dep.Labels.Domains ≠ []) ∧
      excluded = excludedOf cli containers ∧
      excluded.length + (eligibleContainers cli containers).length = containers.length ∧
      (∀ id ∈ containers,
        (∃ info, inspectContainer cli id = .error info ∧ info ∈ excluded) ∨
        (∃ e, inspectContainer cli id = .ok e ∧ e ∈ eligibleContainers cli containers)) ∧
      (∀ e ∈ eligibleContainers cli containers,
        ∃ dep, mapGet dm'.deployments e.1.AppName = some dep ∧
          ((e.1.DeploymentID = dep.Labels.DeploymentID ∧ e.2 ∈ dep.Instances) ∨
            e.1.DeploymentID < dep.Labels.DeploymentID)) := by
  refine ⟨hasChangedOf (compareDeployments dm.deployments (buildNewDeployments cli containers).1),
    (buildNewDeployments cli containers).2,
    { dm with
      deployments := (buildNewDeployments cli containers).1
      compareResult := compareDeployments dm.deployments (buildNewDeployments cli containers).1 },
    by simp only [BuildDeployments, hlist], mapWF_build cli containers, ?_, ?_, ?_, ?_, ?_⟩
  · intro app dep hget
    obtain ⟨⟨e, he, happ, hid⟩, _, hinst⟩ := (registryInv_build cli containers app).2 dep hget
    refine ⟨?_, labelsInv_build cli containers app dep hget⟩
    rw [hinst]
    intro hnil
    have hmem : e.2 ∈ instancesOf (eligibleContainers cli containers) app
        dep.Labels.DeploymentID := by
      unfold instancesOf
      exact List.mem_map_of_mem _ (List.mem_filter.mpr ⟨he, by simp [happ, hid]⟩)
    rw [hnil] at hmem
    exact absurd hmem (List.not_mem_nil _)
  · show (buildNewDeployments cli containers).2 = _
    unfold buildNewDeployments
    rw [buildNewDeployments_snd]
    rfl
  · show (buildNewDeployments cli containers).2.length + _ = _
    unfold buildNewDeployments
    rw [buildNewDeployments_snd]
    simp only [List.nil_append]
    exact excluded_eligible_length cli containers
  · intro id hid
    show (∃ info, _ ∧ info ∈ (buildNewDeployments cli containers).2) ∨ _
    unfold buildNewDeployments
    rw [buildNewDeployments_snd]
    cases h : inspectContainer cli id with
    | error info =>
      left
      refine ⟨info, rfl, ?_⟩
      simp only [List.nil_append]
      unfold excludedOf
      rw [List.mem_filterMap]
      exact ⟨id, hid, by simp [h]⟩
    | ok p =>
      right
      refine ⟨p, rfl, ?_⟩
      unfold eligibleContainers
      rw [List.mem_filterMap]
      exact ⟨id, hid, by simp [h]⟩
  · intro e he
    show ∃ dep, mapGet (buildNewDeployments cli containers).1 e.1.AppName = some dep ∧ _
    have hinv := registryInv_build cli containers e.1.AppName
    cases hget : mapGet (buildNewDeployments cli containers).1 e.1.AppName with
    | none => exact absurd rfl (hinv.1 hget e he)
    | some dep =>
      refine ⟨dep, rfl, ?_⟩
      obtain ⟨_, hle, hinst⟩ := hinv.2 dep hget
      by_cases hid : e.1.DeploymentID = dep.Labels.DeploymentID
      · left
        refine ⟨hid, ?_⟩
        rw [hinst]
        unfold instancesOf
        exact List.mem_map_of_mem _ (List.mem_filter.mpr ⟨he, by simp [hid]⟩)
      · right
        exact lt_of_le_of_ne (hle e he rfl) hid

/-- C29 at the runtime `registryClient`: `c4` is excluded as not inspectable,
`c1` and `c3` are the instances of `blog`, `c2` is an older container. -/
theorem C29_registry_well_formed_witness :
    registryClient.ContainerList = .ok ["c1", "c2", "c3", "c4"] ∧
    (∃ changed excluded dm', BuildDeployments registryClient {} = .ok (changed, excluded, dm') ∧
      mapWF dm'.deployments ∧
      (∀ app dep, mapGet dm'.deployments app = some dep →
        dep.Instances ≠ [] ∧ dep.Labels.AppName = app ∧ dep.Labels.Domains ≠ []) ∧
      excluded = excludedOf registryClient ["c1", "c2", "c3", "c4"]) ∧
    excludedOf registryClient ["c1", "c2", "c3", "c4"] =
      [⟨"c4", .InspectionFailed, "no such container", none⟩] :=
  ⟨rfl,
    by
      obtain ⟨c, x, dm', h1, h2, h3, h4, _⟩ :=
        C29_registry_well_formed registryClient {} ["c1", "c2", "c3", "c4"] rfl
      exact ⟨c, x, dm', h1, h2, h3, h4⟩,
    by decide⟩

theorem compareDeployments_self (d : GoMap String Deployment) (hwf : mapWF d) :
    compareDeployments d d = ⟨[], [], []⟩ := by
  rw [compareDeployments_eq d d hwf hwf]
  have hget : ∀ e ∈ d, mapGet d e.1 = some e.2 := fun e he => mapGet_of_mem d e.1 e.2 hwf he
  have hup : d.filterMap (updatedEntry d) = [] := by
    rw [List.filterMap_eq_nil_iff]
    intro e he
    simp [updatedEntry, hget e he, instancesEqual_self]
  have hrem : d.filter (fun e => (mapGet d e.1).isNone) = [] := by
    rw [List.filter_eq_nil_iff]
    intro e he
    simp [hget e he]
  rw [hup, hrem]

theorem eligible_valid (cli : DockerClient) (containers : List String) :
    ∀ e ∈ eligibleContainers cli containers, e.1.Validate = .ok () := by
  intro e he
  unfold eligibleContainers at he
  rw [List.mem_filterMap] at he
  obtain ⟨id, _, hid⟩ := he
  cases h : inspectContainer cli id with
  | error info => simp [h] at hid
  | ok p =>
    simp only [h, Option.some.injEq] at hid
    subst hid
    unfold inspectContainer at h
    split at h
    · exact absurd h (by simp)
    · split at h
      · exact absurd h (by simp)
      · rename_i labels hparse
        have hv : labels.Validate = .ok () := by
          unfold ParseContainerLabels at hparse
          split at hparse
          · exact absurd hparse (by simp)
          · rename_i u hval
            simp only [Except.ok.injEq] at hparse
            rw [← hparse]
            exact hval
        split at h
        · exact absurd h (by simp)
        · split at h
          · exact absurd h (by simp)
          · split at h
            · exact absurd h (by simp)
            · split at h
              · exact absurd h (by simp)
              · simp only [Except.ok.injEq] at h
                rw [← h]
                exact hv

theorem labels_of_addInstance (P : ContainerLabels → Prop) (m : GoMap String Deployment)
    (labels : ContainerLabels) (inst : DeploymentInstance)
    (hm : ∀ app dep, mapGet m app = some dep → P dep.Labels) (hl : P labels) :
    ∀ app dep, mapGet (addInstance m labels inst) app = some dep → P dep.Labels := by
  intro app dep hget
  unfold addInstance at hget
  have hset : ∀ v : Deployment, P v.Labels →
      mapGet (mapSet m labels.AppName v) app = some dep → P dep.Labels := by
    intro v hv h
    by_cases hk : labels.AppName = app
    · subst hk
      rw [mapGet_mapSet_self] at h
      simp only [Option.some.injEq] at h
      rw [← h]
      exact hv
    · rw [mapGet_mapSet_ne m _ _ v hk] at h
      exact hm app dep h
  split at hget
  · rename_i deployment hold
    split at hget
    · exact hset { deployment with Instances := deployment.Instances ++ [inst] }
        (hm labels.AppName deployment hold) hget
    · split at hget
      · exact hset _ hl hget
      · exact hm app dep hget
  · exact hset _ hl hget

theorem labels_of_foldl (P : ContainerLabels → Prop)
    (es : List (ContainerLabels × DeploymentInstance)) (m : GoMap String Deployment)
    (hm : ∀ app dep, mapGet m app = some dep → P dep.Labels) (hes : ∀ e ∈ es, P e.1) :
    ∀ app dep, mapGet (es.foldl (fun m e => addInstance m e.1 e.2) m) app = some dep →
      P dep.Labels := by
  induction es generalizing m with
  | nil => exact hm
  | cons e rest ih =>
    exact ih _ (labels_of_addInstance P m e.1 e.2 hm (hes e (List.mem_cons_self _ _)))
      (fun e' he' => hes e' (List.mem_cons_of_mem _ he'))

/-- The labels stored in the registry passed `ContainerLabels.Validate`, so
every canonical name in the registry is a valid domain and is not empty. -/
theorem registry_labels_valid (cli : DockerClient) (containers : List String)
    (app : String) (dep : Deployment)
    (hget : mapGet (buildNewDeployments cli containers).1 app = some dep) :
    dep.Labels.Validate = .ok () ∧
    ∀ domain ∈ dep.Labels.Domains, domain.Canonical ≠ "" := by
  have hv : dep.Labels.Validate = .ok () := by
    unfold buildNewDeployments at hget
    rw [buildNewDeployments_fold] at hget
    exact labels_of_foldl (fun l => l.Validate = .ok ()) _ _
      (fun app dep h => by simp [mapGet] at h) (eligible_valid cli containers) app dep hget
  refine ⟨hv, ?_⟩
  intro domain hd hc
  have h1 := ((validate_ok_iff dep.Labels).mp hv).2.2.1 domain hd
  have h2 := ((domainValidate_ok_iff domain).mp h1).1
  rw [hc] at h2
  exact absurd h2 (by decide)

theorem mem_unique_of_mapWF {κ α : Type} [DecidableEq κ] (m : GoMap κ α) (hwf : mapWF m)
    (k : κ) (v v' : α) (h : (k, v) ∈ m) (h' : (k, v') ∈ m) : v = v' := by
  have h1 := mapGet_of_mem m k v hwf h
  have h2 := mapGet_of_mem m k v' hwf h'
  rw [h1] at h2
  exact Option.some.inj h2

/-- C6, amended. For a map without a repeated key, a deployment `d` of `app`
in it and a domain of `d` with a non-empty canonical name (in the registry
every canonical name is non-empty, `registry_labels_valid`): `generateConfig`
emits exactly one line `use_backend <app> if ...` whose condition is the
canonical ACL names of `d` in domain order joined by " or " (and that line is
in the text of the slot); every other `use_backend` line that names `app` is
the line of the API of the daemon, which exists only for an app named
`haloy_api`; no ACL name of the condition of any `use_backend` line is the ACL
name of an alias; and every non-empty alias of the domain has its line
`redirect code 301 location https://<canonical>` in the HTTP and in the HTTPS
frontend, in the lines and in the text. -/
theorem C6_aliases_redirect_canonicals_route (cfg : Option HaloydConfig)
    (deployments backendOrder : GoMap String Deployment) (hwf : mapWF deployments)
    (app : String) (d : Deployment) (hmem : (app, d) ∈ deployments)
    (domain : Domain) (hd : domain ∈ d.Labels.Domains) (hc : domain.Canonical ≠ "") :
    ((useBackendLines cfg deployments).count
        (.useBackend app (canonicalACLs app d.Labels.Domains)) = 1 ∧
      (ConfigLine.useBackend app (canonicalACLs app d.Labels.Domains)).render =
        "    use_backend " ++ app ++ " if " ++
          strJoin ((d.Labels.Domains.filter (fun x => decide (x.Canonical ≠ ""))).map
            (fun x => generateACLName app x.Canonical "canonical")) " or " ++ "\n" ∧
      ∃ pre post, (generateTemplateData cfg deployments backendOrder).HTTPSFrontendUseBackend =
        pre ++ (ConfigLine.useBackend app (canonicalACLs app d.Labels.Domains)).render ++ post) ∧
    (∀ acls, ConfigLine.useBackend app acls ∈ useBackendLines cfg deployments →
      acls = canonicalACLs app d.Labels.Domains ∨
        (app = "haloy_api" ∧ ConfigLine.useBackend app acls ∈ apiUseBackendLines cfg)) ∧
    (∀ name acls, ConfigLine.useBackend name acls ∈ useBackendLines cfg deployments →
      ∀ app' aliasHost, aliasACLName app' aliasHost ∉ acls) ∧
    (∀ a ∈ domain.Aliases, a ≠ "" →
      (ConfigLine.redirect domain.Canonical (aliasACLName app a)).render =
        "    http-request redirect code 301 location https://" ++ domain.Canonical ++
          "%[path] if " ++ aliasACLName app a ++ " !is_acme_challenge\n" ∧
      ConfigLine.redirect domain.Canonical (aliasACLName app a) ∈
        httpFrontendLines cfg deployments ∧
      ConfigLine.redirect domain.Canonical (aliasACLName app a) ∈
        httpsFrontendLines cfg deployments ∧
      (∃ pre post, (generateTemplateData cfg deployments backendOrder).HTTPFrontend =
        pre ++ (ConfigLine.redirect domain.Canonical (aliasACLName app a)).render ++ post) ∧
      (∃ pre post, (generateTemplateData cfg deployments backendOrder).HTTPSFrontend =
        pre ++ (ConfigLine.redirect domain.Canonical (aliasACLName app a)).render ++ post)) := by
  have hcount : (useBackendLines cfg deployments).count
      (.useBackend app (canonicalACLs app d.Labels.Domains)) = 1 := by
    unfold useBackendLines
    rw [List.count_append, count_useBackend_api cfg app _ domain hd hc,
      count_useBackend_deployments deployments hwf app d hmem domain hd hc]
  refine ⟨⟨hcount, rfl, ?_⟩, ?_, ?_, ?_⟩
  · apply renderLines_of_mem
    exact List.count_pos_iff.mp (by rw [hcount]; exact Nat.one_pos)
  · intro acls hline
    unfold useBackendLines at hline
    rcases List.mem_append.mp hline with hapi | hdep
    · right
      refine ⟨?_, hapi⟩
      unfold apiUseBackendLines at hapi
      cases cfg with
      | none => simp at hapi
      | some c =>
        simp only at hapi
        split at hapi
        · simp only [List.mem_singleton, ConfigLine.useBackend.injEq] at hapi
          exact hapi.1
        · simp at hapi
    · left
      obtain ⟨e, he, hl⟩ := List.mem_flatMap.mp hdep
      unfold deploymentUseBackendLines at hl
      split at hl
      · simp at hl
      · split at hl
        · simp only [List.mem_singleton, ConfigLine.useBackend.injEq] at hl
          obtain ⟨h1, h2⟩ := hl
          have hed : e.2 = d :=
            mem_unique_of_mapWF deployments hwf app e.2 d (by rw [h1]; exact he) hmem
          rw [h2, ← h1, hed]
        · simp at hl
  · intro name acls hline app' aliasHost
    exact useBackend_acls_not_alias cfg deployments name acls hline app' aliasHost
  · intro a ha hne
    have hdom := mem_domainLines_alias app domain hc a ha hne
    have hfront := mem_frontends_of_mem_domain cfg deployments app d hmem domain hd
      (ConfigLine.redirect domain.Canonical (aliasACLName app a))
    have h1 := hfront.2 hdom.2.2
    have h2 := hfront.1 hdom.1.2
    exact ⟨rfl, h1, h2, renderLines_of_mem _ _ h1, renderLines_of_mem _ _ h2⟩

/-- C6, as stated, fails for an app named `haloy_api` when the daemon has an
API domain. The name passes `isValidAppName`, the labels pass `Validate`, and
`haloyApiApp` is the registry `BuildDeployments` builds from them; the app
has one non-empty canonical domain, and `generateConfig` emits two lines
`use_backend haloy_api if ...`, the one of the API and the one of the app. -/
theorem C6_counterexample :
    isValidAppName "haloy_api" = true ∧
    haloyApiLabels.Validate = .ok () ∧
    (buildNewDeployments haloyApiClient ["c1"]).1 = haloyApiApp ∧
    useBackendLines (some apiDomainConfig) haloyApiApp =
      [.useBackend "haloy_api" ["haloy_api_haloy_example_acl"],
       .useBackend "haloy_api" ["haloy_api_api_example_canonical"]] ∧
    (generateTemplateData (some apiDomainConfig) haloyApiApp haloyApiApp).HTTPSFrontendUseBackend =
      "    use_backend haloy_api if haloy_api_haloy_example_acl\n" ++
        "    use_backend haloy_api if haloy_api_api_example_canonical\n" := by
  refine ⟨by decide, by decide, by decide, by decide, by decide⟩

/-- C6, amended, at the registry `twoApps`: the line of `blog` and the
redirects of its alias `www.blog.example`. -/
theorem C6_aliases_redirect_canonicals_route_witness :
    mapWF twoApps ∧
    (useBackendLines none twoApps).count
      (.useBackend "blog" ["blog_blog_example_canonical"]) = 1 ∧
    (∀ acls, ConfigLine.useBackend "blog" acls ∈ useBackendLines none twoApps →
      acls = ["blog_blog_example_canonical"] ∨
        ("blog" = "haloy_api" ∧ ConfigLine.useBackend "blog" acls ∈ apiUseBackendLines none)) ∧
    ConfigLine.redirect "blog.example" "blog_www_blog_example_alias" ∈
      httpsFrontendLines none twoApps :=
  have h := C6_aliases_redirect_canonicals_route none twoApps twoApps (by decide) "blog"
    ⟨blogLabels "01", [instanceAt "c1" "10.0.0.1"]⟩ (by decide)
    ⟨"blog.example", ["www.blog.example", "m.blog.example"]⟩ (by decide) (by decide)
  ⟨by decide, h.1.1, h.2.1, (h.2.2.2 "www.blog.example" (by decide) (by decide)).2.2.1⟩

theorem count_backend_serverLines (name : String) (k : Nat) (insts : List DeploymentInstance) :
    (serverLines k insts).count (.backend name) = 0 := by
  induction insts generalizing k with
  | nil => rfl
  | cons x t ih =>
    unfold serverLines
    rw [List.count_cons_of_ne (by simp), ih]

theorem count_backend_flatMap (l : GoMap String Deployment) (app : String) :
    (l.flatMap deploymentBackendLines).count (.backend app) =
      l.countP (fun e => decide (e.2.Labels.AppName = app)) := by
  induction l with
  | nil => rfl
  | cons e rest ih =>
    rw [List.flatMap_cons, List.count_append, ih, List.countP_cons]
    unfold deploymentBackendLines
    by_cases h : e.2.Labels.AppName = app
    · rw [h, List.count_cons_self, count_backend_serverLines]
      simp
      omega
    · rw [List.count_cons_of_ne (by simpa using fun h' => h h'.symm), count_backend_serverLines]
      simp [h]

theorem countP_key_of_perm_registry (cli : DockerClient) (containers : List String)
    (l : GoMap String Deployment) (hperm : l.Perm (buildNewDeployments cli containers).1)
    (app : String) (d : Deployment) (hmem : (app, d) ∈ l) :
    l.countP (fun e => decide (e.2.Labels.AppName = app)) = 1 := by
  have hwf : mapWF l := by
    have := mapWF_build cli containers
    unfold mapWF mapKeys at this ⊢
    exact (hperm.map Prod.fst).nodup_iff.mpr this
  have hkey : ∀ e ∈ l, e.2.Labels.AppName = e.1 := by
    intro e he
    have he' : (e.1, e.2) ∈ (buildNewDeployments cli containers).1 := hperm.mem_iff.mp he
    exact (labelsInv_build cli containers e.1 e.2
      (mapGet_of_mem _ e.1 e.2 (mapWF_build cli containers) he')).1
  have h1 : l.countP (fun e => decide (e.2.Labels.AppName = app)) =
      l.countP (fun e => decide (e.1 = app)) := by
    apply List.countP_congr
    intro e he
    simp [hkey e he]
  have h2 : ∀ m : GoMap String Deployment,
      m.countP (fun e => decide (e.1 = app)) = (mapKeys m).count app := by
    intro m
    induction m with
    | nil => rfl
    | cons e rest ih =>
      unfold mapKeys at ih ⊢
      rw [List.countP_cons, List.map_cons, List.count_cons, ih]
      by_cases h : e.1 = app
      · simp [h]
      · simp [h]
  rw [h1, h2 l]
  exact List.count_eq_one_of_mem hwf (List.mem_map.mpr ⟨(app, d), hmem, rfl⟩)

theorem eligible_filter (cli : DockerClient) (containers : List String) (p : String → Bool)
    (hp : ∀ id e, inspectContainer cli id = .ok e → p id = true) :
    eligibleContainers cli (containers.filter p) = eligibleContainers cli containers := by
  unfold eligibleContainers
  induction containers with
  | nil => rfl
  | cons id rest ih =>
    cases h : inspectContainer cli id with
    | error info =>
      by_cases hpid : p id = true
      · rw [List.filter_cons_of_pos hpid, List.filterMap_cons, List.filterMap_cons]
        simp only [h]
        exact ih
      · rw [List.filter_cons_of_neg hpid, List.filterMap_cons]
        simp only [h]
        exact ih
    | ok e =>
      rw [List.filter_cons_of_pos (hp id e h), List.filterMap_cons, List.filterMap_cons]
      simp only [h]
      rw [ih]

/-- C19, amended. For the registry that `BuildDeployments` builds, visited by
the second loop of `generateConfig` in any order: every deployment has at
least one domain and sits under its app name; the slot `backends` holds its
stanza `backend <appName>` followed by exactly one line
`server app<i> <ip>:<port> check` per instance, numbered from 1 in instance
order; it is the only stanza of that name besides the one of the API of the
daemon, which is named `haloy_api` and exists when the API domain is set; and
the containers excluded for having no domain contribute nothing: without them
in the listing the registry, hence the configuration, is the same. -/
theorem C19_backend_stanzas (cfg : Option HaloydConfig) (cli : DockerClient)
    (containers : List String) (backendOrder : GoMap String Deployment)
    (hperm : backendOrder.Perm (buildNewDeployments cli containers).1) :
    (∀ app d, (app, d) ∈ backendOrder →
      d.Labels.Domains ≠ [] ∧ d.Labels.AppName = app ∧
      (∃ pre post, backendLines cfg backendOrder =
          pre ++ (ConfigLine.backend app :: serverLines 0 d.Instances) ++ post ∧
        ∀ deployments, (generateTemplateData cfg deployments backendOrder).Backends =
          renderLines pre ++
            renderLines (ConfigLine.backend app :: serverLines 0 d.Instances) ++
            renderLines post) ∧
      (ConfigLine.backend app).render = "backend " ++ app ++ "\n" ∧
      (backendLines cfg backendOrder).count (.backend app) =
        (apiBackendLines cfg).count (.backend app) + 1 ∧
      (app ≠ "haloy_api" → (backendLines cfg backendOrder).count (.backend app) = 1)) ∧
    (∀ insts : List DeploymentInstance, (serverLines 0 insts).length = insts.length ∧
      ∀ (i : Nat) (inst : DeploymentInstance), insts[i]? = some inst →
        (serverLines 0 insts)[i]? = some (.server (i + 1) inst.IP inst.Port) ∧
        (ConfigLine.server (i + 1) inst.IP inst.Port).render =
          "    server app" ++ toString (i + 1) ++ " " ++ inst.IP ++ ":" ++ inst.Port ++
            " check\n") ∧
    (buildNewDeployments cli (containers.filter (fun id => !lacksDomains cli id))).1 =
      (buildNewDeployments cli containers).1 := by
  refine ⟨?_, ?_, ?_⟩
  · intro app d hmem
    have hmem' : (app, d) ∈ (buildNewDeployments cli containers).1 := hperm.mem_iff.mp hmem
    have hget := mapGet_of_mem _ app d (mapWF_build cli containers) hmem'
    have hinv := labelsInv_build cli containers app d hget
    have hcount : (backendLines cfg backendOrder).count (.backend app) =
        (apiBackendLines cfg).count (.backend app) + 1 := by
      unfold backendLines
      rw [List.count_append, count_backend_flatMap,
        countP_key_of_perm_registry cli containers backendOrder hperm app d hmem]
    refine ⟨hinv.2, hinv.1, ?_, rfl, hcount, ?_⟩
    · obtain ⟨s, t, hst⟩ := List.append_of_mem hmem
      have hlines : backendLines cfg backendOrder =
          (apiBackendLines cfg ++ s.flatMap deploymentBackendLines) ++
            (ConfigLine.backend app :: serverLines 0 d.Instances) ++
            t.flatMap deploymentBackendLines := by
        simp [backendLines, hst, deploymentBackendLines, hinv.1]
      refine ⟨apiBackendLines cfg ++ s.flatMap deploymentBackendLines,
        t.flatMap deploymentBackendLines, hlines, ?_⟩
      intro deployments
      simp only [generateTemplateData]
      rw [hlines, renderLines_append, renderLines_append]
    · intro hne
      rw [hcount]
      have h0 : (apiBackendLines cfg).count (.backend app) = 0 := by
        rw [List.count_eq_zero]
        intro hin
        unfold apiBackendLines at hin
        cases cfg with
        | none => simp at hin
        | some c =>
          simp only at hin
          split at hin
          · simp only [List.mem_cons, ConfigLine.backend.injEq, reduceCtorEq, List.mem_singleton,
              or_false, List.not_mem_nil] at hin
            exact hne hin
          · simp at hin
      rw [h0]
  · intro insts
    refine ⟨serverLines_length insts 0, ?_⟩
    intro i inst h
    refine ⟨?_, rfl⟩
    rw [serverLines_getElem?, h]
    simp
  · unfold buildNewDeployments
    rw [buildNewDeployments_fold, buildNewDeployments_fold, eligible_filter]
    intro id e h
    simp [lacksDomains, h]

set_option maxRecDepth 10000 in
/-- C19, as stated, fails for an app named `haloy_api` when the daemon has an
API domain: `haloyApiApp` is the registry built from a container whose labels
pass `Validate`, it has one domain, and the slot `backends` holds two stanzas
`backend haloy_api`, the one of the API and the one of the app. -/
theorem C19_counterexample :
    haloyApiLabels.Validate = .ok () ∧
    (buildNewDeployments haloyApiClient ["c1"]).1 = haloyApiApp ∧
    (backendLines (some apiDomainConfig) haloyApiApp).count (.backend "haloy_api") = 2 ∧
    (generateTemplateData (some apiDomainConfig) haloyApiApp haloyApiApp).Backends =
      "backend haloy_api\n" ++
      "    mode http\n" ++
      "    # Forward to the haloyd API server\n" ++
      "    http-request set-header X-Forwarded-For %[src]\n" ++
      "    http-request set-header X-Forwarded-Proto https\n" ++
      "    http-request set-header X-Forwarded-Port %[dst_port]\n" ++
      "    http-request set-header Host %[req.hdr(host)]\n" ++
      "    server haloyd haloyd:9999 check\n" ++
      "\n" ++
      "backend haloy_api\n" ++
      "    server app1 10.0.0.1:8080 check\n" := by
  refine ⟨by decide, by decide, by decide, by decide⟩

/-- C19, amended, at the runtime `registryClient`: the stanza of `blog` with
its two servers is the only one named `backend blog`. -/
theorem C19_backend_stanzas_witness :
    (buildNewDeployments registryClient ["c1", "c2", "c3", "c4"]).1 =
      [("blog", ⟨blogLabels "02", [instanceAt "c1" "10.0.0.1", instanceAt "c3" "10.0.0.3"]⟩)] ∧
    (backendLines none (buildNewDeployments registryClient ["c1", "c2", "c3", "c4"]).1).count
      (.backend "blog") = 1 ∧
    backendLines none (buildNewDeployments registryClient ["c1", "c2", "c3", "c4"]).1 =
      [.backend "blog", .server 1 "10.0.0.1" "8080", .server 2 "10.0.0.3" "8080"] :=
  ⟨by decide,
    ((C19_backend_stanzas none registryClient ["c1", "c2", "c3", "c4"] _ (List.Perm.refl _)).1
      "blog" ⟨blogLabels "02", [instanceAt "c1" "10.0.0.1", instanceAt "c3" "10.0.0.3"]⟩
      (by decide)).2.2.2.2.2 (by decide),
    by decide⟩

theorem mapGet_perm {κ α : Type} [DecidableEq κ] (m₁ m₂ : GoMap κ α) (hp : m₁.Perm m₂)
    (hwf : mapWF m₁) (k : κ) : mapGet m₁ k = mapGet m₂ k := by
  have hwf₂ : mapWF m₂ := by
    unfold mapWF mapKeys at hwf ⊢
    exact (hp.map Prod.fst).nodup_iff.mp hwf
  cases h : mapGet m₁ k with
  | some v =>
    exact (mapGet_of_mem m₂ k v hwf₂ (hp.mem_iff.mp (mapGet_mem m₁ k v h))).symm
  | none =>
    cases h₂ : mapGet m₂ k with
    | none => rfl
    | some v =>
      have := mapGet_of_mem m₁ k v hwf (hp.mem_iff.mpr (mapGet_mem m₂ k v h₂))
      rw [h] at this
      exact absurd this (by simp)

theorem parseDomainLabel_eq (m : GoMap Int Domain) (kv : String × String) :
    parseDomainLabel m kv =
      match domainKeyOf kv.1 with
      | none => m
      | some (i, true) => updateDomain m i (fun d => { d with Aliases := d.Aliases ++ [kv.2] })
      | some (i, false) => updateDomain m i (fun d => { d with Canonical := kv.2 }) := by
  unfold parseDomainLabel domainKeyOf
  by_cases h1 : hasPrefix kv.1 "dev.haloy.domain." = false
  · simp [h1]
  · simp only [h1, if_false]
    by_cases h2 : strContains kv.1 ".alias." = true
    · simp only [h2, if_true]
      cases h3 : sscanfDomainAlias kv.1 with
      | none => simp
      | some p => simp
    · simp only [h2, if_false]
      cases h3 : sscanfDomainCanonical kv.1 with
      | none => simp
      | some i => simp

theorem mapGet_updateDomain (m : GoMap Int Domain) (j i : Int) (f : Domain → Domain) :
    mapGet (updateDomain m j f) i =
      if j = i then some (f ((mapGet m j).getD {})) else mapGet m i := by
  unfold updateDomain
  by_cases h : j = i
  · subst h
    cases hg : mapGet m j with
    | none => simp [mapGet_mapSet_self]
    | some d => simp [mapGet_mapSet_self]
  · cases hg : mapGet m j with
    | none => simp [h, mapGet_mapSet_ne m j i _ h]
    | some d => simp [h, mapGet_mapSet_ne m j i _ h]

theorem domainMap_get (l : GoMap String String) (m : GoMap Int Domain) (i : Int) :
    mapGet (l.foldl parseDomainLabel m) i = l.foldl (stepAt i) (mapGet m i) := by
  induction l generalizing m with
  | nil => rfl
  | cons kv rest ih =>
    rw [List.foldl_cons, List.foldl_cons, ih]
    congr 1
    rw [parseDomainLabel_eq]
    unfold stepAt
    cases hk : domainKeyOf kv.1 with
    | none => rfl
    | some p =>
      obtain ⟨j, b⟩ := p
      cases b with
      | true =>
        simp only [mapGet_updateDomain]
        by_cases h : j = i
        · subst h
          simp
        · simp [h]
      | false =>
        simp only [mapGet_updateDomain]
        by_cases h : j = i
        · subst h
          simp
        · simp [h]

theorem touchesIndex_cons (kv : String × String) (rest : GoMap String String) (i : Int) :
    touchesIndex (kv :: rest) i =
      ((match domainKeyOf kv.1 with
        | some (j, _) => decide (j = i)
        | none => false) || touchesIndex rest i) := rfl

theorem canonFold_cons (kv : String × String) (rest : GoMap String String) (i : Int)
    (c : String) :
    canonFold (kv :: rest) i c =
      canonFold rest i (match domainKeyOf kv.1 with
        | some (j, false) => if j = i then kv.2 else c
        | _ => c) := rfl

theorem aliasEntries_cons (kv : String × String) (rest : GoMap String String) (i : Int) :
    aliasEntries (kv :: rest) i =
      match (match domainKeyOf kv.1 with
        | some (j, true) => if j = i then some kv.2 else none
        | _ => none) with
      | some v => v :: aliasEntries rest i
      | none => aliasEntries rest i := by
  unfold aliasEntries
  rw [List.filterMap_cons]
  cases (match domainKeyOf kv.1 with
    | some (j, true) => if j = i then some kv.2 else none
    | _ => none) <;> rfl

theorem stepAt_fold (l : GoMap String String) (i : Int) (t : Bool) (c : String)
    (a : List String) (h0 : t = false → c = "" ∧ a = []) :
    l.foldl (stepAt i) (if t then some ⟨c, a⟩ else none) =
      if (t || touchesIndex l i) then some ⟨canonFold l i c, a ++ aliasEntries l i⟩
      else none := by
  induction l generalizing t c a with
  | nil =>
    simp [touchesIndex, canonFold, aliasEntries]
  | cons kv rest ih =>
    rw [List.foldl_cons, touchesIndex_cons, canonFold_cons, aliasEntries_cons]
    have hd : (if t then some (⟨c, a⟩ : Domain) else none).getD {} = ⟨c, a⟩ := by
      cases t with
      | true => rfl
      | false =>
        obtain ⟨hc, ha⟩ := h0 rfl
        rw [hc, ha]
        rfl
    cases hk : domainKeyOf kv.1 with
    | none =>
      have hs : stepAt i (if t then some ⟨c, a⟩ else none) kv =
          (if t then some ⟨c, a⟩ else none) := by
        simp only [stepAt, hk]
      rw [hs, ih t c a h0]
      simp
    | some p =>
      obtain ⟨j, b⟩ := p
      by_cases hj : j = i
      · subst hj
        cases b with
        | true =>
          have hs : stepAt j (if t then some ⟨c, a⟩ else none) kv =
              (if true then some ⟨c, a ++ [kv.2]⟩ else none) := by
            simp only [stepAt, hk, if_true, hd]
          rw [hs, ih true c (a ++ [kv.2]) (by simp)]
          simp
        | false =>
          have hs : stepAt j (if t then some ⟨c, a⟩ else none) kv =
              (if true then some ⟨kv.2, a⟩ else none) := by
            simp only [stepAt, hk, if_true, hd]
          rw [hs, ih true kv.2 a (by simp)]
          simp
      · have hs : stepAt i (if t then some ⟨c, a⟩ else none) kv =
            (if t then some ⟨c, a⟩ else none) := by
          cases b <;> simp only [stepAt, hk, hj, if_false]
        rw [hs, ih t c a h0]
        cases b <;> simp [hj]

theorem canonFold_eq (l : GoMap String String) (i : Int) (c : String) :
    canonFold l i c = (mapGet (canonicalEntries l).reverse i).getD c := by
  induction l generalizing c with
  | nil => rfl
  | cons kv rest ih =>
    unfold canonFold at ih ⊢
    rw [List.foldl_cons, ih]
    unfold canonicalEntries
    rw [List.filterMap_cons]
    cases hk : domainKeyOf kv.1 with
    | none => simp
    | some p =>
      obtain ⟨j, b⟩ := p
      cases b with
      | true => simp
      | false =>
        simp only [List.reverse_cons, mapGet_append]
        by_cases hj : j = i
        · subst hj
          cases hg : mapGet (List.filterMap _ rest).reverse j with
          | none => simp [hg, mapGet]
          | some v => simp [hg]
        · cases hg : mapGet (List.filterMap _ rest).reverse i with
          | none => simp [hg, mapGet, hj]
          | some v => simp [hg, hj]

theorem touchesIndex_perm (l₁ l₂ : GoMap String String) (hp : l₁.Perm l₂) (i : Int) :
    touchesIndex l₁ i = touchesIndex l₂ i := by
  unfold touchesIndex
  rw [Bool.eq_iff_iff, List.any_eq_true, List.any_eq_true]
  constructor
  · rintro ⟨x, hx, h⟩
    exact ⟨x, hp.mem_iff.mp hx, h⟩
  · rintro ⟨x, hx, h⟩
    exact ⟨x, hp.mem_iff.mpr hx, h⟩

theorem mapWF_reverse {κ α : Type} (m : GoMap κ α) (hwf : mapWF m) : mapWF m.reverse := by
  unfold mapWF mapKeys at hwf ⊢
  rw [List.map_reverse]
  exact List.nodup_reverse.mpr hwf

theorem canonFold_perm (l₁ l₂ : GoMap String String) (hp : l₁.Perm l₂)
    (hd : mapWF (canonicalEntries l₁)) (i : Int) (c : String) :
    canonFold l₁ i c = canonFold l₂ i c := by
  have hp' : (canonicalEntries l₁).Perm (canonicalEntries l₂) := hp.filterMap _
  have hd₂ : mapWF (canonicalEntries l₂) := by
    unfold mapWF mapKeys at hd ⊢
    exact (hp'.map Prod.fst).nodup_iff.mp hd
  rw [canonFold_eq, canonFold_eq,
    mapGet_perm _ _ (List.reverse_perm _) (mapWF_reverse _ hd),
    mapGet_perm _ _ (List.reverse_perm _) (mapWF_reverse _ hd₂),
    mapGet_perm _ _ hp' hd]

theorem domainAt_eq (l : GoMap String String) (i : Int) :
    mapGet (l.foldl parseDomainLabel []) i =
      if touchesIndex l i then some ⟨canonFold l i "", aliasEntries l i⟩ else none := by
  rw [domainMap_get]
  have h := stepAt_fold l i false "" [] (fun _ => ⟨rfl, rfl⟩)
  simpa using h

theorem mem_domainKeys_iff (l : GoMap String String) (i : Int) :
    i ∈ mapKeys (l.foldl parseDomainLabel []) ↔ touchesIndex l i = true := by
  have h := mapGet_eq_none_iff (l.foldl parseDomainLabel []) i
  rw [domainAt_eq] at h
  by_cases ht : touchesIndex l i = true
  · simp only [ht, if_true, reduceCtorEq, false_iff, not_not] at h
    exact ⟨fun _ => ht, fun _ => h⟩
  · have ht' : touchesIndex l i = false := by simpa using ht
    rw [ht'] at h
    have h' : i ∉ mapKeys (l.foldl parseDomainLabel []) := h.mp (by simp)
    rw [ht']
    exact ⟨fun hm => absurd hm h', fun hf => absurd hf (by simp)⟩

theorem domainIndices_perm (l₁ l₂ : GoMap String String) (hp : l₁.Perm l₂) :
    (mapKeys (l₁.foldl parseDomainLabel [])).insertionSort (fun a b => a ≤ b) =
      (mapKeys (l₂.foldl parseDomainLabel [])).insertionSort (fun a b => a ≤ b) := by
  have hn₁ : (mapKeys (l₁.foldl parseDomainLabel [])).Nodup :=
    mapWF_domainMap l₁ [] (by simp [mapWF, mapKeys])
  have hn₂ : (mapKeys (l₂.foldl parseDomainLabel [])).Nodup :=
    mapWF_domainMap l₂ [] (by simp [mapWF, mapKeys])
  have hperm : (mapKeys (l₁.foldl parseDomainLabel [])).Perm
      (mapKeys (l₂.foldl parseDomainLabel [])) := by
    rw [List.perm_ext_iff_of_nodup hn₁ hn₂]
    intro i
    rw [mem_domainKeys_iff, mem_domainKeys_iff, touchesIndex_perm l₁ l₂ hp]
  apply List.eq_of_perm_of_sorted (r := fun a b : Int => a ≤ b)
  · exact ((List.perm_insertionSort _ _).trans hperm).trans (List.perm_insertionSort _ _).symm
  · exact List.sorted_insertionSort _ _
  · exact List.sorted_insertionSort _ _

theorem domainValid_perm (l₁ l₂ : GoMap String String) (hp : l₁.Perm l₂)
    (hd : mapWF (canonicalEntries l₁)) (i : Int) :
    ((mapGet (l₁.foldl parseDomainLabel []) i).getD {}).Validate = .ok () ↔
      ((mapGet (l₂.foldl parseDomainLabel []) i).getD {}).Validate = .ok () := by
  rw [domainAt_eq, domainAt_eq, ← touchesIndex_perm l₁ l₂ hp, ← canonFold_perm l₁ l₂ hp hd]
  by_cases ht : touchesIndex l₁ i = true
  · simp only [ht, if_true, Option.getD_some]
    rw [domainValidate_ok_iff, domainValidate_ok_iff]
    have hal : (aliasEntries l₁ i).Perm (aliasEntries l₂ i) := hp.filterMap _
    simp only
    constructor
    · rintro ⟨h1, h2⟩
      exact ⟨h1, fun a ha => h2 a (hal.mem_iff.mpr ha)⟩
    · rintro ⟨h1, h2⟩
      exact ⟨h1, fun a ha => h2 a (hal.mem_iff.mp ha)⟩
  · simp only [ht]
    rfl

theorem parseLabelsRaw_perm (l₁ l₂ : GoMap String String) (hp : l₁.Perm l₂) (hwf : mapWF l₁)
    (hd : mapWF (canonicalEntries l₁)) :
    (parseLabelsRaw l₁).AppName = (parseLabelsRaw l₂).AppName ∧
    (parseLabelsRaw l₁).DeploymentID = (parseLabelsRaw l₂).DeploymentID ∧
    (parseLabelsRaw l₁).ACMEEmail = (parseLabelsRaw l₂).ACMEEmail ∧
    (parseLabelsRaw l₁).Role = (parseLabelsRaw l₂).Role ∧
    (parseLabelsRaw l₁).Port = (parseLabelsRaw l₂).Port ∧
    (parseLabelsRaw l₁).Domains.length = (parseLabelsRaw l₂).Domains.length ∧
    ((∀ d ∈ (parseLabelsRaw l₁).Domains, d.Validate = .ok ()) ↔
      (∀ d ∈ (parseLabelsRaw l₂).Domains, d.Validate = .ok ())) := by
  have hg : ∀ k, mapGet l₁ k = mapGet l₂ k := mapGet_perm l₁ l₂ hp hwf
  refine ⟨?_, ?_, ?_, ?_, ?_, ?_, ?_⟩
  · simp only [parseLabelsRaw, mapGetD, hg]
  · simp only [parseLabelsRaw, mapGetD, hg]
  · simp only [parseLabelsRaw, mapGetD, hg]
  · simp only [parseLabelsRaw, mapGetD, hg]
  · simp only [parseLabelsRaw, mapGetD, hg]
  · simp only [parseLabelsRaw, List.length_map]
    rw [domainIndices_perm l₁ l₂ hp]
  · simp only [parseLabelsRaw, List.mem_map, forall_exists_index, and_imp,
      forall_apply_eq_imp_iff₂]
    rw [domainIndices_perm l₁ l₂ hp]
    constructor
    · intro h i hi
      exact (domainValid_perm l₁ l₂ hp hd i).mp (h i hi)
    · intro h i hi
      exact (domainValid_perm l₁ l₂ hp hd i).mpr (h i hi)

theorem parse_perm (l₁ l₂ : GoMap String String) (hp : l₁.Perm l₂) (hwf : mapWF l₁)
    (hd : mapWF (canonicalEntries l₁)) :
    ((∃ e₁ e₂, ParseContainerLabels l₁ = .error e₁ ∧ ParseContainerLabels l₂ = .error e₂) ∨
      (ParseContainerLabels l₁ = .ok (parseLabelsRaw l₁) ∧
        ParseContainerLabels l₂ = .ok (parseLabelsRaw l₂))) := by
  obtain ⟨h1, h2, h3, h4, h5, _, h7⟩ := parseLabelsRaw_perm l₁ l₂ hp hwf hd
  have hiff : (parseLabelsRaw l₁).Validate = .ok () ↔ (parseLabelsRaw l₂).Validate = .ok () := by
    rw [validate_ok_iff, validate_ok_iff, h1, h2, h3, h4, h5, h7]
  unfold ParseContainerLabels
  cases hv₁ : (parseLabelsRaw l₁).Validate with
  | error e₁ =>
    cases hv₂ : (parseLabelsRaw l₂).Validate with
    | error e₂ => exact Or.inl ⟨e₁, e₂, rfl, rfl⟩
    | ok u =>
      have := hiff.mpr hv₂
      rw [hv₁] at this
      exact absurd this (by simp)
  | ok u =>
    have := hiff.mp hv₁
    rw [this]
    exact Or.inr ⟨rfl, rfl⟩

theorem inspectContainer_same (cli₁ cli₂ : DockerClient) (id : String)
    (hsame : SameContainer (cli₁.ContainerInspect id) (cli₂.ContainerInspect id))
    (hdist : DistinctDomainIndices (cli₁.ContainerInspect id)) :
    SameEligibility (inspectContainer cli₁ id) (inspectContainer cli₂ id) := by
  unfold inspectContainer
  cases h₁ : cli₁.ContainerInspect id with
  | error e₁ =>
    cases h₂ : cli₂.ContainerInspect id with
    | error e₂ => simp [SameEligibility]
    | ok c₂ => simp [SameContainer, h₁, h₂] at hsame
  | ok c₁ =>
    cases h₂ : cli₂.ContainerInspect id with
    | error e₂ => simp [SameContainer, h₁, h₂] at hsame
    | ok c₂ =>
      simp only [SameContainer, h₁, h₂] at hsame
      simp only [DistinctDomainIndices, h₁] at hdist
      obtain ⟨hid, hports, hnet, hstate, hperm, hwf⟩ := hsame
      have hip : ContainerNetworkIP c₁ DockerNetwork = ContainerNetworkIP c₂ DockerNetwork := by
        unfold ContainerNetworkIP
        rw [hstate, hnet]
      obtain ⟨f1, f2, _, _, f5, f6, _⟩ := parseLabelsRaw_perm c₁.Labels c₂.Labels hperm hwf hdist
      rcases parse_perm c₁.Labels c₂.Labels hperm hwf hdist with ⟨e₁, e₂, he₁, he₂⟩ | ⟨hk₁, hk₂⟩
      · simp [he₁, he₂, SameEligibility]
      · simp only [hk₁, hk₂]
        rw [← hnet, ← hports, ← f5, ← f6, ← hip, ← hid]
        by_cases hn : (mapGet c₁.Networks DockerNetwork).isNone = true
        · simp [hn, SameEligibility]
        · simp only [hn, if_false]
          by_cases hport : validateContainerPort c₁.ExposedPorts (parseLabelsRaw c₁.Labels).Port
              = false
          · simp [hport, SameEligibility]
          · simp only [hport, if_false]
            by_cases hlen : (parseLabelsRaw c₁.Labels).Domains.length = 0
            · simp [hlen, SameEligibility]
            · simp only [hlen, if_false]
              cases hipc : ContainerNetworkIP c₁ DockerNetwork with
              | error e => simp [SameEligibility]
              | ok ip => simp [SameEligibility, f1, f2]

theorem eligible_same (cli₁ cli₂ : DockerClient) (containers : List String)
    (h : ∀ id ∈ containers,
      SameEligibility (inspectContainer cli₁ id) (inspectContainer cli₂ id)) :
    List.Forall₂ (fun p₁ p₂ => p₁.1.AppName = p₂.1.AppName ∧
        p₁.1.DeploymentID = p₂.1.DeploymentID ∧ p₁.2 = p₂.2)
      (eligibleContainers cli₁ containers) (eligibleContainers cli₂ containers) := by
  unfold eligibleContainers
  induction containers with
  | nil => exact List.Forall₂.nil
  | cons id rest ih =>
    have hid := h id (List.mem_cons_self _ _)
    have hrest := ih (fun x hx => h x (List.mem_cons_of_mem _ hx))
    rw [List.filterMap_cons, List.filterMap_cons]
    cases h₁ : inspectContainer cli₁ id with
    | error e₁ =>
      cases h₂ : inspectContainer cli₂ id with
      | error e₂ => simpa using hrest
      | ok p₂ => simp [SameEligibility, h₁, h₂] at hid
    | ok p₁ =>
      cases h₂ : inspectContainer cli₂ id with
      | error e₂ => simp [SameEligibility, h₁, h₂] at hid
      | ok p₂ =>
        simp only [SameEligibility, h₁, h₂] at hid
        exact List.Forall₂.cons hid hrest

theorem sameRegistry_mapGet (m₁ m₂ : GoMap String Deployment) (h : SameRegistry m₁ m₂)
    (k : String) :
    (mapGet m₁ k = none ∧ mapGet m₂ k = none) ∨
      ∃ d₁ d₂, mapGet m₁ k = some d₁ ∧ mapGet m₂ k = some d₂ ∧
        d₁.Labels.DeploymentID = d₂.Labels.DeploymentID ∧ d₁.Instances = d₂.Instances := by
  unfold SameRegistry at h
  induction m₁ generalizing m₂ with
  | nil =>
    cases h
    exact Or.inl ⟨rfl, rfl⟩
  | cons e₁ r₁ ih =>
    cases h with
    | cons hhead htail =>
      rename_i e₂ r₂
      obtain ⟨k₁, v₁⟩ := e₁
      obtain ⟨k₂, v₂⟩ := e₂
      simp only at hhead
      obtain ⟨hk, hid, hinst⟩ := hhead
      subst hk
      by_cases hkk : k₁ = k
      · right
        exact ⟨v₁, v₂, by simp [mapGet, hkk], by simp [mapGet, hkk], hid, hinst⟩
      · simpa [mapGet, hkk] using ih r₂ htail

theorem sameRegistry_mapSet (m₁ m₂ : GoMap String Deployment) (h : SameRegistry m₁ m₂)
    (k : String) (v₁ v₂ : Deployment)
    (hid : v₁.Labels.DeploymentID = v₂.Labels.DeploymentID)
    (hinst : v₁.Instances = v₂.Instances) :
    SameRegistry (mapSet m₁ k v₁) (mapSet m₂ k v₂) := by
  unfold SameRegistry at h ⊢
  induction m₁ generalizing m₂ with
  | nil =>
    cases h
    exact List.Forall₂.cons ⟨rfl, hid, hinst⟩ List.Forall₂.nil
  | cons e₁ r₁ ih =>
    cases h with
    | cons hhead htail =>
      rename_i e₂ r₂
      obtain ⟨k₁, x₁⟩ := e₁
      obtain ⟨k₂, x₂⟩ := e₂
      simp only at hhead
      obtain ⟨hk, hxid, hxinst⟩ := hhead
      subst hk
      by_cases hkk : k₁ = k
      · simp only [mapSet, hkk, if_true]
        exact List.Forall₂.cons ⟨rfl, hid, hinst⟩ htail
      · simp only [mapSet, hkk, if_false]
        exact List.Forall₂.cons ⟨rfl, hxid, hxinst⟩ (ih r₂ htail)

theorem sameRegistry_addInstance (m₁ m₂ : GoMap String Deployment) (h : SameRegistry m₁ m₂)
    (l₁ l₂ : ContainerLabels) (inst : DeploymentInstance) (hname : l₁.AppName = l₂.AppName)
    (hid : l₁.DeploymentID = l₂.DeploymentID) :
    SameRegistry (addInstance m₁ l₁ inst) (addInstance m₂ l₂ inst) := by
  unfold addInstance
  rw [← hname, ← hid]
  rcases sameRegistry_mapGet m₁ m₂ h l₁.AppName with ⟨h₁, h₂⟩ | ⟨d₁, d₂, h₁, h₂, hdid, hdinst⟩
  · rw [h₁, h₂]
    exact sameRegistry_mapSet m₁ m₂ h _ _ _ hid rfl
  · rw [h₁, h₂]
    simp only
    rw [← hdid]
    by_cases he : d₁.Labels.DeploymentID = l₁.DeploymentID
    · simp only [he, if_true]
      exact sameRegistry_mapSet m₁ m₂ h _ _ _ hdid (by rw [hdinst])
    · simp only [he, if_false]
      by_cases hl : strLess d₁.Labels.DeploymentID l₁.DeploymentID = true
      · simp only [hl, if_true]
        exact sameRegistry_mapSet m₁ m₂ h _ _ _ hid rfl
      · simp only [hl]
        exact h

theorem sameRegistry_foldl (es₁ es₂ : List (ContainerLabels × DeploymentInstance))
    (hes : List.Forall₂ (fun p₁ p₂ => p₁.1.AppName = p₂.1.AppName ∧
        p₁.1.DeploymentID = p₂.1.DeploymentID ∧ p₁.2 = p₂.2) es₁ es₂)
    (m₁ m₂ : GoMap String Deployment) (h : SameRegistry m₁ m₂) :
    SameRegistry (es₁.foldl (fun m e => addInstance m e.1 e.2) m₁)
      (es₂.foldl (fun m e => addInstance m e.1 e.2) m₂) := by
  induction es₁ generalizing es₂ m₁ m₂ with
  | nil =>
    cases hes
    exact h
  | cons p₁ r₁ ih =>
    cases hes with
    | cons hhead htail =>
      rename_i p₂ r₂
      obtain ⟨hn, hi, hinst⟩ := hhead
      rw [List.foldl_cons, List.foldl_cons]
      apply ih r₂ htail
      rw [hinst]
      exact sameRegistry_addInstance m₁ m₂ h p₁.1 p₂.1 p₂.2 hn hi

theorem compare_sameRegistry (m₁ m₂ : GoMap String Deployment) (h : SameRegistry m₁ m₂)
    (hwf₁ : mapWF m₁) (hwf₂ : mapWF m₂) : compareDeployments m₁ m₂ = ⟨[], [], []⟩ := by
  rw [compareDeployments_eq m₁ m₂ hwf₁ hwf₂]
  have hup : m₁.filterMap (updatedEntry m₂) = [] := by
    rw [List.filterMap_eq_nil_iff]
    intro e he
    have hg := mapGet_of_mem m₁ e.1 e.2 hwf₁ he
    rcases sameRegistry_mapGet m₁ m₂ h e.1 with ⟨h₁, _⟩ | ⟨d₁, d₂, h₁, h₂, hid, hinst⟩
    · rw [hg] at h₁
      exact absurd h₁ (by simp)
    · rw [hg] at h₁
      have hd : e.2 = d₁ := Option.some.inj h₁
      simp [updatedEntry, h₂, hd, hid, hinst, instancesEqual_self]
  have hrem : m₁.filter (fun e => (mapGet m₂ e.1).isNone) = [] := by
    rw [List.filter_eq_nil_iff]
    intro e he
    have hg := mapGet_of_mem m₁ e.1 e.2 hwf₁ he
    rcases sameRegistry_mapGet m₁ m₂ h e.1 with ⟨h₁, _⟩ | ⟨d₁, d₂, _, h₂, _, _⟩
    · rw [hg] at h₁
      exact absurd h₁ (by simp)
    · simp [h₂]
  have hadd : m₂.filter (fun e => (mapGet m₁ e.1).isNone) = [] := by
    rw [List.filter_eq_nil_iff]
    intro e he
    have hg := mapGet_of_mem m₂ e.1 e.2 hwf₂ he
    rcases sameRegistry_mapGet m₁ m₂ h e.1 with ⟨_, h₂⟩ | ⟨d₁, d₂, h₁, _, _, _⟩
    · rw [hg] at h₂
      exact absurd h₂ (by simp)
    · simp [h₁]
  rw [hup, hrem, hadd]

theorem sameRegistry_build (cli₁ cli₂ : DockerClient) (containers : List String)
    (hsame : ∀ id ∈ containers,
      SameContainer (cli₁.ContainerInspect id) (cli₂.ContainerInspect id))
    (hdist : ∀ id ∈ containers, DistinctDomainIndices (cli₁.ContainerInspect id)) :
    SameRegistry (buildNewDeployments cli₁ containers).1 (buildNewDeployments cli₂ containers).1 := by
  unfold buildNewDeployments
  rw [buildNewDeployments_fold, buildNewDeployments_fold]
  apply sameRegistry_foldl
  · exact eligible_same cli₁ cli₂ containers
      (fun id hid => inspectContainer_same cli₁ cli₂ id (hsame id hid) (hdist id hid))
  · exact List.Forall₂.nil

/-- C30, amended. For every deployments map `d` (a Go map: no key twice),
`compareDeployments(d, d)` has empty updated, removed and added sets and the
flag computed from it is false. When a `BuildDeployments` follows another one
and observes the same containers, the labels of each being visited in any
order in either build, and no container has two labels that set the canonical
name of the same domain index, the second one returns `hasChanged = false`,
its comparison is empty, and the two registries hold the same apps with the
same deployment ids and the same instances (the stored labels may differ in
the order of the aliases). -/
theorem C30_empty_self_diff (d : GoMap String Deployment) (hwf : mapWF d)
    (cli₁ cli₂ : DockerClient) (dm : DeploymentManager) (containers : List String)
    (hlist₁ : cli₁.ContainerList = .ok containers)
    (hlist₂ : cli₂.ContainerList = .ok containers)
    (hsame : ∀ id ∈ containers,
      SameContainer (cli₁.ContainerInspect id) (cli₂.ContainerInspect id))
    (hdist : ∀ id ∈ containers, DistinctDomainIndices (cli₁.ContainerInspect id)) :
    compareDeployments d d = ⟨[], [], []⟩ ∧
    hasChangedOf (compareDeployments d d) = false ∧
    ∃ changed excluded dm₁ excluded₂ dm₂,
      BuildDeployments cli₁ dm = .ok (changed, excluded, dm₁) ∧
      BuildDeployments cli₂ dm₁ = .ok (false, excluded₂, dm₂) ∧
      dm₂.compareResult = ⟨[], [], []⟩ ∧
      SameRegistry dm₁.deployments dm₂.deployments := by
  refine ⟨compareDeployments_self d hwf, ?_, ?_⟩
  · rw [compareDeployments_self d hwf]
    rfl
  · have hreg := sameRegistry_build cli₁ cli₂ containers hsame hdist
    have hcmp := compare_sameRegistry _ _ hreg (mapWF_build cli₁ containers)
      (mapWF_build cli₂ containers)
    refine ⟨hasChangedOf (compareDeployments dm.deployments (buildNewDeployments cli₁ containers).1),
      (buildNewDeployments cli₁ containers).2,
      { dm with
        deployments := (buildNewDeployments cli₁ containers).1
        compareResult :=
          compareDeployments dm.deployments (buildNewDeployments cli₁ containers).1 },
      (buildNewDeployments cli₂ containers).2,
      { dm with
        deployments := (buildNewDeployments cli₂ containers).1
        compareResult := ⟨[], [], []⟩ },
      by simp only [BuildDeployments, hlist₁], ?_, rfl, hreg⟩
    simp only [BuildDeployments, hlist₂]
    rw [hcmp]
    rfl

/-- C30, as stated, fails when a container has two labels for the same domain
index. The container `c1` has the labels of `blog` and the label
`dev.haloy.domain.00`, whose value is not a domain name and which sets the
canonical name of index 0 like `dev.haloy.domain.0`. A build that visits the
added label first keeps `blog.example` and finds `c1` eligible; the next
build observes the same container and visits the added label last, keeps
`not a domain`, excludes `c1` and reports `hasChanged = true`. -/
theorem C30_counterexample :
    collidingFirst.Perm collidingLast ∧ mapWF collidingFirst ∧
    (buildNewDeployments (oneContainer collidingFirst) ["c1"]).1 =
      [("blog", ⟨blogLabels "01", [instanceAt "c1" "10.0.0.1"]⟩)] ∧
    (buildNewDeployments (oneContainer collidingLast) ["c1"]).1 = [] ∧
    (BuildDeployments (oneContainer collidingFirst) {}).map (fun r => r.1) = .ok true ∧
    (BuildDeployments (oneContainer collidingLast)
      (buildBy {} (oneContainer collidingFirst))).map (fun r => r.1) = .ok true := by
  refine ⟨List.perm_append_comm, by decide, by decide, by decide, by decide, by decide⟩

/-- C30, amended, at the registry `registryBefore` and at a container of
`blog` whose labels the second build visits in the opposite order: the second
build reports no change, though the labels it stores have the aliases in the
other order. -/
theorem C30_empty_self_diff_witness :
    mapWF registryBefore ∧
    compareDeployments registryBefore registryBefore = ⟨[], [], []⟩ ∧
    (∃ changed excluded dm₁ excluded₂ dm₂,
      BuildDeployments (oneContainer (blogLabelMap "01")) {} = .ok (changed, excluded, dm₁) ∧
      BuildDeployments (oneContainer (blogLabelMap "01").reverse) dm₁ =
        .ok (false, excluded₂, dm₂) ∧
      dm₂.compareResult = ⟨[], [], []⟩ ∧
      SameRegistry dm₁.deployments dm₂.deployments) ∧
    (buildNewDeployments (oneContainer (blogLabelMap "01")) ["c1"]).1 ≠
      (buildNewDeployments (oneContainer (blogLabelMap "01").reverse) ["c1"]).1 :=
  have h := C30_empty_self_diff registryBefore (by decide)
    (oneContainer (blogLabelMap "01")) (oneContainer (blogLabelMap "01").reverse) {} ["c1"]
    rfl rfl
    (fun id hid => by
      have hc : id = "c1" := by simpa using hid
      subst hc
      exact ⟨rfl, rfl, rfl, rfl, (List.reverse_perm _).symm, by decide⟩)
    (fun id hid => by
      have hc : id = "c1" := by simpa using hid
      subst hc
      show mapWF (canonicalEntries (blogLabelMap "01"))
      decide)
  ⟨by decide, h.1, h.2.2, by decide⟩

theorem closeChan_ok (chans chans' : List Chan) (ch : Nat)
    (h : closeChan chans ch = .ok chans') :
    closedFlags chans' = (closedFlags chans).set ch true := by
  unfold closeChan at h
  split at h
  · simp at h
  · split at h
    · simp at h
    · simp only [Except.ok.injEq] at h
      subst h
      unfold closedFlags
      rw [List.map_set]

end Haloy
